import Mathlib

/-!
# Ordered collections backed by self-balancing trees

A verification development for the AVL engine (`avl_collection.h`), the
red-black engine (`rbt_collection.h`), the plain binary search tree
(`bst_collection.h`) and the array list (`array_list.h`) that takes their output
sequences.

Conventions of the embedding.

* A `Node*` that owns its subtree becomes a value of an inductive tree type;
  `nullptr` is the constructor `nil`.
* A function that dereferences a pointer that may be null returns `Option`;
  `none` stands for the undefined behaviour of the dereference.
* The recursive helpers of the AVL engine return the new subtree root, and the
  public `add`/`remove` discard that pointer.  The field `root` follows the top
  of the tree all the same, because `rotate_right`/`rotate_left` reassign it when
  `k2 == root` and `remove` reassigns it when `subtree_root == root`; the
  embedding therefore stores the pointer returned by the helper in `root`.
* `node_count` (a `size_t`) and the stored `height` (an `int`) are natural
  numbers: both are bounded by the number of live nodes, far below the word
  size, so no wrap-around is modelled.
* Keys are compared with `<`, `>` and `==`; the key type is a linear order.
-/

namespace AVL

/-- Tree node of `AVLCollection`: key, value, stored height, left and right child. -/
inductive Node (K V : Type) where
  | nil : Node K V
  | mk (key : K) (value : V) (height : Nat) (left right : Node K V) : Node K V
  deriving DecidableEq, Repr

/-- The collection object: the root pointer and the number of stored pairs. -/
structure AVLCollection (K V : Type) where
  root : Node K V
  node_count : Nat
  deriving DecidableEq, Repr

variable {K V : Type}

/-- The helper `height(const Node*)`: the computed height, 0 for a null pointer. -/
def height : Node K V → Nat
  | .nil => 0
  | .mk _ _ _ l r => max (height l) (height r) + 1

/-- The test `ptr == nullptr`. -/
def isNull : Node K V → Bool
  | .nil => true
  | .mk _ _ _ _ _ => false

/-- The read `ptr->height` of the stored field; `none` when `ptr` is null. -/
def storedHeight : Node K V → Option Nat
  | .nil => none
  | .mk _ _ h _ _ => some h

/-- The helper `rotate_right(k2)`: `k1 = k2->left` takes the place of `k2`. -/
def rotate_right : Node K V → Option (Node K V)
  | .mk k2k k2v k2h (.mk k1k k1v k1h a b) c =>
      some (.mk k1k k1v k1h a (.mk k2k k2v k2h b c))
  | _ => none

/-- The helper `rotate_left(k2)`: `k1 = k2->right` takes the place of `k2`. -/
def rotate_left : Node K V → Option (Node K V)
  | .mk k2k k2v k2h a (.mk k1k k1v k1h b c) =>
      some (.mk k1k k1v k1h (.mk k2k k2v k2h a b) c)
  | _ => none

/-- The statement `p->height = height(p)`; `none` when `p` is null. -/
def setHeight : Node K V → Option (Node K V)
  | .nil => none
  | .mk k v _ l r => some (.mk k v (height (Node.mk k v 0 l r)) l r)

/-- The three assignments that close every branch of `rebalance`:
the height of the subtree root, of its left child and of its right child. -/
def adjustHeights : Node K V → Option (Node K V)
  | .nil => none
  | .mk k v _ l r =>
      match setHeight l, setHeight r with
      | some l1, some r1 => some (.mk k v (height (Node.mk k v 0 l r)) l1 r1)
      | _, _ => none

/-- The body shared by the two left-heavy branches of `rebalance`
(`lptr && !rptr && lptr->height > 1` and
`lptr && rptr && lptr->height > rptr->height + 1`): the if / else-if chain that
may rotate `lptr` left, the right rotation of the subtree root, the heights. -/
def rebalanceLeftHeavy (k : K) (v : V) (h : Nat) (lptr rptr : Node K V) :
    Option (Node K V) :=
  match lptr with
  | .nil => none
  | .mk _ _ _ ll lr =>
    let newLeft : Option (Node K V) :=
      match lr with
      | .nil => some lptr
      | .mk _ _ lrh _ _ =>
        match ll with
        | .nil => rotate_left lptr
        | .mk _ _ llh _ _ => if lrh > llh then rotate_left lptr else some lptr
    match newLeft with
    | none => none
    | some l1 =>
      match rotate_right (.mk k v h l1 rptr) with
      | none => none
      | some t1 => adjustHeights t1

/-- The branch `!lptr && rptr && rptr->height > 1` of `rebalance`. -/
def rebalanceRightOnly (k : K) (v : V) (h : Nat) (lptr rptr : Node K V) :
    Option (Node K V) :=
  match rptr with
  | .nil => none
  | .mk _ _ _ rl rr =>
    let newRight : Option (Node K V) :=
      match rl with
      | .nil => some rptr
      | .mk _ _ rlh _ _ =>
        match rr with
        | .nil => rotate_right rptr
        | .mk _ _ rrh _ _ => if rlh > rrh then rotate_right rptr else some rptr
    match newRight with
    | none => none
    | some r1 =>
      match rotate_left (.mk k v h lptr r1) with
      | none => none
      | some t1 => adjustHeights t1

/-- The branch `lptr && rptr && rptr->height > lptr->height + 1` of `rebalance`.
Here the second test is a plain `if`, not an `else if`: after the first chain the
code reads `rptr->left->height` and `rptr->right->height` of the node `rptr`
whatever the first chain did.  When `rptr->left` is null the read is a null
dereference; when `rptr->right` is null the first chain has rotated `rptr` down
and the read of `rptr->right->height` is a null dereference as well. -/
def rebalanceRightHeavy (k : K) (v : V) (h : Nat) (lptr rptr : Node K V) :
    Option (Node K V) :=
  match rptr with
  | .nil => none
  | .mk _ _ _ rl rr =>
    match rl, rr with
    | .nil, _ => none
    | .mk _ _ _ _ _, .nil => none
    | .mk _ _ rlh _ _, .mk _ _ rrh _ _ =>
      let newRight : Option (Node K V) :=
        if rlh > rrh then rotate_right rptr else some rptr
      match newRight with
      | none => none
      | some r1 =>
        match rotate_left (.mk k v h lptr r1) with
        | none => none
        | some t1 => adjustHeights t1

/-- The helper `rebalance(subtree_root)`; it compares the stored heights. -/
def rebalance : Node K V → Option (Node K V)
  | .nil => some .nil
  | .mk k v h lptr rptr =>
    match storedHeight lptr, storedHeight rptr with
    | some lh, none =>
        if lh > 1 then rebalanceLeftHeavy k v h lptr rptr else some (.mk k v h lptr rptr)
    | none, some rh =>
        if rh > 1 then rebalanceRightOnly k v h lptr rptr else some (.mk k v h lptr rptr)
    | some lh, some rh =>
        if lh > rh + 1 then rebalanceLeftHeavy k v h lptr rptr
        else if rh > lh + 1 then rebalanceRightHeavy k v h lptr rptr
        else some (.mk k v h lptr rptr)
    | none, none => some (.mk k v h lptr rptr)

/-- The two statements that end the helpers `add` and `remove`:
`if (subtree_root) subtree_root->height = height(subtree_root);` and
`return rebalance(subtree_root);`. -/
def finish : Node K V → Option (Node K V)
  | .nil => rebalance .nil
  | .mk k v _ l r => rebalance (.mk k v (height (Node.mk k v 0 l r)) l r)

/-- The helper `add(subtree_root, a_key, a_val)`, threading `node_count`. -/
def add [LinearOrder K] : Node K V → K → V → Nat → Option (Node K V × Nat)
  | .nil, a_key, a_val, n => some (.mk a_key a_val 1 .nil .nil, n + 1)
  | .mk key value h l r, a_key, a_val, n =>
    if a_key < key then
      match add l a_key a_val n with
      | none => none
      | some (l1, n1) =>
        match finish (.mk key value h l1 r) with
        | none => none
        | some t1 => some (t1, n1)
    else
      match add r a_key a_val n with
      | none => none
      | some (r1, n1) =>
        match finish (.mk key value h l r1) with
        | none => none
        | some t1 => some (t1, n1)

/-- The loop `while (tmp->left != nullptr) tmp = tmp->left;` of `remove`:
key and value of the left-most node; `none` when started at a null pointer. -/
def leftmost : Node K V → Option (K × V)
  | .nil => none
  | .mk k v _ l _ =>
    match leftmost l with
    | none => some (k, v)
    | some kv => some kv

/-- The read `p->left`; `none` when `p` is null. -/
def leftChild : Node K V → Option (Node K V)
  | .nil => none
  | .mk _ _ _ l _ => some l

/-- The assignment `p->left = q`; `none` when `p` is null. -/
def setLeft : Node K V → Node K V → Option (Node K V)
  | .nil, _ => none
  | .mk k v h _ r, q => some (.mk k v h q r)

/-- The helper `remove(subtree_root, a_key)`, threading `node_count`. -/
def remove [LinearOrder K] : Node K V → K → Nat → Option (Node K V × Nat)
  | .nil, _, n => some (.nil, n)
  | .mk key value h l r, a_key, n =>
    if a_key < key then
      match remove l a_key n with
      | none => none
      | some (l1, n1) =>
        match finish (.mk key value h l1 r) with
        | none => none
        | some t1 => some (t1, n1)
    else if a_key > key then
      match remove r a_key n with
      | none => none
      | some (r1, n1) =>
        match finish (.mk key value h l r1) with
        | none => none
        | some t1 => some (t1, n1)
    else if a_key = key then
      if height (Node.mk key value h l r) = 1 then
        -- CASE 1: leaf node
        match finish (Node.nil : Node K V) with
        | none => none
        | some t1 => some (t1, n - 1)
      else if height (Node.mk key value h l r) = 2 ∧ (isNull r ∨ isNull l) then
        -- CASE 2: single child
        match finish (if isNull r then l else r) with
        | none => none
        | some t1 => some (t1, n - 1)
      else
        match leftChild r with
        | none => none  -- the read `subtree_root->right->left` of a null pointer
        | some rl =>
          if isNull rl then
            -- CASE 3: the right child takes the place of the node
            match setLeft r l with
            | none => none
            | some tmp =>
              match finish tmp with
              | none => none
              | some t1 => some (t1, n - 1)
          else
            -- CASE 4: copy the in-order successor, remove it from the right
            match leftmost r with
            | none => none
            | some (sk, sv) =>
              match remove r sk n with
              | none => none
              | some (r1, n1) =>
                match finish (.mk sk sv h l r1) with
                | none => none
                | some t1 => some (t1, n1)
    else
      match finish (.mk key value h l r) with
      | none => none
      | some t1 => some (t1, n)

/-- The helper `keys(subtree_root, all_keys)`: the keys appended, in order. -/
def keys : Node K V → List K
  | .nil => []
  | .mk k _ _ l r => keys l ++ k :: keys r

/-- The loop of `find(search_key, the_val)` started at a node: the returned flag
and the content of the output parameter `the_val` afterwards. -/
def find [LinearOrder K] : Node K V → K → V → Bool × V
  | .nil, _, the_val => (false, the_val)
  | .mk key value _ l r, search_key, the_val =>
    if key = search_key then (true, value)
    else if search_key < key then find l search_key the_val
    else find r search_key the_val

/-- The helper `find(subtree_root, k1, k2, keys)` of the range lookup: the content
of the output list `keys` afterwards, given its content before the call.
`keys.add(...)` appends at the end of the list. -/
def findRange [LinearOrder K] : Node K V → K → K → List K → List K
  | .nil, _, _, out => out
  | .mk key _ _ l r, k1, k2, out =>
    if k1 > key then findRange r k1 k2 out
    else if k1 ≤ key ∧ key ≤ k2 then
      findRange r k1 k2 (findRange l k1 k2 (out ++ [key]))
    else if k2 < key then findRange l k1 k2 out
    else out

/-- The assignment `p->right = q`; `none` when `p` is null. -/
def setRight : Node K V → Node K V → Option (Node K V)
  | .nil, _ => none
  | .mk k v h l _, q => some (.mk k v h l q)

/-- The helper `copy(lhs_subtree_root, rhs_subtree_root)`: the node
`lhs_subtree_root` after the call.  For each child of `rhs_subtree_root` a new
node takes its key, value and stored height, is hung below `lhs_subtree_root`
and is filled by the recursive call; the left child comes first.  `none` when a
child has to be hung below a null `lhs_subtree_root`. -/
def copy : Node K V → Node K V → Option (Node K V)
  | lhs, .nil => some lhs
  | lhs, .mk _ _ _ .nil .nil => some lhs
  | lhs, .mk _ _ _ (.mk lk lv lh ll lr) .nil =>
    (copy (.mk lk lv lh .nil .nil) (.mk lk lv lh ll lr)).bind (setLeft lhs)
  | lhs, .mk _ _ _ .nil (.mk rk rv rh rl rr) =>
    (copy (.mk rk rv rh .nil .nil) (.mk rk rv rh rl rr)).bind (setRight lhs)
  | lhs, .mk _ _ _ (.mk lk lv lh ll lr) (.mk rk rv rh rl rr) =>
    (copy (.mk lk lv lh .nil .nil) (.mk lk lv lh ll lr)).bind fun nl =>
      (setLeft lhs nl).bind fun lhs1 =>
        (copy (.mk rk rv rh .nil .nil) (.mk rk rv rh rl rr)).bind (setRight lhs1)

namespace AVLCollection

/-- The assignment `operator=(rhs)` for `this != &rhs` (in the other case the
object is left as it is): the old tree is emptied, `node_count` is taken from
`rhs`, and the tree of `rhs` is copied below a new root node. -/
def operator_assign (_self rhs : AVLCollection K V) : Option (AVLCollection K V) :=
  match rhs.root with
  | .nil => some ⟨.nil, rhs.node_count⟩
  | .mk key value h l r =>
    match copy (.mk key value h .nil .nil) (.mk key value h l r) with
    | none => none
    | some t => some ⟨t, rhs.node_count⟩

/-- The copy constructor: `root(nullptr), node_count(0)`, then `*this = rhs`. -/
def copy_construct (rhs : AVLCollection K V) : Option (AVLCollection K V) :=
  operator_assign ⟨.nil, 0⟩ rhs

variable [LinearOrder K]

/-- The constructor `AVLCollection()`. -/
def empty : AVLCollection K V := ⟨.nil, 0⟩

/-- The public `add(a_key, a_val)`. -/
def add (c : AVLCollection K V) (a_key : K) (a_val : V) : Option (AVLCollection K V) :=
  match c.root with
  | .nil => some ⟨.mk a_key a_val 1 .nil .nil, c.node_count + 1⟩
  | .mk key value h l r =>
    match AVL.add (.mk key value h l r) a_key a_val c.node_count with
    | none => none
    | some (t, n) => some ⟨t, n⟩

/-- The public `remove(a_key)`. -/
def remove (c : AVLCollection K V) (a_key : K) : Option (AVLCollection K V) :=
  match AVL.remove c.root a_key c.node_count with
  | none => none
  | some (t, n) => some ⟨t, n⟩

/-- The public `find(search_key, the_val)`. -/
def find (c : AVLCollection K V) (search_key : K) (the_val : V) : Bool × V :=
  AVL.find c.root search_key the_val

/-- The public `find(k1, k2, keys)`: the content of the output list afterwards. -/
def findRange (c : AVLCollection K V) (k1 k2 : K) (out : List K) : List K :=
  AVL.findRange c.root k1 k2 out

/-- The public `keys(all_keys)`: the keys appended to the output list. -/
def keys (c : AVLCollection K V) : List K := AVL.keys c.root

/-- The public `sort(all_keys_sorted)`, which calls `keys(all_keys_sorted)`: the
keys appended to the output list. -/
def sort (c : AVLCollection K V) : List K := keys c

/-- The public `size()`. -/
def size (c : AVLCollection K V) : Nat := c.node_count

/-- The public `height()`. -/
def height (c : AVLCollection K V) : Nat := AVL.height c.root

end AVLCollection

/-- One call of the public interface that changes the collection. -/
inductive Op (K V : Type) where
  | add (a_key : K) (a_val : V) : Op K V
  | remove (a_key : K) : Op K V
  deriving DecidableEq, Repr

/-- Apply one operation. -/
def Op.apply [LinearOrder K] (c : AVLCollection K V) : Op K V → Option (AVLCollection K V)
  | .add k v => c.add k v
  | .remove k => c.remove k

/-- Run a sequence of operations, first to last. -/
def run [LinearOrder K] : AVLCollection K V → List (Op K V) → Option (AVLCollection K V)
  | c, [] => some c
  | c, op :: ops =>
    match op.apply c with
    | none => none
    | some c1 => run c1 ops

end AVL

namespace AVL

variable {K V : Type}

/-- The AVL balance condition at every node: the computed heights of the left and
the right subtree differ by at most one (the height of an absent child is 0). -/
def Balanced : Node K V → Prop
  | .nil => True
  | .mk _ _ _ l r =>
      Balanced l ∧ Balanced r ∧ height l ≤ height r + 1 ∧ height r ≤ height l + 1

/-- Every stored `height` field equals the computed height of its subtree. -/
def HeightsOK : Node K V → Prop
  | .nil => True
  | .mk _ _ h l r => HeightsOK l ∧ HeightsOK r ∧ h = max (height l) (height r) + 1

/-- The number of nodes of a subtree. -/
def size : Node K V → Nat
  | .nil => 0
  | .mk _ _ _ l r => size l + 1 + size r

/-- The in-order sequence of (key, value) pairs. -/
def entries : Node K V → List (K × V)
  | .nil => []
  | .mk k v _ l r => entries l ++ (k, v) :: entries r

/-- Binary-search-tree ordering with distinct keys: the in-order key sequence
is strictly ascending. -/
def Ordered [LinearOrder K] (t : Node K V) : Prop :=
  (keys t).Pairwise (· < ·)

/-- A collection reached from the empty one by `add` of keys not stored at
that moment and by `remove` of arbitrary keys. -/
inductive Reachable [LinearOrder K] : AVLCollection K V → Prop where
  | empty : Reachable AVLCollection.empty
  | add {c c1 : AVLCollection K V} (a_key : K) (a_val : V) :
      Reachable c → a_key ∉ c.keys → c.add a_key a_val = some c1 → Reachable c1
  | remove {c c1 : AVLCollection K V} (a_key : K) :
      Reachable c → c.remove a_key = some c1 → Reachable c1

/-- The keys of a subtree in pre-order: the key of a node, then the keys of its
left subtree, then the keys of its right subtree. -/
def preorder : Node K V → List K
  | .nil => []
  | .mk k _ _ l r => k :: (preorder l ++ preorder r)

/-- The mirror image of a subtree: left and right exchanged at every node, the
stored heights kept. -/
def mirror : Node K V → Node K V
  | .nil => .nil
  | .mk k v h l r => .mk k v h (mirror r) (mirror l)

end AVL

/-!
# The red-black engine

`RBTCollection` keeps a `parent` pointer in every node and works on the tree with
loops that hold pointers into it.  In the embedding the tree is again an
inductive value, and a pointer `x` into the tree is the subtree it points to
together with the list of its ancestors, nearest first (`Frame`): `x->parent` is
the first frame, `x->parent->parent` the second, the sibling of `x` is the field
`other` of the first frame, and `x` is the root exactly when the list is empty.
Rebuilding the tree from such a pointer (`zipUp`) is reading it from the root.

The code decides on which side of its parent a node hangs by comparing keys
(`x->key < p->key`, `k1->parent->key > k1->key`, `t->key < x->key`), never by
comparing pointers.  The embedding carries the real side in each frame and checks
every such comparison against it.  When they disagree the code would go on with
other nodes than the ones it names and the pointer graph stops being a tree; the
embedding returns `none` there, as it does for a null dereference and for a loop
that exceeds the iteration budget given to it.
-/

namespace RBT

/-- The node colour `color_t`. -/
inductive color_t where
  | RED : color_t
  | BLACK : color_t
  deriving DecidableEq, Repr

open color_t

/-- Tree node of `RBTCollection`; the `parent` pointer is the position of the node. -/
inductive Node (K V : Type) where
  | nil : Node K V
  | mk (key : K) (value : V) (color : color_t) (left right : Node K V) : Node K V
  deriving DecidableEq, Repr

/-- An ancestor on the way from a node up to the root: its own fields, on which
side the way down continues (`onLeft`), and its other child.  `mark` is set on the
one ancestor that `remove` holds in its variable `x` while it walks down to the
in-order successor. -/
structure Frame (K V : Type) where
  onLeft : Bool
  key : K
  value : V
  color : color_t
  other : Node K V
  mark : Bool
  deriving DecidableEq, Repr

/-- The collection object: the root pointer and the number of stored pairs. -/
structure RBTCollection (K V : Type) where
  root : Node K V
  node_count : Nat
  deriving DecidableEq, Repr

variable {K V : Type}

/-- The test `ptr == nullptr`. -/
def isNull : Node K V → Bool
  | .nil => true
  | .mk _ _ _ _ _ => false

/-- The read `ptr->color`; `none` when `ptr` is null. -/
def colorOf : Node K V → Option color_t
  | .nil => none
  | .mk _ _ c _ _ => some c

/-- The assignment `ptr->color = c` for a pointer known not to be null. -/
def setColor (c : color_t) : Node K V → Node K V
  | .nil => .nil
  | .mk k v _ l r => .mk k v c l r

/-- The ancestor with the subtree `t` put back below it. -/
def Frame.plug (f : Frame K V) (t : Node K V) : Node K V :=
  if f.onLeft then .mk f.key f.value f.color t f.other
  else .mk f.key f.value f.color f.other t

/-- The whole tree seen from the root, given a subtree and its ancestors. -/
def zipUp : List (Frame K V) → Node K V → Node K V
  | [], t => t
  | f :: fs, t => zipUp fs (f.plug t)

/-- The helper `height(Node*)`. -/
def height : Node K V → Nat
  | .nil => 0
  | .mk _ _ _ l r => max (height l) (height r) + 1

/-- The number of nodes of a subtree. -/
def size : Node K V → Nat
  | .nil => 0
  | .mk _ _ _ l r => size l + 1 + size r

/-- The helper `keys(subtree_root, all_keys)`: the keys appended, in order. -/
def keys : Node K V → List K
  | .nil => []
  | .mk k _ _ l r => keys l ++ k :: keys r

/-- The helper `black_node_height(subtree_root)`. -/
def black_node_height : Node K V → Nat
  | .nil => 1
  | .mk _ _ c l r =>
    let hl := black_node_height l
    let hr := black_node_height r
    let h := if hl > hr then hl else hr
    if c = BLACK then 1 + h else h

/-- The helper `valid_rbt(subtree_root)`. -/
def valid_rbt : Node K V → Bool
  | .nil => true
  | .mk _ _ rc l r =>
    let lcc := match colorOf l with | some c => c | none => BLACK
    let rcc := match colorOf r with | some c => c | none => BLACK
    let lbh := black_node_height l
    let rbh := black_node_height r
    let lv := valid_rbt l
    let rv := valid_rbt r
    decide (lbh = rbh) && (decide (rc ≠ RED) || (decide (lcc ≠ RED) && decide (rcc ≠ RED)))
      && lv && rv

/-- The check made by `rotate_right`/`rotate_left` when they hang `k1` below the
former parent of `k2`: the code takes the left link when
`k1->parent->key > k1->key`.  The result is `true` when that choice is the link
on which `k2` hung (or when `k2` was the root). -/
def relinkAgrees [LinearOrder K] (above : List (Frame K V)) (k1key : K) : Bool :=
  match above with
  | [] => true
  | g :: _ => decide (decide (g.key > k1key) = g.onLeft)

/-- Case 1 of the colour flip of `add_rebalance` (a BLACK node with two RED
children); `none` when `x` is null. -/
def colorFlip : Node K V → Option (Node K V)
  | .nil => none
  | .mk k v c (.mk lk lv lc ll lr) (.mk rk rv rc rl rr) =>
    if c = BLACK ∧ rc = RED ∧ lc = RED then
      some (.mk k v RED (.mk lk lv BLACK ll lr) (.mk rk rv BLACK rl rr))
    else some (.mk k v c (.mk lk lv lc ll lr) (.mk rk rv rc rl rr))
  | .mk k v c l r => some (.mk k v c l r)

/-- The helper `add_rebalance(x)`.  Input and result are the caller's pointer `x`:
the subtree below it and its ancestors. -/
def add_rebalance [LinearOrder K] (path : List (Frame K V)) (x : Node K V) :
    Option (List (Frame K V) × Node K V) :=
  match colorFlip x with
  | none => none
  | some .nil => none
  | some (.mk xk xv xc xl xr) =>
    match path with
    | [] => some ([], .mk xk xv xc xl xr)  -- p == nullptr
    | p :: rest =>
      if xc = RED ∧ p.color = RED then
        match rest with
        | [] => none  -- the read `p->parent->key` of a null pointer
        | g :: above =>
          if g.key < p.key then
            -- p is taken to be the right child of g
            if g.onLeft then none
            else if xk < p.key then
              -- inside case: rotate_right(p); x = p; rotate_left(g)
              if !p.onLeft then none
              else if !(decide (decide (g.key > xk) = false) && relinkAgrees above xk) then none
              else
                some (above,
                  .mk xk xv BLACK (.mk g.key g.value RED g.other xl)
                    (.mk p.key p.value p.color xr p.other))
            else
              -- outside case: rotate_left(g)
              if p.onLeft then none
              else if !relinkAgrees above p.key then none
              else
                some (⟨false, p.key, p.value, BLACK,
                    .mk g.key g.value RED g.other p.other, p.mark⟩ :: above,
                  .mk xk xv xc xl xr)
          else if g.key > p.key then
            -- p is taken to be the left child of g
            if !g.onLeft then none
            else if xk > p.key then
              -- inside case: rotate_left(p); x = p; rotate_right(g)
              if p.onLeft then none
              else if !(decide (decide (g.key > xk) = true) && relinkAgrees above xk) then none
              else
                some (above,
                  .mk xk xv BLACK (.mk p.key p.value p.color p.other xl)
                    (.mk g.key g.value RED xr g.other))
            else
              -- outside case: rotate_right(g)
              if !p.onLeft then none
              else if !relinkAgrees above p.key then none
              else
                some (⟨true, p.key, p.value, BLACK,
                    .mk g.key g.value RED p.other g.other, p.mark⟩ :: above,
                  .mk xk xv xc xl xr)
          else some (p :: g :: above, .mk xk xv xc xl xr)
      else some (p :: rest, .mk xk xv xc xl xr)

/-- The loop `while (x != nullptr)` of `add`: rebalance at `x`, then step to the
left or to the right child.  The result is the list of ancestors of the null
pointer at which the loop stops (its first frame is `p`). -/
def addLoop [LinearOrder K] (a_key : K) :
    Nat → List (Frame K V) → Node K V → Option (List (Frame K V))
  | 0, _, _ => none
  | _ + 1, path, .nil => some path
  | fuel + 1, path, .mk k v c l r =>
    match add_rebalance path (.mk k v c l r) with
    | none => none
    | some (_, .nil) => none
    | some (path1, .mk xk xv xc xl xr) =>
      if a_key < xk then addLoop a_key fuel (⟨true, xk, xv, xc, xr, false⟩ :: path1) xl
      else addLoop a_key fuel (⟨false, xk, xv, xc, xl, false⟩ :: path1) xr

/-- The helper-free body of `add(a_key, a_val)` on the root pointer. -/
def add [LinearOrder K] (root : Node K V) (a_key : K) (a_val : V) : Option (Node K V) :=
  match addLoop a_key (2 * size root + 2) [] root with
  | none => none
  | some path =>
    -- the new RED node hangs on the side of `p` chosen by `a_key < p->key`,
    -- the comparison that chose the last step of the loop
    match add_rebalance path (.mk a_key a_val RED .nil .nil) with
    | none => none
    | some (path1, x1) => some (setColor BLACK (zipUp path1 x1))

/-- CASE 2 of `remove_rebalance`: `p->color = BLACK; t->color = RED; x->color = RED`. -/
def removeCase2 (p : Frame K V) (rest : List (Frame K V)) (x : Node K V) :
    List (Frame K V) × Node K V :=
  ({ p with color := BLACK, other := setColor RED p.other } :: rest, setColor RED x)

/-- CASE 3 or 4 of `remove_rebalance` when `t->right` is RED: the left-right case
(`rotate_left(t); rotate_right(p)`) when `t->key < x->key`, else the right-right
case (`rotate_left(p); t->color = RED; t->right->color = BLACK`); then
`p->color = BLACK; x->color = RED`.  `none` when `t` or `t->right` is null. -/
def removeRedRight [LinearOrder K] (p : Frame K V) (rest : List (Frame K V)) (x : Node K V) :
    Option (List (Frame K V) × Node K V) :=
  match x, p.other with
  | .mk xk _ _ _ _, .mk tk tv tc tl (.mk rk rv rc rl rr) =>
    if tk < xk then
      -- t is taken to be the left child of p
      if p.onLeft then none
      else if !(decide (p.key > rk) && relinkAgrees rest rk) then none
      else
        some ({ p with color := BLACK, other := rr } ::
            ⟨false, rk, rv, rc, .mk tk tv tc tl rl, false⟩ :: rest, setColor RED x)
    else
      -- t is taken to be the right child of p
      if !p.onLeft then none
      else if !relinkAgrees rest tk then none
      else
        some ({ p with color := BLACK, other := tl } ::
            ⟨true, tk, tv, RED, .mk rk rv BLACK rl rr, false⟩ :: rest, setColor RED x)
  | _, _ => none

/-- CASE 3 or 4 of `remove_rebalance` when `t->left` is the RED child: the
left-left case (`rotate_right(p); t->color = RED; t->left->color = BLACK`) when
`t->key < x->key`, else the right-left case (`rotate_right(t); rotate_left(p)`);
then `p->color = BLACK; x->color = RED`.  `none` when `t` or `t->left` is null. -/
def removeRedLeft [LinearOrder K] (p : Frame K V) (rest : List (Frame K V)) (x : Node K V) :
    Option (List (Frame K V) × Node K V) :=
  match x, p.other with
  | .mk xk _ _ _ _, .mk tk tv tc (.mk lk lv lc ll lr) tr =>
    if tk < xk then
      -- t is taken to be the left child of p
      if p.onLeft then none
      else if !relinkAgrees rest tk then none
      else
        some ({ p with color := BLACK, other := tr } ::
            ⟨false, tk, tv, RED, .mk lk lv BLACK ll lr, false⟩ :: rest, setColor RED x)
    else
      -- t is taken to be the right child of p
      if !p.onLeft then none
      else if !(decide (¬ p.key > lk) && relinkAgrees rest lk) then none
      else
        some ({ p with color := BLACK, other := ll } ::
            ⟨true, lk, lv, lc, .mk tk tv tc lr tr, false⟩ :: rest, setColor RED x)
  | _, _ => none

/-- The part of `remove_rebalance` that looks at the children of the sibling `t`
(`else if (t->right && t->left) ... else if (t->right) ... else if (t->left) ...
else ...`).  The four copies of it in the code are the same text, except that the
copy for "only `x->left` exists" tests `t->right->color == BLACK` alone where the
others test both children of `t`; `rightOnlyTest` selects that copy. -/
def removeSibling [LinearOrder K] (rightOnlyTest : Bool) (p : Frame K V)
    (rest : List (Frame K V)) (x : Node K V) : Option (List (Frame K V) × Node K V) :=
  match p.other with
  | .nil => none
  | .mk _ _ _ (.mk _ _ lc _ _) (.mk _ _ rc _ _) =>
    if rc = BLACK ∧ (rightOnlyTest ∨ lc = BLACK) then some (removeCase2 p rest x)
    else if rc = RED then removeRedRight p rest x
    else removeRedLeft p rest x
  | .mk _ _ _ .nil (.mk _ _ rc _ _) =>
    if rc = BLACK then some (removeCase2 p rest x) else removeRedRight p rest x
  | .mk _ _ _ (.mk _ _ lc _ _) .nil =>
    if lc = BLACK then some (removeCase2 p rest x) else removeRedLeft p rest x
  | .mk _ _ _ .nil .nil => some (removeCase2 p rest x)

/-- CASE 1 of `remove_rebalance` towards the right: `rotate_right(x)`, then
`x->parent->color = BLACK; x->color = RED` and `x->right->color = BLACK` when
`x->right` exists. -/
def removeCase1Right [LinearOrder K] (path : List (Frame K V)) (x : Node K V) :
    Option (List (Frame K V) × Node K V) :=
  match x with
  | .mk xk xv _ (.mk lk lv _ ll lr) xr =>
    if !relinkAgrees path lk then none
    else some (⟨false, lk, lv, BLACK, ll, false⟩ :: path, .mk xk xv RED lr (setColor BLACK xr))
  | _ => none

/-- CASE 1 of `remove_rebalance` towards the left: `rotate_left(x)`, then
`x->parent->color = BLACK; x->color = RED` and `x->left->color = BLACK` when
`x->left` exists. -/
def removeCase1Left [LinearOrder K] (path : List (Frame K V)) (x : Node K V) :
    Option (List (Frame K V) × Node K V) :=
  match x with
  | .mk xk xv _ xl (.mk rk rv _ rl rr) =>
    if !relinkAgrees path rk then none
    else some (⟨true, rk, rv, BLACK, rr, false⟩ :: path, .mk xk xv RED (setColor BLACK xl) rl)
  | _ => none

/-- The sibling pointer `t` of `remove_rebalance`, computed from `p = x->parent`:
`p->right` when `x->key < p->key`, else `p->left`.  The outer `none` is the case
in which that comparison does not agree with the side on which `x` hangs (`t`
would be `x` itself); the inner value is the pointer, null when `p` is null. -/
def siblingOf [LinearOrder K] (path : List (Frame K V)) (xk : K) : Option (Node K V) :=
  match path with
  | [] => some .nil
  | p :: _ => if decide (xk < p.key) = p.onLeft then some p.other else none

/-- The helper `remove_rebalance(x, going_right)`.  Input and result are the
caller's pointer `x`: the subtree below it and its ancestors. -/
def remove_rebalance [LinearOrder K] (path : List (Frame K V)) (x : Node K V)
    (going_right : Bool) : Option (List (Frame K V) × Node K V) :=
  match x with
  | .nil => none
  | .mk xk _ xc xl xr =>
    if xc = RED then some (path, x)
    else
      match siblingOf path xk with
      | none => none
      | some t =>
        match xl, xr with
        | .mk _ _ lc _ _, .mk _ _ rc _ _ =>
          -- both of x's children exist
          if (rc = RED ∧ lc = BLACK) ∨ (lc = RED ∧ rc = BLACK) then
            if going_right ∧ lc = RED then removeCase1Right path x
            else if ¬ going_right ∧ rc = RED then removeCase1Left path x
            else some (path, x)
          else
            match path, colorOf t with
            | p :: rest, some tc =>
              if tc = RED ∨ (rc = RED ∨ lc = RED) then some (path, x)
              else removeSibling false p rest x
            | _, _ => some (path, x)  -- !t
        | .nil, .mk _ _ rc _ _ =>
          -- only the right child of x exists
          if rc = RED then
            if ¬ going_right ∧ rc = RED then removeCase1Left path x
            else some (path, x)
          else
            match path, colorOf t with
            | p :: rest, some tc =>
              if tc = RED ∨ rc = BLACK then some (path, x)
              else removeSibling false p rest x
            | _, _ => some (path, x)  -- !t
        | .mk _ _ lc _ _, .nil =>
          -- only the left child of x exists
          if lc = RED then
            if going_right ∧ lc = RED then removeCase1Right path x
            else some (path, x)
          else
            match path, colorOf t with
            | p :: rest, some tc =>
              if tc = RED ∨ lc = RED then some (path, x)
              else removeSibling true p rest x
            | _, _ => some (path, x)  -- !t
        | .nil, .nil =>
          -- x has no children
          match path, colorOf t with
          | p :: rest, some tc =>
            if tc = RED then some (path, x)
            else removeSibling false p rest x
          | _, _ => some (path, x)  -- !t

/-- What the search loop of `remove` hands over: the pointer `x` (null when the
key was not found) and whether the key was found. -/
structure Located (K V : Type) where
  path : List (Frame K V)
  x : Node K V
  found : Bool

/-- The loop `while (x != nullptr && found != true)` of `remove`. -/
def removeLoop [LinearOrder K] (a_key : K) :
    Nat → List (Frame K V) → Node K V → Option (Located K V)
  | 0, _, _ => none
  | _ + 1, path, .nil => some ⟨path, .nil, false⟩
  | fuel + 1, path, .mk k v c l r =>
    if a_key < k then
      match remove_rebalance path (.mk k v c l r) false with
      | some (path1, .mk xk xv xc xl xr) =>
        removeLoop a_key fuel (⟨true, xk, xv, xc, xr, false⟩ :: path1) xl
      | _ => none
    else if a_key > k then
      match remove_rebalance path (.mk k v c l r) true with
      | some (path1, .mk xk xv xc xl xr) =>
        removeLoop a_key fuel (⟨false, xk, xv, xc, xl, false⟩ :: path1) xr
      | _ => none
    else
      match remove_rebalance path (.mk k v c l r) (!isNull l) with
      | some (path1, x1) => some ⟨path1, x1, true⟩
      | none => none

/-- The loop `while (s->left != nullptr) { s = s->left; remove_rebalance(s,false); }`
of `remove`, started after the first `remove_rebalance(s, false)`. -/
def successorLoop [LinearOrder K] :
    Nat → List (Frame K V) → Node K V → Option (List (Frame K V) × Node K V)
  | 0, _, _ => none
  | _, _, .nil => none
  | _ + 1, path, .mk sk sv sc .nil sr => some (path, .mk sk sv sc .nil sr)
  | fuel + 1, path, .mk sk sv sc (.mk lk lv lc ll lr) sr =>
    match remove_rebalance (⟨true, sk, sv, sc, sr, false⟩ :: path) (.mk lk lv lc ll lr) false with
    | none => none
    | some (path1, s1) => successorLoop fuel path1 s1

/-- The assignments `x->key = s->key; x->value = x->value;` of `remove`, made on
the ancestor that `x` points to.  The second one changes nothing: the value of
the successor is not copied. -/
def overwriteMarked (sk : K) : List (Frame K V) → List (Frame K V)
  | [] => []
  | f :: fs =>
    if f.mark then { f with key := sk, mark := false } :: fs
    else f :: overwriteMarked sk fs

/-- The statements `p->left = nullptr` / `p->right = nullptr` by which `remove`
detaches the node with key `k` from its parent, the first frame: the left link
is cleared when `k < p->key`.  Whatever hangs below the detached node is
dropped with it.  `none` when the link cleared is not the link of the node, or
when there is no parent. -/
def unlink [LinearOrder K] (path : List (Frame K V)) (k : K) : Option (Node K V) :=
  match path with
  | [] => none
  | p :: rest => if decide (k < p.key) = p.onLeft then some (zipUp rest (p.plug .nil)) else none

/-- The body of `remove(a_key)` on the root pointer and the node count. -/
def remove [LinearOrder K] (root : Node K V) (node_count : Nat) (a_key : K) :
    Option (Node K V × Nat) :=
  match removeLoop a_key (size root + 1) [] root with
  | none => none
  | some ⟨path, x, false⟩ =>
    -- the key was not found: `return;` with the tree as the loop left it
    some (zipUp path x, node_count)
  | some ⟨_, .nil, true⟩ => none
  | some ⟨path, .mk xk xv xc xl xr, true⟩ =>
    let newRoot : Option (Node K V) :=
      if isNull xl ∨ isNull xr then
        match path with
        | [] =>
          -- x == root: the child of x, if any, becomes the root.  Its parent
          -- pointer is left pointing to the deleted node, a state that has no
          -- tree value; only the removal of the last node is followed.
          if isNull xl ∧ isNull xr then some .nil else none
        | _ :: _ => unlink path xk
      else
        match remove_rebalance (⟨false, xk, xv, xc, xl, true⟩ :: path) xr false with
        | none => none
        | some (path1, s1) =>
          match successorLoop (size xr + 1) path1 s1 with
          | some (path2, .mk sk _ _ _ _) => unlink (overwriteMarked sk path2) sk
          | _ => none
    match newRoot with
    | none => none
    | some r => some (setColor BLACK r, node_count - 1)

/-- The loop of `find(search_key, the_val)` started at a node: the returned flag
and the content of the output parameter `the_val` afterwards. -/
def find [LinearOrder K] : Node K V → K → V → Bool × V
  | .nil, _, the_val => (false, the_val)
  | .mk key value _ l r, search_key, the_val =>
    if key = search_key then (true, value)
    else if search_key < key then find l search_key the_val
    else find r search_key the_val

/-- The helper `find(subtree_root, k1, k2, keys)` of the range lookup: the content
of the output list `keys` afterwards, given its content before the call.
`keys.add(...)` appends at the end of the list. -/
def findRange [LinearOrder K] : Node K V → K → K → List K → List K
  | .nil, _, _, out => out
  | .mk key _ _ l r, k1, k2, out =>
    if k1 > key then findRange r k1 k2 out
    else if k1 ≤ key ∧ key ≤ k2 then
      findRange r k1 k2 (findRange l k1 k2 (out ++ [key]))
    else if k2 < key then findRange l k1 k2 out
    else out

namespace RBTCollection

variable [LinearOrder K]

/-- The constructor `RBTCollection()`. -/
def empty : RBTCollection K V := ⟨.nil, 0⟩

/-- The public `add(a_key, a_val)`; `++node_count` is its first effect. -/
def add (c : RBTCollection K V) (a_key : K) (a_val : V) : Option (RBTCollection K V) :=
  match RBT.add c.root a_key a_val with
  | none => none
  | some t => some ⟨t, c.node_count + 1⟩

/-- The public `remove(a_key)`. -/
def remove (c : RBTCollection K V) (a_key : K) : Option (RBTCollection K V) :=
  match RBT.remove c.root c.node_count a_key with
  | none => none
  | some (t, n) => some ⟨t, n⟩

/-- The public `find(search_key, the_val)`. -/
def find (c : RBTCollection K V) (search_key : K) (the_val : V) : Bool × V :=
  RBT.find c.root search_key the_val

/-- The public `find(k1, k2, keys)`: the content of the output list afterwards. -/
def findRange (c : RBTCollection K V) (k1 k2 : K) (out : List K) : List K :=
  RBT.findRange c.root k1 k2 out

/-- The public `keys(all_keys)`: the keys appended to the output list. -/
def keys (c : RBTCollection K V) : List K := RBT.keys c.root

/-- The public `size()`. -/
def size (c : RBTCollection K V) : Nat := c.node_count

/-- The public `height()`. -/
def height (c : RBTCollection K V) : Nat := RBT.height c.root

/-- The public `valid_rbt()`. -/
def valid_rbt (c : RBTCollection K V) : Bool :=
  isNull c.root || (decide (colorOf c.root = some BLACK) && RBT.valid_rbt c.root)

end RBTCollection

/-- One call of the public interface that changes the collection. -/
inductive Op (K V : Type) where
  | add (a_key : K) (a_val : V) : Op K V
  | remove (a_key : K) : Op K V
  deriving DecidableEq, Repr

/-- Apply one operation. -/
def Op.apply [LinearOrder K] (c : RBTCollection K V) : Op K V → Option (RBTCollection K V)
  | .add k v => c.add k v
  | .remove k => c.remove k

/-- Run a sequence of operations, first to last. -/
def run [LinearOrder K] : RBTCollection K V → List (Op K V) → Option (RBTCollection K V)
  | c, [] => some c
  | c, op :: ops =>
    match op.apply c with
    | none => none
    | some c1 => run c1 ops

end RBT

namespace RBT

variable {K V : Type}

open color_t

/-- The in-order sequence of (key, value) pairs. -/
def entries : Node K V → List (K × V)
  | .nil => []
  | .mk k v _ l r => entries l ++ (k, v) :: entries r

/-- Binary-search-tree ordering with distinct keys: the in-order key sequence
is strictly ascending. -/
def Ordered [LinearOrder K] (t : Node K V) : Prop :=
  (keys t).Pairwise (· < ·)

/-- The colour of the root of a subtree, BLACK for the empty subtree (the
convention of `valid_rbt`). -/
def rootColor : Node K V → color_t
  | .nil => BLACK
  | .mk _ _ c _ _ => c

/-- The red-black conditions that the helper `valid_rbt(subtree_root)` checks at
every node: equal black height of the two subtrees, and no RED node with a RED
child. -/
def RB : Node K V → Prop
  | .nil => True
  | .mk _ _ c l r =>
      black_node_height l = black_node_height r ∧
      (c = RED → rootColor l ≠ RED ∧ rootColor r ≠ RED) ∧ RB l ∧ RB r

/-- The red-black conditions on the ancestors of a position, for a subtree with
root colour `c` and black height `n` at that position. -/
def PathRB : List (Frame K V) → color_t → Nat → Prop
  | [], _, _ => True
  | f :: fs, c, n =>
      RB f.other ∧ black_node_height f.other = n ∧
      (f.color = RED → c ≠ RED ∧ rootColor f.other ≠ RED) ∧
      PathRB fs f.color (if f.color = BLACK then n + 1 else n)

/-- The pairs that precede a position in the in-order sequence of the tree. -/
def leftEntries : List (Frame K V) → List (K × V)
  | [] => []
  | f :: fs => leftEntries fs ++ (if f.onLeft then [] else entries f.other ++ [(f.key, f.value)])

/-- The pairs that follow a position in the in-order sequence of the tree. -/
def rightEntries : List (Frame K V) → List (K × V)
  | [] => []
  | f :: fs => (if f.onLeft then (f.key, f.value) :: entries f.other else []) ++ rightEntries fs

/-- A BLACK node that does not have two RED children: the colour flip of
`add_rebalance` does not apply to it. -/
def FreshBlack : Node K V → Prop
  | .nil => False
  | .mk _ _ c l r => c = BLACK ∧ ¬ (rootColor l = RED ∧ rootColor r = RED)

/-- The child of a node to which the loop of `add` steps. -/
def navChild [LinearOrder K] (a_key : K) : Node K V → Node K V
  | .nil => .nil
  | .mk k _ _ l r => if a_key < k then l else r

/-- The number of nodes that the search for `a_key` visits below a pointer. -/
def searchLen [LinearOrder K] (a_key : K) : Node K V → Nat
  | .nil => 0
  | .mk k _ _ l r => if a_key < k then searchLen a_key l + 1 else searchLen a_key r + 1

/-- The number of iterations that the loop of `add` still needs at most. -/
def addMeasure [LinearOrder K] (a_key : K) (x : Node K V) : Nat :=
  2 * searchLen a_key x + (if isNull x = false ∧ rootColor x = BLACK then 1 else 0)

/-- The part of the invariant of the loop of `add` that also holds between the
call of `add_rebalance` and the step to the child: the tree is ordered, the new
key belongs at the position of the pointer, and the red-black conditions hold
everywhere (the colour of the root apart). -/
structure AddBase [LinearOrder K] (a_key : K) (path : List (Frame K V)) (x : Node K V) :
    Prop where
  sorted : (leftEntries path ++ entries x ++ rightEntries path).Pairwise (fun a b => a.1 < b.1)
  gapL : ∀ e ∈ leftEntries path, e.1 < a_key
  gapR : ∀ e ∈ rightEntries path, a_key < e.1
  notin : ∀ e ∈ entries x, e.1 ≠ a_key
  rbx : RB x
  rbp : PathRB path (rootColor x) (black_node_height x)

/-- The invariant of the loop of `add` at the test `x != nullptr`.  The last two
fields say where a colour flip cannot happen: below a RED parent that is the
root or has a RED sibling, and, when `x` itself is RED and is the root or has a
RED sibling, at the child of `x` that the loop visits next. -/
structure AddInv [LinearOrder K] (a_key : K) (path : List (Frame K V)) (x : Node K V) :
    Prop where
  base : AddBase a_key path x
  redParent : ∀ p rest, path = p :: rest → p.color = RED →
    (rest = [] ∨ ∃ g above, rest = g :: above ∧ rootColor g.other = RED) → FreshBlack x
  redSelf : rootColor x = RED →
    (path = [] ∨ ∃ p rest, path = p :: rest ∧ rootColor p.other = RED) →
    FreshBlack (navChild a_key x)

/-- The child of a node on the side to which `remove` goes on (`going_right`). -/
def dirChild (going_right : Bool) : Node K V → Node K V
  | .nil => .nil
  | .mk _ _ _ l r => if going_right then r else l

/-- The child of a node on the side away from which `remove` goes on. -/
def otherChild (going_right : Bool) : Node K V → Node K V
  | .nil => .nil
  | .mk _ _ _ l r => if going_right then l else r

/-- How `remove_rebalance` changes the list of ancestors of `x`: the parent keeps
its place, key, value and mark (its colour and its other child may change), and
at most one ancestor is added, either as the new parent of `x` (on the side given
by `side`) or right above the old parent, on the same side as the old parent. -/
def PathStep (side : Bool) (path path1 : List (Frame K V)) : Prop :=
  path1 = path ∨
  (∃ f, path1 = f :: path ∧ f.mark = false ∧ f.onLeft = side) ∨
  (∃ p rest c o, path = p :: rest ∧
    (path1 = { p with color := c, other := o } :: rest ∨
     ∃ f, path1 = { p with color := c, other := o } :: f :: rest ∧
       f.mark = false ∧ f.onLeft = p.onLeft))

/-- The condition under which `remove_rebalance` can turn a BLACK node `x` RED:
`x` is the root, or its parent is RED, or its parent is the root and the sibling
of `x` is not RED. -/
def ParentOK (path : List (Frame K V)) : Prop :=
  path = [] ∨ ∃ p rest, path = p :: rest ∧
    (p.color = RED ∨ (rest = [] ∧ rootColor p.other ≠ RED))

/-- The invariant of the loops of `remove` at a pointer `x`: the tree is ordered,
the red-black conditions hold everywhere (the colour of the root apart), and a
BLACK node `x` satisfies `ParentOK`. -/
structure RemInv [LinearOrder K] (path : List (Frame K V)) (x : Node K V) : Prop where
  sorted : (leftEntries path ++ entries x ++ rightEntries path).Pairwise (fun a b => a.1 < b.1)
  rbx : RB x
  rbp : PathRB path (rootColor x) (black_node_height x)
  parentOK : isNull x = false → rootColor x = BLACK → ParentOK path

/-- What holds at the node `x` that `remove` has found, after the last call of
`remove_rebalance(x, going_right)` of the search loop: the invariant of the loop
without the condition on the parent, a node that lacks a child has no child at
all and is then RED or the root, and the step to the right child keeps the
invariant of the loop. -/
structure FoundInv [LinearOrder K] (path : List (Frame K V)) (xk : K) (xv : V) (xc : color_t)
    (xl xr : Node K V) : Prop where
  sorted : (leftEntries path ++ entries (Node.mk xk xv xc xl xr) ++ rightEntries path).Pairwise
    (fun a b => a.1 < b.1)
  rbx : RB (Node.mk xk xv xc xl xr)
  rbp : PathRB path xc (black_node_height (Node.mk xk xv xc xl xr))
  leaf : isNull xl = true ∨ isNull xr = true → xl = .nil ∧ xr = .nil ∧ (xc = RED ∨ path = [])
  right : rootColor xr = BLACK → xc = RED ∨ (path = [] ∧ rootColor xl ≠ RED)

/-- The shape of the list of ancestors while `remove` walks to the in-order
successor of the node `x` with key `xk`: every ancestor below `x` is left through
its left link, and `x` itself, the marked one, through its right link. -/
def SuccPath (xk : K) : List (Frame K V) → Prop
  | [] => False
  | f :: fs =>
      (f.mark = true ∧ f.onLeft = false ∧ f.key = xk) ∨
      (f.mark = false ∧ f.onLeft = true ∧ SuccPath xk fs)

/-- What holds at the pointer `s` of `remove` after each call of
`remove_rebalance(s, false)` on the way to the in-order successor. -/
structure SuccInv [LinearOrder K] (xk : K) (path : List (Frame K V)) (sk : K) (sv : V)
    (sc : color_t) (sl sr : Node K V) : Prop where
  sorted : (leftEntries path ++ entries (Node.mk sk sv sc sl sr) ++ rightEntries path).Pairwise
    (fun a b => a.1 < b.1)
  rbx : RB (Node.mk sk sv sc sl sr)
  rbp : PathRB path sc (black_node_height (Node.mk sk sv sc sl sr))
  left : rootColor sl = BLACK → sc = RED ∨ (path = [] ∧ rootColor sr ≠ RED)
  leaf : isNull sl = true → sr = .nil ∧ (sc = RED ∨ path = [])
  shape : SuccPath xk path

/-- The keys of a subtree in pre-order: the key of a node, then the keys of its
left subtree, then the keys of its right subtree. -/
def preorder : Node K V → List K
  | .nil => []
  | .mk k _ _ l r => k :: (preorder l ++ preorder r)

/-- No RED node has a RED child. -/
def NoRedRed : Node K V → Prop
  | .nil => True
  | .mk _ _ c l r => (c = RED → rootColor l ≠ RED ∧ rootColor r ≠ RED) ∧ NoRedRed l ∧ NoRedRed r

/-- The numbers of BLACK nodes on the paths from the root of a subtree to its
absent children, one number for each path, from left to right. -/
def blackCounts : Node K V → List Nat
  | .nil => [0]
  | .mk _ _ c l r =>
      (blackCounts l ++ blackCounts r).map (fun n => if c = BLACK then n + 1 else n)

/-- Every path from the root to an absent child passes through the same number
of BLACK nodes. -/
def EqualBlackCounts (t : Node K V) : Prop :=
  ∀ a ∈ blackCounts t, ∀ b ∈ blackCounts t, a = b

end RBT

/-!
# The copy of a red-black collection, with the pointers kept

`RBTCollection::operator=` and its helper `copy` write the field `parent` of the
nodes they create.  Which node such a pointer designates cannot be read off a
tree value, so these two functions are embedded a second time over a heap: a
list of node records in which a pointer is the index of a record and
`new Node` appends a record.
-/

namespace RBTHeap

open RBT

/-- A node record of `RBTCollection` with its three pointers; `none` is
`nullptr`. -/
structure PNode (K V : Type) where
  key : K
  value : V
  color : color_t
  parent : Option Nat
  left : Option Nat
  right : Option Nat
  deriving DecidableEq, Repr

/-- The collection object: the root pointer and the number of stored pairs. -/
structure PCollection where
  root : Option Nat
  node_count : Nat
  deriving DecidableEq, Repr

variable {K V : Type}

/-- The part of the helper `copy` for one child `child` of `rhs_subtree_root`:
a new node takes key, value, `parent` and colour of the child, with null
children; the heap with the new node, and its address. -/
def newNodeFrom (h : List (PNode K V)) (child : PNode K V) : List (PNode K V) × Nat :=
  (h ++ [{ key := child.key, value := child.value, color := child.color,
           parent := child.parent, left := none, right := none }], h.length)

/-- The helper `copy(lhs_subtree_root, rhs_subtree_root)` on the heap `h`; the
first argument bounds the depth of the recursion.  `none` when a pointer that is
dereferenced designates no record, or when the bound is exceeded. -/
def copy : Nat → List (PNode K V) → Nat → Option Nat → Option (List (PNode K V))
  | 0, _, _, _ => none
  | _ + 1, h, _, none => some h
  | fuel + 1, h, lhs, some rhs =>
    match h[rhs]? with
    | none => none
    | some r =>
      let afterLeft : Option (List (PNode K V)) :=
        match r.left with
        | none => some h
        | some la =>
          match h[la]? with
          | none => none
          | some l =>
            let (h1, na) := newNodeFrom h l
            match h1[lhs]? with
            | none => none
            | some ln => copy fuel (h1.set lhs { ln with left := some na }) na (some la)
      match afterLeft with
      | none => none
      | some h2 =>
        match h2[rhs]? with
        | none => none
        | some r2 =>
          match r2.right with
          | none => some h2
          | some ra =>
            match h2[ra]? with
            | none => none
            | some rn =>
              let (h3, na) := newNodeFrom h2 rn
              match h3[lhs]? with
              | none => none
              | some ln => copy fuel (h3.set lhs { ln with right := some na }) na (some ra)

/-- The assignment `operator=(rhs)` for `this != &rhs`, into an object whose
tree is empty: `node_count` is taken from `rhs`, a new root node takes key,
value, colour and `parent` of the root of `rhs`, and `copy` fills it. -/
def operator_assign (h : List (PNode K V)) (rhs : PCollection) :
    Option (List (PNode K V) × PCollection) :=
  match rhs.root with
  | none => some (h, ⟨none, rhs.node_count⟩)
  | some ra =>
    match h[ra]? with
    | none => none
    | some r =>
      let (h1, na) := newNodeFrom h r
      match copy (h.length + 1) h1 na (some ra) with
      | none => none
      | some h2 => some (h2, ⟨some na, rhs.node_count⟩)

/-- The addresses of the nodes of the tree below a pointer, the pointer's own
node first; the first argument bounds the depth. -/
def nodesBelow : Nat → List (PNode K V) → Option Nat → List Nat
  | 0, _, _ => []
  | _, _, none => []
  | fuel + 1, h, some a =>
    match h[a]? with
    | none => []
    | some n => a :: (nodesBelow fuel h n.left ++ nodesBelow fuel h n.right)

end RBTHeap

/-!
# The resizable array list

`ArrayList<T>` (`array_list.h`) is the output sequence of `keys`, `sort` and the
range lookup.  Its array `items` is a list of slots; a slot that has not been
assigned since `new T[...]` holds `none`.
-/

namespace AL

/-- The object: the array `items`, `capacity` and `length`. -/
structure ArrayList (T : Type) where
  items : List (Option T)
  capacity : Nat
  length : Nat
  deriving DecidableEq, Repr

variable {T : Type}

namespace ArrayList

/-- The constructor `ArrayList()`: `capacity(10), length(0)`, `items = new T[capacity]`. -/
def empty : ArrayList T := ⟨List.replicate 10 none, 10, 0⟩

/-- The loop `for (i = 0; i < length; i++) newArr[i] = items[i];` of `resize`,
for the first `n` indices; `none` when an index lies outside one of the two
arrays. -/
def copyLoop (items : List (Option T)) : Nat → List (Option T) → Option (List (Option T))
  | 0, newArr => some newArr
  | i + 1, newArr =>
    match copyLoop items i newArr with
    | none => none
    | some arr =>
      match items[i]? with
      | none => none
      | some x => if i < arr.length then some (arr.set i x) else none

/-- The helper `resize()`: a new array of twice the capacity takes the items. -/
def resize (a : ArrayList T) : Option (ArrayList T) :=
  match copyLoop a.items a.length (List.replicate (a.capacity * 2) none) with
  | none => none
  | some newArr => some ⟨newArr, a.capacity * 2, a.length⟩

/-- The method `add(item)`; `none` when `items[length]` lies outside the array. -/
def add (a : ArrayList T) (item : T) : Option (ArrayList T) :=
  match (if a.capacity = a.length then resize a else some a) with
  | none => none
  | some a1 =>
    if a1.length < a1.items.length then
      some ⟨a1.items.set a1.length (some item), a1.capacity, a1.length + 1⟩
    else none

/-- The method `get(index, return_item)`: the returned flag and the content of
`return_item` afterwards; `none` when the slot read lies outside the array or
has never been assigned. -/
def get (a : ArrayList T) (index : Nat) (return_item : T) : Option (Bool × T) :=
  if index ≥ a.length then some (false, return_item)
  else
    match a.items[index]? with
    | some (some x) => some (true, x)
    | _ => none

/-- The method `size()`. -/
def size (a : ArrayList T) : Nat := a.length

end ArrayList

/-- The representation invariant of the class: `items` has `capacity` slots, the
capacity is positive, and the first `length` slots have been assigned. -/
def WF (a : ArrayList T) : Prop :=
  a.items.length = a.capacity ∧ 0 < a.capacity ∧ a.length ≤ a.capacity ∧
    ∀ i, i < a.length → ∃ x, a.items[i]? = some (some x)

end AL

/-!
# The plain binary search tree

`BSTCollection` (`bst_collection.h`) is the engine without rebalancing: its
nodes carry no height and no colour, and `remove` has the four cases of the AVL
`remove` without the closing `rebalance`.
-/

namespace BST

/-- Tree node of `BSTCollection`: key, value, left and right child. -/
inductive Node (K V : Type) where
  | nil : Node K V
  | mk (key : K) (value : V) (left right : Node K V) : Node K V
  deriving DecidableEq, Repr

/-- The collection object: the root pointer and the number of stored pairs. -/
structure BSTCollection (K V : Type) where
  root : Node K V
  node_count : Nat
  deriving DecidableEq, Repr

variable {K V : Type}

/-- The helper `height(const Node*)`: 0 for a null pointer, else one more than
the larger height of the two children. -/
def height : Node K V → Nat
  | .nil => 0
  | .mk _ _ l r => max (height l) (height r) + 1

/-- The test `ptr == nullptr`. -/
def isNull : Node K V → Bool
  | .nil => true
  | .mk _ _ _ _ => false

/-- The helper `keys(subtree_root, all_keys)`: the keys appended, in order. -/
def keys : Node K V → List K
  | .nil => []
  | .mk k _ l r => keys l ++ k :: keys r

/-- The body of `add(a_key, a_val)` from the pointer `curr_ptr` on, threading
`node_count`: the new node is linked at the first null link on the search path,
and nothing changes when the key is met on the way. -/
def add [LinearOrder K] : Node K V → K → V → Nat → Node K V × Nat
  | .nil, a_key, a_val, n => (.mk a_key a_val .nil .nil, n + 1)
  | .mk key value l r, a_key, a_val, n =>
    if a_key > key then
      ((.mk key value l (add r a_key a_val n).1), (add r a_key a_val n).2)
    else if a_key < key then
      ((.mk key value (add l a_key a_val n).1 r), (add l a_key a_val n).2)
    else (.mk key value l r, n)

/-- The loop `while (tmp->left != nullptr) tmp = tmp->left;` of `remove`:
key and value of the left-most node; `none` when started at a null pointer. -/
def leftmost : Node K V → Option (K × V)
  | .nil => none
  | .mk k v l _ =>
    match leftmost l with
    | none => some (k, v)
    | some kv => some kv

/-- The helper `remove(subtree_root, a_key)`, threading `node_count`; the result
is the pointer it returns.  `none` stands for the read of a field through a null
pointer. -/
def remove [LinearOrder K] : Node K V → K → Nat → Option (Node K V × Nat)
  | .nil, _, n => some (.nil, n)
  | .mk key value l r, a_key, n =>
    if a_key < key then
      match remove l a_key n with
      | none => none
      | some (l1, n1) => some (.mk key value l1 r, n1)
    else if a_key > key then
      match remove r a_key n with
      | none => none
      | some (r1, n1) => some (.mk key value l r1, n1)
    else if a_key = key then
      if height (Node.mk key value l r) = 1 then
        -- CASE 1: leaf node
        some (.nil, n - 1)
      else if height (Node.mk key value l r) = 2 ∧ (isNull r ∨ isNull l) then
        -- CASE 2: single child
        some (if isNull r then l else r, n - 1)
      else
        match r with
        | .nil => none  -- the read `subtree_root->right->left` of a null pointer
        | .mk rk rv rl rr =>
          if isNull rl then
            -- CASE 3: the right child takes the place of the node
            some (.mk rk rv l rr, n - 1)
          else
            -- CASE 4: copy the in-order successor, remove it from the right
            match leftmost (.mk rk rv rl rr) with
            | none => none
            | some (sk, sv) =>
              match remove (.mk rk rv rl rr) sk n with
              | none => none
              | some (r1, n1) => some (.mk sk sv l r1, n1)
    else some (.mk key value l r, n)

/-- The number of children of the node that stores `a_key`, found by the search
of `remove`; `none` when the key is not stored on the search path. -/
def childCount [LinearOrder K] : Node K V → K → Option Nat
  | .nil, _ => none
  | .mk key _ l r, a_key =>
    if a_key < key then childCount l a_key
    else if a_key > key then childCount r a_key
    else some ((if isNull l then 0 else 1) + (if isNull r then 0 else 1))

namespace BSTCollection

variable [LinearOrder K]

/-- The constructor `BSTCollection()`. -/
def empty : BSTCollection K V := ⟨.nil, 0⟩

/-- The public `add(a_key, a_val)`. -/
def add (c : BSTCollection K V) (a_key : K) (a_val : V) : BSTCollection K V :=
  ⟨(BST.add c.root a_key a_val c.node_count).1, (BST.add c.root a_key a_val c.node_count).2⟩

/-- The public `remove(a_key)`: the helper is called on `root`, and `root`
follows the pointer it returns, because the helper reassigns `root` in the cases
in which it deletes the node `root` points to. -/
def remove (c : BSTCollection K V) (a_key : K) : Option (BSTCollection K V) :=
  match BST.remove c.root a_key c.node_count with
  | none => none
  | some (t, n) => some ⟨t, n⟩

/-- The public `keys(all_keys)`: the keys appended to the output list. -/
def keys (c : BSTCollection K V) : List K := BST.keys c.root

/-- The public `size()`. -/
def size (c : BSTCollection K V) : Nat := c.node_count

end BSTCollection

end BST

namespace AVL

variable {K V : Type}

/-! ## Rebalancing restores the AVL invariant -/

theorem rebalanceLeftHeavy_spec (k : K) (v : V) (h : Nat) (l r : Node K V)
    (hbl : Balanced l) (hol : HeightsOK l) (hbr : Balanced r) (hor : HeightsOK r)
    (hd : height l = height r + 2) :
    ∃ t1, rebalanceLeftHeavy k v h l r = some t1 ∧ Balanced t1 ∧ HeightsOK t1 ∧
      entries t1 = entries l ++ (k, v) :: entries r ∧
      keys t1 = keys l ++ k :: keys r ∧ size t1 = size l + 1 + size r ∧
      height t1 ≤ height l + 1 ∧ height l ≤ height t1 := by
  rcases l with _ | ⟨lk, lv, lh, ll, lr⟩
  · simp [height] at hd
  rcases lr with _ | ⟨lrk, lrv, lrh, lrl, lrr⟩
  · rcases ll with _ | ⟨llk, llv, llh, lll, llr⟩
    · simp [height] at hd
    · simp only [Balanced, HeightsOK, height] at hbl hol hd
      casesm* _ ∧ _
      simp only [rebalanceLeftHeavy, rotate_right, adjustHeights, setHeight, height,
        Balanced, HeightsOK, entries, keys, size, Option.some.injEq, exists_eq_left']
      split_ands <;> first | assumption | omega | simp
  · rcases ll with _ | ⟨llk, llv, llh, lll, llr⟩
    · simp only [Balanced, HeightsOK, height] at hbl hol hd
      casesm* _ ∧ _
      simp only [rebalanceLeftHeavy, rotate_left, rotate_right, adjustHeights, setHeight,
        height, Balanced, HeightsOK, entries, keys, size, Option.some.injEq, exists_eq_left']
      split_ands <;> first | assumption | omega | simp
    · simp only [Balanced, HeightsOK, height] at hbl hol hd
      casesm* _ ∧ _
      by_cases hc : lrh > llh
      · simp only [rebalanceLeftHeavy, rotate_left, rotate_right, adjustHeights, setHeight,
          height, Balanced, HeightsOK, entries, keys, size, hc, if_true,
          Option.some.injEq, exists_eq_left']
        split_ands <;> first | assumption | omega | simp
      · simp only [rebalanceLeftHeavy, rotate_left, rotate_right, adjustHeights, setHeight,
          height, Balanced, HeightsOK, entries, keys, size, hc, if_false,
          Option.some.injEq, exists_eq_left']
        split_ands <;> first | assumption | omega | simp

theorem rebalanceRightOnly_spec (k : K) (v : V) (h : Nat) (l r : Node K V)
    (hbl : Balanced l) (hol : HeightsOK l) (hbr : Balanced r) (hor : HeightsOK r)
    (hd : height r = height l + 2) :
    ∃ t1, rebalanceRightOnly k v h l r = some t1 ∧ Balanced t1 ∧ HeightsOK t1 ∧
      entries t1 = entries l ++ (k, v) :: entries r ∧
      keys t1 = keys l ++ k :: keys r ∧ size t1 = size l + 1 + size r ∧
      height t1 ≤ height r + 1 ∧ height r ≤ height t1 := by
  rcases r with _ | ⟨rk, rv, rh, rl, rr⟩
  · simp [height] at hd
  rcases rl with _ | ⟨rlk, rlv, rlh, rll, rlr⟩
  · rcases rr with _ | ⟨rrk, rrv, rrh, rrl, rrr⟩
    · simp [height] at hd
    · simp only [Balanced, HeightsOK, height] at hbr hor hd
      casesm* _ ∧ _
      simp only [rebalanceRightOnly, rotate_left, adjustHeights, setHeight, height,
        Balanced, HeightsOK, entries, keys, size, Option.some.injEq, exists_eq_left']
      split_ands <;> first | assumption | omega | simp
  · rcases rr with _ | ⟨rrk, rrv, rrh, rrl, rrr⟩
    · simp only [Balanced, HeightsOK, height] at hbr hor hd
      casesm* _ ∧ _
      simp only [rebalanceRightOnly, rotate_left, rotate_right, adjustHeights, setHeight,
        height, Balanced, HeightsOK, entries, keys, size, Option.some.injEq, exists_eq_left']
      split_ands <;> first | assumption | omega | simp
    · simp only [Balanced, HeightsOK, height] at hbr hor hd
      casesm* _ ∧ _
      by_cases hc : rlh > rrh
      · simp only [rebalanceRightOnly, rotate_left, rotate_right, adjustHeights, setHeight,
          height, Balanced, HeightsOK, entries, keys, size, hc, if_true,
          Option.some.injEq, exists_eq_left']
        split_ands <;> first | assumption | omega | simp
      · simp only [rebalanceRightOnly, rotate_left, rotate_right, adjustHeights, setHeight,
          height, Balanced, HeightsOK, entries, keys, size, hc, if_false,
          Option.some.injEq, exists_eq_left']
        split_ands <;> first | assumption | omega | simp

theorem rebalanceRightHeavy_spec (k : K) (v : V) (h : Nat) (l r : Node K V)
    (hbl : Balanced l) (hol : HeightsOK l) (hbr : Balanced r) (hor : HeightsOK r)
    (hd : height r = height l + 2) (hl : 1 ≤ height l) :
    ∃ t1, rebalanceRightHeavy k v h l r = some t1 ∧ Balanced t1 ∧ HeightsOK t1 ∧
      entries t1 = entries l ++ (k, v) :: entries r ∧
      keys t1 = keys l ++ k :: keys r ∧ size t1 = size l + 1 + size r ∧
      height t1 ≤ height r + 1 ∧ height r ≤ height t1 := by
  rcases r with _ | ⟨rk, rv, rh, rl, rr⟩
  · simp [height] at hd
  rcases rl with _ | ⟨rlk, rlv, rlh, rll, rlr⟩
  · simp only [Balanced, HeightsOK, height] at hbr hor hd
    omega
  rcases rr with _ | ⟨rrk, rrv, rrh, rrl, rrr⟩
  · simp only [Balanced, HeightsOK, height] at hbr hor hd
    omega
  simp only [Balanced, HeightsOK, height] at hbr hor hd
  casesm* _ ∧ _
  by_cases hc : rlh > rrh
  · simp only [rebalanceRightHeavy, rotate_left, rotate_right, adjustHeights, setHeight,
      height, Balanced, HeightsOK, entries, keys, size, hc, if_true,
      Option.some.injEq, exists_eq_left']
    split_ands <;> first | assumption | omega | simp
  · simp only [rebalanceRightHeavy, rotate_left, rotate_right, adjustHeights, setHeight,
      height, Balanced, HeightsOK, entries, keys, size, hc, if_false,
      Option.some.injEq, exists_eq_left']
    split_ands <;> first | assumption | omega | simp

/-- The contract of `rebalance` at a node whose stored height is accurate, whose
subtrees satisfy the AVL invariant and whose subtree heights differ by at most 2. -/
theorem rebalance_spec (k : K) (v : V) (l r : Node K V)
    (hbl : Balanced l) (hol : HeightsOK l) (hbr : Balanced r) (hor : HeightsOK r)
    (h1 : height l ≤ height r + 2) (h2 : height r ≤ height l + 2) :
    ∃ t1, rebalance (.mk k v (max (height l) (height r) + 1) l r) = some t1 ∧
      Balanced t1 ∧ HeightsOK t1 ∧
      entries t1 = entries l ++ (k, v) :: entries r ∧
      keys t1 = keys l ++ k :: keys r ∧ size t1 = size l + 1 + size r ∧
      height t1 ≤ max (height l) (height r) + 1 ∧
      max (height l) (height r) ≤ height t1 ∧
      (height l ≤ height r + 1 → height r ≤ height l + 1 →
        height t1 = max (height l) (height r) + 1) ∧
      (height l ≤ height r + 1 → height r ≤ height l + 1 →
        t1 = .mk k v (max (height l) (height r) + 1) l r) := by
  have keep : height l ≤ height r + 1 → height r ≤ height l + 1 →
      ∃ t1, some (Node.mk k v (max (height l) (height r) + 1) l r) = some t1 ∧
      Balanced t1 ∧ HeightsOK t1 ∧
      entries t1 = entries l ++ (k, v) :: entries r ∧
      keys t1 = keys l ++ k :: keys r ∧ size t1 = size l + 1 + size r ∧
      height t1 ≤ max (height l) (height r) + 1 ∧
      max (height l) (height r) ≤ height t1 ∧
      (height l ≤ height r + 1 → height r ≤ height l + 1 →
        height t1 = max (height l) (height r) + 1) ∧
      (height l ≤ height r + 1 → height r ≤ height l + 1 →
        t1 = .mk k v (max (height l) (height r) + 1) l r) := by
    intro a b
    refine ⟨_, rfl, ?_⟩
    simp only [Balanced, HeightsOK, entries, keys, size, height]
    split_ands <;> first | assumption | omega | simp
  rcases l with _ | ⟨lk, lv, lh, ll, lr⟩ <;> rcases r with _ | ⟨rk, rv, rh, rl, rr⟩
  · simpa [rebalance, storedHeight] using keep (by simp) (by simp)
  · have hrh : rh = height (Node.mk rk rv rh rl rr) := by
      simp only [HeightsOK] at hor; simp only [height]; omega
    simp only [rebalance, storedHeight]
    by_cases hc : rh > 1
    · simp only [hc, if_true]
      obtain ⟨t1, e, p1, p2, p3, p4, p5, p6, p7⟩ :=
        rebalanceRightOnly_spec k v (max (height (Node.nil : Node K V))
          (height (Node.mk rk rv rh rl rr)) + 1) .nil (.mk rk rv rh rl rr) hbl hol hbr hor
          (by simp only [height] at *; omega)
      refine ⟨t1, e, p1, p2, p3, p4, p5, ?_, ?_, ?_, ?_⟩ <;> simp only [height] at * <;> omega
    · simp only [hc, if_false]
      exact keep (by simp only [height] at *; omega) (by simp only [height] at *; omega)
  · have hlh : lh = height (Node.mk lk lv lh ll lr) := by
      simp only [HeightsOK] at hol; simp only [height]; omega
    simp only [rebalance, storedHeight]
    by_cases hc : lh > 1
    · simp only [hc, if_true]
      obtain ⟨t1, e, p1, p2, p3, p4, p5, p6, p7⟩ :=
        rebalanceLeftHeavy_spec k v (max (height (Node.mk lk lv lh ll lr))
          (height (Node.nil : Node K V)) + 1) (.mk lk lv lh ll lr) .nil hbl hol hbr hor
          (by simp only [height] at *; omega)
      refine ⟨t1, e, p1, p2, p3, p4, p5, ?_, ?_, ?_, ?_⟩ <;> simp only [height] at * <;> omega
    · simp only [hc, if_false]
      exact keep (by simp only [height] at *; omega) (by simp only [height] at *; omega)
  · have hlh : lh = height (Node.mk lk lv lh ll lr) := by
      simp only [HeightsOK] at hol; simp only [height]; omega
    have hrh : rh = height (Node.mk rk rv rh rl rr) := by
      simp only [HeightsOK] at hor; simp only [height]; omega
    simp only [rebalance, storedHeight]
    by_cases hc : lh > rh + 1
    · simp only [hc, if_true]
      obtain ⟨t1, e, p1, p2, p3, p4, p5, p6, p7⟩ :=
        rebalanceLeftHeavy_spec k v (max (height (Node.mk lk lv lh ll lr))
          (height (Node.mk rk rv rh rl rr)) + 1) (.mk lk lv lh ll lr) (.mk rk rv rh rl rr)
          hbl hol hbr hor (by omega)
      refine ⟨t1, e, p1, p2, p3, p4, p5, ?_, ?_, ?_, ?_⟩ <;> omega
    · simp only [hc, if_false]
      by_cases hc2 : rh > lh + 1
      · simp only [hc2, if_true]
        obtain ⟨t1, e, p1, p2, p3, p4, p5, p6, p7⟩ :=
          rebalanceRightHeavy_spec k v (max (height (Node.mk lk lv lh ll lr))
            (height (Node.mk rk rv rh rl rr)) + 1) (.mk lk lv lh ll lr) (.mk rk rv rh rl rr)
            hbl hol hbr hor (by omega) (by simp [height])
        refine ⟨t1, e, p1, p2, p3, p4, p5, ?_, ?_, ?_, ?_⟩ <;> omega
      · simp only [hc2, if_false]
        exact keep (by omega) (by omega)

theorem length_filter_ne_add_one [DecidableEq K] (k : K) :
    ∀ l : List K, l.Nodup → k ∈ l →
      (l.filter (fun x => decide (x ≠ k))).length + 1 = l.length := by
  intro l
  induction l with
  | nil => intro _ h; simp at h
  | cons a l ih =>
    intro hnd hk
    rw [List.nodup_cons] at hnd
    by_cases ha : a = k
    · subst ha
      have : l.filter (fun x => decide (x ≠ a)) = l := by
        rw [List.filter_eq_self]
        intro x hx
        have : x ≠ a := fun h => hnd.1 (h ▸ hx)
        simpa using this
      have hd : ¬ (decide (a ≠ a) = true) := by simp
      rw [List.filter_cons, if_neg hd, this, List.length_cons]
    · have hk1 : k ∈ l := by
        rcases List.mem_cons.mp hk with h | h
        · exact absurd h.symm ha
        · exact h
      have := ih hnd.2 hk1
      have hd : decide (a ≠ k) = true := by simpa using ha
      rw [List.filter_cons, if_pos hd, List.length_cons, List.length_cons]
      omega

theorem keys_eq_map_entries (t : Node K V) : keys t = (entries t).map Prod.fst := by
  induction t with
  | nil => rfl
  | mk k v h l r ihl ihr => simp [keys, entries, ihl, ihr]

theorem size_eq_length_entries (t : Node K V) : size t = (entries t).length := by
  induction t with
  | nil => rfl
  | mk k v h l r ihl ihr => simp [size, entries, ihl, ihr]; omega

theorem finish_mk (k : K) (v : V) (h : Nat) (l r : Node K V) :
    finish (.mk k v h l r) = rebalance (.mk k v (max (height l) (height r) + 1) l r) := by
  simp [finish, height]

/-- On a subtree that satisfies the AVL invariant the closing statements of the
helpers change nothing. -/
theorem finish_of_inv (t : Node K V) (hb : Balanced t) (ho : HeightsOK t) :
    finish t = some t := by
  rcases t with _ | ⟨k, v, h, l, r⟩
  · rfl
  · simp only [Balanced, HeightsOK] at hb ho
    obtain ⟨t1, e, -, -, -, -, -, -, -, -, q⟩ :=
      rebalance_spec k v l r hb.1 ho.1 hb.2.1 ho.2.1 (by omega) (by omega)
    rw [finish_mk, e, q hb.2.2.1 hb.2.2.2, ho.2.2]

/-- The helper `add` on a subtree that satisfies the AVL invariant: it returns,
the invariant holds again, the height grows by at most one, one node is added,
and the new pair sits between the pairs before it and the pairs after it. -/
theorem add_spec [LinearOrder K] (a_key : K) (a_val : V) (n : Nat) :
    ∀ t : Node K V, Balanced t → HeightsOK t →
    ∃ t1, add t a_key a_val n = some (t1, n + 1) ∧ Balanced t1 ∧ HeightsOK t1 ∧
      height t ≤ height t1 ∧ height t1 ≤ height t + 1 ∧ 0 < height t1 ∧
      ∃ e1 e2, entries t = e1 ++ e2 ∧ entries t1 = e1 ++ (a_key, a_val) :: e2 ∧
        ((keys t).Pairwise (· ≤ ·) →
          (∀ x ∈ e1, x.1 ≤ a_key) ∧ (∀ x ∈ e2, a_key < x.1)) := by
  intro t
  induction t with
  | nil =>
    intro _ _
    refine ⟨_, rfl, ?_⟩
    simp only [Balanced, HeightsOK, height, entries]
    refine ⟨by simp, by simp, by simp, by simp, by simp, [], [], by simp, by simp, ?_⟩
    intro _; simp
  | mk key value h l r ihl ihr =>
    intro hb ho
    simp only [Balanced, HeightsOK] at hb ho
    obtain ⟨hbl, hbr, hb1, hb2⟩ := hb
    obtain ⟨hol, hor, hh⟩ := ho
    by_cases hc : a_key < key
    · obtain ⟨l1, e, b1, o1, g1, g2, g3, e1, e2, d1, d2, d3⟩ := ihl hbl hol
      obtain ⟨t1, e', p1, p2, p3, p4, p5, p6, p7, p8, -⟩ :=
        rebalance_spec key value l1 r b1 o1 hbr hor (by clear * - g1 g2 hb1 hb2; omega)
          (by clear * - g1 g2 hb1 hb2; omega)
      refine ⟨t1, ?_, p1, p2, ?_, ?_, ?_, e1, e2 ++ (key, value) :: entries r, ?_, ?_, ?_⟩
      · rw [add]; simp only [hc, if_true, e, finish_mk, e']
      · simp only [height]; clear * - p7 p8 g1 g2 hb1 hb2; omega
      · simp only [height]; clear * - p6 g2; omega
      · clear * - p7 g3; omega
      · simp [entries, d1]
      · simp [p3, d2]
      · intro hs
        simp only [keys, List.pairwise_append, List.pairwise_cons] at hs
        obtain ⟨hs1, ⟨hs2, hs3⟩, hs4⟩ := hs
        obtain ⟨q1, q2⟩ := d3 hs1
        refine ⟨q1, ?_⟩
        intro x hx
        simp only [List.mem_append, List.mem_cons] at hx
        rcases hx with hx | hx | hx
        · exact q2 x hx
        · rw [hx]; exact hc
        · have : x.1 ∈ keys r := by
            rw [keys_eq_map_entries]; exact List.mem_map_of_mem _ hx
          exact lt_of_lt_of_le hc (hs2 _ this)
    · obtain ⟨r1, e, b1, o1, g1, g2, g3, e1, e2, d1, d2, d3⟩ := ihr hbr hor
      obtain ⟨t1, e', p1, p2, p3, p4, p5, p6, p7, p8, -⟩ :=
        rebalance_spec key value l r1 hbl hol b1 o1 (by clear * - g1 g2 hb1 hb2; omega)
          (by clear * - g1 g2 hb1 hb2; omega)
      refine ⟨t1, ?_, p1, p2, ?_, ?_, ?_, entries l ++ (key, value) :: e1, e2, ?_, ?_, ?_⟩
      · rw [add]; simp only [hc, if_false, e, finish_mk, e']
      · simp only [height]; clear * - p7 p8 g1 g2 hb1 hb2; omega
      · simp only [height]; clear * - p6 g2; omega
      · clear * - p7 g3; omega
      · simp [entries, d1]
      · simp [p3, d2]
      · intro hs
        simp only [keys, List.pairwise_append, List.pairwise_cons] at hs
        obtain ⟨hs1, ⟨hs2, hs3⟩, hs4⟩ := hs
        obtain ⟨q1, q2⟩ := d3 hs3
        refine ⟨?_, q2⟩
        intro x hx
        simp only [List.mem_append, List.mem_cons] at hx
        rcases hx with hx | hx | hx
        · have : x.1 ∈ keys l := by
            rw [keys_eq_map_entries]; exact List.mem_map_of_mem _ hx
          exact le_trans (hs4 _ this key (by simp)) (not_lt.mp hc)
        · rw [hx]; exact not_lt.mp hc
        · exact q1 x hx


theorem leftmost_spec : ∀ (r : Node K V), r ≠ .nil →
    ∃ sk sv rest, leftmost r = some (sk, sv) ∧ entries r = (sk, sv) :: rest := by
  intro r
  induction r with
  | nil => intro h; exact absurd rfl h
  | mk k v h l r ihl _ =>
    intro _
    rcases l with _ | ⟨lk, lv, lh, ll, lr⟩
    · exact ⟨k, v, entries r, by simp [leftmost], by simp [entries]⟩
    · obtain ⟨sk, sv, rest, e1, e2⟩ := ihl (by simp)
      refine ⟨sk, sv, rest ++ (k, v) :: entries r, ?_, ?_⟩
      · rw [leftmost, e1]
      · rw [entries, e2]; simp

theorem filter_entries_eq_self [DecidableEq K] (t : Node K V) (a : K)
    (h : ∀ x ∈ keys t, x ≠ a) :
    (entries t).filter (fun x => decide (x.1 ≠ a)) = entries t := by
  rw [List.filter_eq_self]
  intro x hx
  have : x.1 ∈ keys t := by rw [keys_eq_map_entries]; exact List.mem_map_of_mem _ hx
  simpa using h _ this

theorem height_eq_zero_iff (t : Node K V) : height t = 0 ↔ t = .nil := by
  cases t <;> simp [height]

theorem mem_keys_of_mem_entries {t : Node K V} {x : K × V} (hx : x ∈ entries t) :
    x.1 ∈ keys t := by
  rw [keys_eq_map_entries]; exact List.mem_map_of_mem _ hx

theorem isNull_iff (t : Node K V) : isNull t = true ↔ t = .nil := by
  cases t <;> simp [isNull]

/-- The helper `remove` on a subtree that satisfies the AVL invariant. -/
theorem remove_spec [LinearOrder K] :
    ∀ (t : Node K V) (a_key : K) (n : Nat), Balanced t → HeightsOK t →
    ∃ t1 n1, remove t a_key n = some (t1, n1) ∧ Balanced t1 ∧ HeightsOK t1 ∧
      height t1 ≤ height t ∧ height t ≤ height t1 + 1 ∧
      ((size t1 = size t ∧ n1 = n) ∨ (size t1 + 1 = size t ∧ n1 = n - 1)) ∧
      (a_key ∉ keys t → t1 = t ∧ n1 = n) ∧
      (Ordered t → entries t1 = (entries t).filter (fun x => decide (x.1 ≠ a_key))) := by
  intro t
  induction t with
  | nil =>
    intro a_key n _ _
    exact ⟨.nil, n, rfl, trivial, trivial, le_refl _, by simp, Or.inl ⟨rfl, rfl⟩,
      fun _ => ⟨rfl, rfl⟩, fun _ => rfl⟩
  | mk key value h l r ihl ihr =>
    intro a_key n hb ho
    have hb0 := hb
    have ho0 := ho
    simp only [Balanced, HeightsOK] at hb ho
    obtain ⟨hbl, hbr, hb1, hb2⟩ := hb
    obtain ⟨hol, hor, hh⟩ := ho
    by_cases hc : a_key < key
    · obtain ⟨l1, n1, e, b1, o1, g1, g2, g3, g4, g5⟩ := ihl a_key n hbl hol
      clear ihl ihr
      obtain ⟨t1, e', p1, p2, p3, p4, p5, p6, p7, p8, p9⟩ :=
        rebalance_spec key value l1 r b1 o1 hbr hor (by clear * - g1 g2 hb1 hb2; omega)
        (by clear * - g1 g2 hb1 hb2; omega)
      refine ⟨t1, n1, ?_, p1, p2, ?_, ?_, ?_, ?_, ?_⟩
      · rw [remove]
        simp only [hc, if_true, e, finish_mk, e']
      · simp only [height]; clear * - p6 g1; omega
      · simp only [height]; clear * - p7 p8 g1 g2 hb1 hb2; omega
      · simp only [size]; clear * - p5 g3; omega
      · intro hn
        simp only [keys, List.mem_append, List.mem_cons, not_or] at hn
        obtain ⟨q1, q2⟩ := g4 hn.1
        subst q1
        refine ⟨?_, q2⟩
        rw [p9 hb1 hb2, hh]
      · intro hs
        simp only [Ordered, keys, List.pairwise_append, List.pairwise_cons] at hs
        obtain ⟨hs1, ⟨hs2, hs3⟩, hs4⟩ := hs
        rw [p3, g5 hs1]
        simp only [entries, List.filter_append, List.filter_cons]
        have hk : key ≠ a_key := ne_of_gt hc
        simp only [hk, ne_eq, not_false_eq_true, decide_True, if_true]
        rw [filter_entries_eq_self r a_key]
        intro x hx
        exact ne_of_gt (lt_trans hc (hs2 x hx))
    · by_cases hc2 : a_key > key
      · obtain ⟨r1, n1, e, b1, o1, g1, g2, g3, g4, g5⟩ := ihr a_key n hbr hor
        clear ihl ihr
        obtain ⟨t1, e', p1, p2, p3, p4, p5, p6, p7, p8, p9⟩ :=
          rebalance_spec key value l r1 hbl hol b1 o1 (by clear * - g1 g2 hb1 hb2; omega)
          (by clear * - g1 g2 hb1 hb2; omega)
        refine ⟨t1, n1, ?_, p1, p2, ?_, ?_, ?_, ?_, ?_⟩
        · rw [remove]
          simp only [hc, hc2, if_true, if_false, e, finish_mk, e']
        · simp only [height]; clear * - p6 g1; omega
        · simp only [height]; clear * - p7 p8 g1 g2 hb1 hb2; omega
        · simp only [size]; clear * - p5 g3; omega
        · intro hn
          simp only [keys, List.mem_append, List.mem_cons, not_or] at hn
          obtain ⟨q1, q2⟩ := g4 hn.2.2
          subst q1
          refine ⟨?_, q2⟩
          rw [p9 hb1 hb2, hh]
        · intro hs
          simp only [Ordered, keys, List.pairwise_append, List.pairwise_cons] at hs
          obtain ⟨hs1, ⟨hs2, hs3⟩, hs4⟩ := hs
          rw [p3, g5 hs3]
          simp only [entries, List.filter_append, List.filter_cons]
          have hk : key ≠ a_key := ne_of_lt hc2
          simp only [hk, ne_eq, not_false_eq_true, decide_True, if_true]
          rw [filter_entries_eq_self l a_key]
          intro x hx
          exact ne_of_lt (lt_trans (hs4 x hx key (by simp)) hc2)
      · have heq : a_key = key := le_antisymm (not_lt.mp hc2) (not_lt.mp hc)
        subst heq
        clear ihl
        have hfl : ∀ hs : Ordered (Node.mk a_key value h l r),
            (entries (Node.mk a_key value h l r)).filter (fun x => decide (x.1 ≠ a_key))
              = entries l ++ entries r := by
          intro hs
          simp only [Ordered, keys, List.pairwise_append, List.pairwise_cons] at hs
          obtain ⟨hs1, ⟨hs2, hs3⟩, hs4⟩ := hs
          simp only [entries, List.filter_append, List.filter_cons, ne_eq, not_true_eq_false,
            decide_False, Bool.false_eq_true, if_false]
          rw [filter_entries_eq_self l a_key, filter_entries_eq_self r a_key]
          · intro x hx; exact ne_of_gt (hs2 x hx)
          · intro x hx; exact ne_of_lt (hs4 x hx a_key (by simp))
        have hmem : a_key ∈ keys (Node.mk a_key value h l r) := by simp [keys]
        by_cases h1 : height (Node.mk a_key value h l r) = 1
        · have hl0 : l = .nil := (height_eq_zero_iff l).mp (by simp only [height] at h1; omega)
          have hr0 : r = .nil := (height_eq_zero_iff r).mp (by simp only [height] at h1; omega)
          subst hl0 hr0
          refine ⟨.nil, n - 1, ?_, trivial, trivial, by simp [height], by simp [height],
            Or.inr ⟨by simp [size], rfl⟩, fun hn => absurd hmem hn, ?_⟩
          · rw [remove]
            simp only [hc, hc2, if_false, if_pos h1, eq_self_iff_true, if_true, finish,
              rebalance]
          · intro hs; rw [hfl hs]; simp [entries]
        · by_cases h2 : height (Node.mk a_key value h l r) = 2 ∧
              (isNull r = true ∨ isNull l = true)
          · obtain ⟨h2a, h2b⟩ := h2
            by_cases hrn : isNull r = true
            · have hr0 : r = .nil := (isNull_iff r).mp hrn
              subst hr0
              refine ⟨l, n - 1, ?_, hbl, hol, by simp only [height]; omega,
                by simp only [height] at h2a ⊢; omega, Or.inr ⟨by simp [size], rfl⟩,
                fun hn => absurd hmem hn, ?_⟩
              · rw [remove]
                simp only [hc, hc2, if_false, if_neg h1, eq_self_iff_true, if_true,
                  if_pos (show _ ∧ _ from ⟨h2a, h2b⟩), if_pos hrn,
                  finish_of_inv l hbl hol]
              · intro hs; rw [hfl hs]; simp [entries]
            · have hl0 : l = .nil := by
                rcases h2b with h | h
                · exact absurd h hrn
                · exact (isNull_iff l).mp h
              subst hl0
              refine ⟨r, n - 1, ?_, hbr, hor, by simp only [height]; omega,
                by simp only [height] at h2a ⊢; omega, Or.inr ⟨by simp [size]; omega, rfl⟩,
                fun hn => absurd hmem hn, ?_⟩
              · rw [remove]
                simp only [hc, hc2, if_false, if_neg h1, eq_self_iff_true, if_true,
                  if_pos (show _ ∧ _ from ⟨h2a, h2b⟩), if_neg hrn,
                  finish_of_inv r hbr hor]
              · intro hs; rw [hfl hs]; simp [entries]
          · rcases r with _ | ⟨rk, rv, rh, rl, rr⟩
            · exfalso
              apply h2
              simp only [height, isNull, true_or, and_true] at h1 hb1 ⊢
              clear * - h1 hb1; omega
            · by_cases h3 : isNull rl = true
              · have hrl0 : rl = .nil := (isNull_iff rl).mp h3
                subst hrl0
                simp only [Balanced, HeightsOK, height] at hbr hor hb1 hb2
                obtain ⟨-, hbrr, hbr1, hbr2⟩ := hbr
                obtain ⟨-, horr, -⟩ := hor
                obtain ⟨t1, e', p1, p2, p3, p4, p5, p6, p7, p8, p9⟩ :=
                  rebalance_spec rk rv l rr hbl hol hbrr horr (by clear * - hb1 hb2; omega)
                  (by clear * - hb1 hb2; omega)
                refine ⟨t1, n - 1, ?_, p1, p2, ?_, ?_, Or.inr ⟨?_, rfl⟩,
                  fun hn => absurd hmem hn, ?_⟩
                · rw [remove]
                  simp only [hc, hc2, if_false, if_neg h1, if_neg h2, eq_self_iff_true,
                    if_true]
                  simp only [leftChild, setLeft, isNull, if_true, finish_mk, e']
                · simp only [height]; clear * - p6; omega
                · simp only [height]; clear * - p7 p8 hb1 hb2 hbr1 hbr2; omega
                · simp only [size]; clear * - p5; omega
                · intro hs; rw [hfl hs, p3]; simp [entries]
              · obtain ⟨sk, sv, rest, f1, f2⟩ :=
                  leftmost_spec (Node.mk rk rv rh rl rr) (by simp)
                obtain ⟨r1, n1, e, b1, o1, g1, g2, g3, g4, g5⟩ := ihr sk n hbr hor
                clear ihr
                obtain ⟨t1, e', p1, p2, p3, p4, p5, p6, p7, p8, p9⟩ :=
                  rebalance_spec sk sv l r1 hbl hol b1 o1 (by clear * - g1 g2 hb1 hb2; omega)
                  (by clear * - g1 g2 hb1 hb2; omega)
                refine ⟨t1, n1, ?_, p1, p2, ?_, ?_, ?_, fun hn => absurd hmem hn, ?_⟩
                · rw [remove]
                  simp only [hc, hc2, if_false, if_neg h1, if_neg h2, eq_self_iff_true,
                    if_true, leftChild, if_neg h3, f1, e, finish_mk, e']
                · show height t1 ≤ max (height l) (height (Node.mk rk rv rh rl rr)) + 1
                  clear * - p6 g1; omega
                · show max (height l) (height (Node.mk rk rv rh rl rr)) + 1 ≤ height t1 + 1
                  clear * - p7 p8 g1 g2 hb1 hb2; omega
                · simp only [size] at g3 ⊢; clear * - p5 g3; omega
                · intro hs
                  rw [hfl hs, p3]
                  simp only [Ordered, keys, List.pairwise_append, List.pairwise_cons] at hs
                  obtain ⟨hs1, ⟨hs2, hs3⟩, hs4⟩ := hs
                  have hso : Ordered (Node.mk rk rv rh rl rr) := by
                    simpa only [Ordered, keys, List.pairwise_append, List.pairwise_cons] using hs3
                  rw [g5 hso, f2]
                  have hrest : ∀ x ∈ rest, decide (x.1 ≠ sk) = true := by
                    have hp : (keys (Node.mk rk rv rh rl rr)).Pairwise (· < ·) := hso
                    rw [keys_eq_map_entries, f2] at hp
                    simp only [List.map_cons, List.pairwise_cons, List.mem_map] at hp
                    intro x hx
                    have := hp.1 x.1 ⟨x, hx, rfl⟩
                    simpa using ne_of_gt this
                  simp only [List.filter_cons, ne_eq, not_true_eq_false, decide_False,
                    Bool.false_eq_true, if_false]
                  rw [List.filter_eq_self.mpr hrest]


theorem AVLCollection.add_eq [LinearOrder K] (c : AVLCollection K V) (k : K) (v : V) :
    c.add k v = match AVL.add c.root k v c.node_count with
      | none => none
      | some (t, n) => some ⟨t, n⟩ := by
  rcases c with ⟨root, cnt⟩
  cases root
  · simp [AVLCollection.add, AVL.add]
  · rfl

/-- The structural part of the AVL invariant of a collection. -/
theorem run_inv [LinearOrder K] (ops : List (Op K V)) :
    ∀ c : AVLCollection K V, Balanced c.root → HeightsOK c.root →
    ∃ c1, run c ops = some c1 ∧ Balanced c1.root ∧ HeightsOK c1.root := by
  induction ops with
  | nil => intro c hb ho; exact ⟨c, rfl, hb, ho⟩
  | cons op ops ih =>
    intro c hb ho
    cases op with
    | add k v =>
      obtain ⟨t1, e, b1, o1, -⟩ := add_spec k v c.node_count c.root hb ho
      obtain ⟨c2, e2, b2, o2⟩ := ih ⟨t1, c.node_count + 1⟩ b1 o1
      refine ⟨c2, ?_, b2, o2⟩
      simp only [run, Op.apply, AVLCollection.add_eq, e, e2]
    | remove k =>
      obtain ⟨t1, n1, e, b1, o1, -⟩ := remove_spec c.root k c.node_count hb ho
      obtain ⟨c2, e2, b2, o2⟩ := ih ⟨t1, n1⟩ b1 o1
      refine ⟨c2, ?_, b2, o2⟩
      simp only [run, Op.apply, AVLCollection.remove, e, e2]

/-- What holds of every reachable collection. -/
theorem reachable_inv [LinearOrder K] {c : AVLCollection K V} (hc : Reachable c) :
    Balanced c.root ∧ HeightsOK c.root ∧ Ordered c.root ∧ c.node_count = size c.root := by
  induction hc with
  | empty => exact ⟨trivial, trivial, List.Pairwise.nil, rfl⟩
  | @add c c1 k v _ hk he ih =>
    obtain ⟨hb, ho, hs, hn⟩ := ih
    obtain ⟨t1, e, b1, o1, -, -, -, e1, e2, d1, d2, d3⟩ :=
      add_spec k v c.node_count c.root hb ho
    rw [AVLCollection.add_eq, e] at he
    simp only [Option.some.injEq] at he
    subst he
    refine ⟨b1, o1, ?_, ?_⟩
    · have hs0 : (keys c.root).Pairwise (· < ·) := hs
      obtain ⟨q1, q2⟩ := d3 (hs0.imp le_of_lt)
      have hk0 : k ∉ keys c.root := hk
      show (keys t1).Pairwise (· < ·)
      rw [keys_eq_map_entries, d1, List.map_append] at hs0 hk0
      rw [keys_eq_map_entries, d2, List.map_append, List.map_cons]
      simp only [List.pairwise_append, List.pairwise_cons, List.mem_map, List.mem_cons,
        List.mem_append, not_or] at hs0 hk0 ⊢
      obtain ⟨a1, a2, a3⟩ := hs0
      refine ⟨a1, ⟨?_, a2⟩, ?_⟩
      · rintro a ⟨x, hx, rfl⟩; exact q2 x hx
      · rintro a ⟨x, hx, rfl⟩ b hb
        rcases hb with rfl | ⟨y, hy, rfl⟩
        · refine lt_of_le_of_ne (q1 x hx) ?_
          intro h; exact hk0.1 ⟨x, hx, h⟩
        · exact a3 _ ⟨x, hx, rfl⟩ _ ⟨y, hy, rfl⟩
    · show c.node_count + 1 = size t1
      rw [hn, size_eq_length_entries, size_eq_length_entries, d1, d2]
      simp only [List.length_append, List.length_cons]
      omega
  | @remove c c1 k _ he ih =>
    obtain ⟨hb, ho, hs, hn⟩ := ih
    obtain ⟨t1, n1, e, b1, o1, -, -, g3, -, g5⟩ := remove_spec c.root k c.node_count hb ho
    rw [AVLCollection.remove, e] at he
    simp only [Option.some.injEq] at he
    subst he
    refine ⟨b1, o1, ?_, ?_⟩
    · show (keys t1).Pairwise (· < ·)
      rw [keys_eq_map_entries, g5 hs]
      have hs0 : (keys c.root).Pairwise (· < ·) := hs
      rw [keys_eq_map_entries] at hs0
      exact hs0.sublist ((List.filter_sublist _).map _)
    · show n1 = size t1
      clear * - g3 hn; omega

theorem avl_ordered_iff [LinearOrder K] (t : Node K V) :
    Ordered t ↔ (entries t).Pairwise (fun a b => a.1 < b.1) := by
  unfold Ordered
  rw [keys_eq_map_entries, List.pairwise_map]

/-- Strict ordering of the pairs of a subtree by key. -/
theorem avl_sorted_mk [LinearOrder K] {k : K} {v : V} {h : Nat} {l r : Node K V}
    (hs : (entries (Node.mk k v h l r)).Pairwise (fun a b => a.1 < b.1)) :
    (∀ e ∈ entries l, e.1 < k) ∧ (∀ e ∈ entries r, k < e.1) ∧
    (entries l).Pairwise (fun a b => a.1 < b.1) ∧
    (entries r).Pairwise (fun a b => a.1 < b.1) := by
  simp only [entries, List.pairwise_append, List.pairwise_cons] at hs
  obtain ⟨h1, ⟨h2, h3⟩, h4⟩ := hs
  exact ⟨fun e he => h4 e he (k, v) (by simp), h2, h1, h3⟩

/-- `find` on a stored key of an ordered tree returns its value. -/
theorem avl_find_of_mem [LinearOrder K] (k : K) (v d : V) :
    ∀ t : Node K V, (entries t).Pairwise (fun a b => a.1 < b.1) → (k, v) ∈ entries t →
      find t k d = (true, v) := by
  intro t
  induction t with
  | nil => intro _ h; simp [entries] at h
  | mk key value h l r ihl ihr =>
    intro hs hm
    obtain ⟨h1, h2, h3, h4⟩ := avl_sorted_mk hs
    simp only [entries, List.mem_append, List.mem_cons, Prod.mk.injEq] at hm
    rcases hm with hm | ⟨rfl, rfl⟩ | hm
    · have hlt : k < key := h1 _ hm
      simp only [find, if_neg (ne_of_gt hlt), if_pos hlt]
      exact ihl h3 hm
    · simp [find]
    · have hlt : key < k := h2 _ hm
      simp only [find, if_neg (ne_of_lt hlt), if_neg (not_lt_of_gt hlt)]
      exact ihr h4 hm

/-- `find` on a key that is not stored returns false and leaves the output
parameter as it was. -/
theorem avl_find_of_not_mem [LinearOrder K] (k : K) (d : V) :
    ∀ t : Node K V, (∀ e ∈ entries t, e.1 ≠ k) → find t k d = (false, d) := by
  intro t
  induction t with
  | nil => intro _; rfl
  | mk key value h l r ihl ihr =>
    intro hn
    have h0 : key ≠ k := hn (key, value) (by simp [entries])
    have hl := ihl (fun e he => hn e (by simp [entries, he]))
    have hr := ihr (fun e he => hn e (by simp [entries, he]))
    simp only [find, if_neg h0]
    split
    · exact hl
    · exact hr

theorem avl_mem_keys_iff (t : Node K V) (k : K) :
    k ∈ keys t ↔ ∃ v, (k, v) ∈ entries t := by
  rw [keys_eq_map_entries]
  simp only [List.mem_map, Prod.exists, exists_and_right, exists_eq_right]

/-- The result of `find` on an ordered tree, read off the in-order sequence. -/
theorem avl_find_iff [LinearOrder K] (t : Node K V) (ho : Ordered t) (k : K) (d : V) :
    ((find t k d).1 = true ↔ k ∈ keys t) ∧ ((find t k d).1 = false → (find t k d).2 = d) := by
  have hs := (avl_ordered_iff t).mp ho
  by_cases hk : k ∈ keys t
  · obtain ⟨v, hv⟩ := (avl_mem_keys_iff t k).mp hk
    rw [avl_find_of_mem k v d t hs hv]
    simp [hk]
  · have hn : ∀ e ∈ entries t, e.1 ≠ k := by
      intro e he h
      exact hk ((avl_mem_keys_iff t k).mpr ⟨e.2, by rw [← h]; exact he⟩)
    rw [avl_find_of_not_mem k d t hn]
    simp [hk]

/-- The public `add` of a new key on a reachable collection, seen in the
in-order sequence of pairs. -/
theorem avl_collection_add_spec [LinearOrder K] (c : AVLCollection K V) (hc : Reachable c)
    (k : K) (v : V) (hk : k ∉ c.keys) :
    ∃ c1, c.add k v = some c1 ∧ Reachable c1 ∧
      ∃ e1 e2, entries c.root = e1 ++ e2 ∧ entries c1.root = e1 ++ (k, v) :: e2 := by
  obtain ⟨hb, ho, -, -⟩ := reachable_inv hc
  obtain ⟨t1, e, -, -, -, -, -, e1, e2, d1, d2, -⟩ := add_spec k v c.node_count c.root hb ho
  have he : c.add k v = some ⟨t1, c.node_count + 1⟩ := by rw [AVLCollection.add_eq, e]
  exact ⟨_, he, Reachable.add k v hc hk he, e1, e2, d1, d2⟩

/-- The public `remove` on a reachable collection, seen in the in-order sequence
of pairs. -/
theorem avl_collection_remove_spec [LinearOrder K] (c : AVLCollection K V) (hc : Reachable c)
    (k : K) :
    ∃ c1, c.remove k = some c1 ∧ Reachable c1 ∧
      entries c1.root = (entries c.root).filter (fun x => decide (x.1 ≠ k)) := by
  obtain ⟨hb, ho, hs, -⟩ := reachable_inv hc
  obtain ⟨t1, n1, e, -, -, -, -, -, -, g5⟩ := remove_spec c.root k c.node_count hb ho
  have he : c.remove k = some ⟨t1, n1⟩ := by rw [AVLCollection.remove, e]
  exact ⟨_, he, Reachable.remove k hc he, g5 hs⟩

/-- After `add(k, v)` of a new key, `find(k)` returns `v` and `find` of every
other key returns what it returned before. -/
theorem avl_add_then_find [LinearOrder K] (c : AVLCollection K V) (hc : Reachable c)
    (k : K) (v : V) (hk : k ∉ c.keys) (d : V) :
    ∃ c1, c.add k v = some c1 ∧ c1.find k d = (true, v) ∧
      ∀ k1, k1 ≠ k → c1.find k1 d = c.find k1 d := by
  obtain ⟨c1, e, hc1, e1, e2, d1, d2⟩ := avl_collection_add_spec c hc k v hk
  have hs := (avl_ordered_iff _).mp (reachable_inv hc).2.2.1
  have hs1 := (avl_ordered_iff _).mp (reachable_inv hc1).2.2.1
  refine ⟨c1, e, ?_, ?_⟩
  · exact avl_find_of_mem k v d c1.root hs1 (by rw [d2]; simp)
  · intro k1 hne
    show find c1.root k1 d = find c.root k1 d
    by_cases hm : ∃ v1, (k1, v1) ∈ entries c.root
    · obtain ⟨v1, hv1⟩ := hm
      have hv2 : (k1, v1) ∈ entries c1.root := by
        rw [d1] at hv1
        rw [d2]
        simp only [List.mem_append, List.mem_cons] at hv1 ⊢
        rcases hv1 with h | h
        · exact Or.inl h
        · exact Or.inr (Or.inr h)
      rw [avl_find_of_mem k1 v1 d _ hs hv1, avl_find_of_mem k1 v1 d _ hs1 hv2]
    · have hn : ∀ e ∈ entries c.root, e.1 ≠ k1 := by
        intro e he h
        exact hm ⟨e.2, by rw [← h]; exact he⟩
      have hn1 : ∀ e ∈ entries c1.root, e.1 ≠ k1 := by
        intro e he
        rw [d2] at he
        simp only [List.mem_append, List.mem_cons] at he
        rcases he with h | rfl | h
        · exact hn e (by rw [d1]; simp [h])
        · exact fun h => hne h.symm
        · exact hn e (by rw [d1]; simp [h])
      rw [avl_find_of_not_mem k1 d _ hn, avl_find_of_not_mem k1 d _ hn1]

theorem avl_run_append [LinearOrder K] (ops1 ops2 : List (Op K V)) :
    ∀ c : AVLCollection K V,
      run c (ops1 ++ ops2) = (run c ops1).bind (fun c1 => run c1 ops2) := by
  induction ops1 with
  | nil => intro c; rfl
  | cons op ops ih =>
    intro c
    simp only [List.cons_append, run]
    cases h : op.apply c with
    | none => rfl
    | some c1 => exact ih c1

/-- A run of `add` calls with pairwise distinct keys that are not stored. -/
theorem avl_run_adds [LinearOrder K] (kvs : List (K × V)) :
    ∀ c : AVLCollection K V, Reachable c → (kvs.map Prod.fst).Nodup →
      (∀ k ∈ kvs.map Prod.fst, k ∉ c.keys) →
      ∃ c1, run c (kvs.map (fun kv => Op.add kv.1 kv.2)) = some c1 ∧ Reachable c1 ∧
        ∀ x, x ∈ c1.keys ↔ x ∈ c.keys ∨ x ∈ kvs.map Prod.fst := by
  induction kvs with
  | nil => intro c hc _ _; exact ⟨c, rfl, hc, by simp⟩
  | cons kv kvs ih =>
    intro c hc hnd hnew
    simp only [List.map_cons, List.nodup_cons] at hnd
    have hk : kv.1 ∉ c.keys := hnew kv.1 (by simp)
    obtain ⟨c1, e, hc1, e1, e2, d1, d2⟩ := avl_collection_add_spec c hc kv.1 kv.2 hk
    have hkeys : ∀ x, x ∈ c1.keys ↔ x ∈ c.keys ∨ x = kv.1 := by
      intro x
      show x ∈ keys c1.root ↔ x ∈ keys c.root ∨ x = kv.1
      rw [keys_eq_map_entries, keys_eq_map_entries, d1, d2]
      simp only [List.map_append, List.map_cons, List.mem_append, List.mem_cons]
      tauto
    obtain ⟨c2, e2, hc2, hk2⟩ := ih c1 hc1 hnd.2 (by
      intro k hkm hin
      rcases (hkeys k).mp hin with h | h
      · exact hnew k (by simp only [List.map_cons, List.mem_cons]; exact Or.inr hkm) h
      · exact hnd.1 (h ▸ hkm))
    refine ⟨c2, ?_, hc2, ?_⟩
    · simp only [List.map_cons, run, Op.apply, e]
      exact e2
    · intro x
      rw [hk2 x, hkeys x]
      simp only [List.map_cons, List.mem_cons]
      tauto

/-- A run of `remove` calls. -/
theorem avl_run_removes [LinearOrder K] (rs : List K) :
    ∀ c : AVLCollection K V, Reachable c →
      ∃ c1, run c (rs.map Op.remove) = some c1 ∧ Reachable c1 ∧
        ∀ x, x ∈ c1.keys ↔ x ∈ c.keys ∧ x ∉ rs := by
  induction rs with
  | nil => intro c hc; exact ⟨c, rfl, hc, by simp⟩
  | cons k rs ih =>
    intro c hc
    obtain ⟨c1, e, hc1, d⟩ := avl_collection_remove_spec c hc k
    have hkeys : ∀ x, x ∈ c1.keys ↔ x ∈ c.keys ∧ x ≠ k := by
      intro x
      show x ∈ keys c1.root ↔ x ∈ keys c.root ∧ x ≠ k
      rw [keys_eq_map_entries, keys_eq_map_entries, d]
      simp only [List.mem_map, List.mem_filter, decide_eq_true_eq, ne_eq]
      constructor
      · rintro ⟨a, ⟨h1, h2⟩, rfl⟩
        exact ⟨⟨a, h1, rfl⟩, h2⟩
      · rintro ⟨⟨a, h1, rfl⟩, h2⟩
        exact ⟨a, ⟨h1, h2⟩, rfl⟩
    obtain ⟨c2, e2, hc2, hk2⟩ := ih c1 hc1
    refine ⟨c2, ?_, hc2, ?_⟩
    · simp only [List.map_cons, run, Op.apply, e]
      exact e2
    · intro x
      rw [hk2 x, hkeys x]
      simp only [List.mem_cons]
      tauto

theorem avl_eq_nil_of_keys (t : Node K V) (h : keys t = []) : t = .nil := by
  cases t with
  | nil => rfl
  | mk k v h l r => simp [keys] at h

/-- The pre-order sequence holds the same keys as the in-order sequence. -/
theorem avl_perm_preorder (t : Node K V) : (preorder t).Perm (keys t) := by
  induction t with
  | nil => exact List.Perm.refl _
  | mk k v h l r ihl ihr =>
    simp only [preorder, keys]
    exact ((ihl.append ihr).cons k).trans List.perm_middle.symm

theorem avl_filter_preorder_nil (t : Node K V) (p : K → Bool) (h : ∀ k ∈ keys t, p k = false) :
    (preorder t).filter p = [] := by
  rw [List.filter_eq_nil_iff]
  intro k hk
  rw [h k ((avl_perm_preorder t).mem_iff.mp hk)]
  simp

/-- The helper of the range lookup on an ordered tree appends the keys of the
range in pre-order: the subtrees that it does not visit hold no key of the
range. -/
theorem avl_findRange_preorder [LinearOrder K] (k1 k2 : K) :
    ∀ (t : Node K V) (out : List K), Ordered t →
      findRange t k1 k2 out =
        out ++ (preorder t).filter (fun k => decide (k1 ≤ k ∧ k ≤ k2)) := by
  intro t
  induction t with
  | nil => intro out _; simp [findRange, preorder]
  | mk key v h l r ihl ihr =>
    intro out ho
    have ho1 : (keys l ++ key :: keys r).Pairwise (· < ·) := ho
    rw [List.pairwise_append, List.pairwise_cons] at ho1
    obtain ⟨hol, ⟨hr1, hor⟩, hl1⟩ := ho1
    have hl2 : ∀ k ∈ keys l, k < key := fun k hk => hl1 k hk key (by simp)
    by_cases c1 : k1 > key
    · -- the node and its left subtree lie below the range
      have hnl := avl_filter_preorder_nil l (fun k => decide (k1 ≤ k ∧ k ≤ k2)) (by
        intro k hk
        have := lt_trans (hl2 k hk) c1
        simp [not_le_of_gt this])
      simp only [findRange, if_pos c1, preorder, List.filter_cons, List.filter_append, hnl]
      rw [ihr out hor]
      simp [not_le_of_gt c1]
    · by_cases c2 : k1 ≤ key ∧ key ≤ k2
      · -- the node lies in the range
        simp only [findRange, if_neg c1, if_pos c2, preorder, List.filter_cons,
          List.filter_append]
        rw [ihl _ hol, ihr _ hor]
        simp [c2]
      · -- the node and its right subtree lie above the range
        have c3 : k2 < key := by
          have h1 : k1 ≤ key := not_lt.mp c1
          exact not_le.mp (fun h => c2 ⟨h1, h⟩)
        have hnr := avl_filter_preorder_nil r (fun k => decide (k1 ≤ k ∧ k ≤ k2)) (by
          intro k hk
          have := lt_trans c3 (hr1 k hk)
          simp [not_le_of_gt this])
        simp only [findRange, if_neg c1, if_neg c2, if_pos c3, preorder, List.filter_cons,
          List.filter_append, hnr]
        rw [ihl out hol]
        simp [not_le_of_gt c3]

/-- The keys that the range lookup appends are, up to their order, the stored
keys of the range. -/
theorem avl_findRange_perm [LinearOrder K] (t : Node K V) (ho : Ordered t) (k1 k2 : K)
    (out : List K) :
    ∃ app, findRange t k1 k2 out = out ++ app ∧
      app.Perm ((keys t).filter (fun k => decide (k1 ≤ k ∧ k ≤ k2))) ∧ app.Nodup :=
  have hp := (avl_perm_preorder t).filter (fun k => decide (k1 ≤ k ∧ k ≤ k2))
  have hnd : (keys t).Nodup := List.Pairwise.imp ne_of_lt ho
  ⟨_, avl_findRange_preorder k1 k2 t out ho, hp, hp.nodup_iff.mpr (hnd.filter _)⟩

/-- The left-heavy branches of `rebalance` keep the in-order key sequence. -/
theorem rebalanceLeftHeavy_keys (k : K) (v : V) (h : Nat) (l r t1 : Node K V)
    (e : rebalanceLeftHeavy k v h l r = some t1) : keys t1 = keys l ++ k :: keys r := by
  rcases l with _ | ⟨lk, lv, lh, ll, lr⟩
  · simp [rebalanceLeftHeavy] at e
  rcases lr with _ | ⟨lrk, lrv, lrh, lrl, lrr⟩ <;> rcases ll with _ | ⟨llk, llv, llh, lll, llr⟩ <;>
    simp only [rebalanceLeftHeavy, rotate_left, rotate_right, adjustHeights, setHeight] at e <;>
    (try split_ifs at e) <;>
    first
      | (cases e; done)
      | (simp only [rotate_right, adjustHeights, setHeight, Option.some.injEq] at e
         subst e
         simp [keys])

/-- The branch of `rebalance` for a missing left child keeps the in-order key
sequence. -/
theorem rebalanceRightOnly_keys (k : K) (v : V) (h : Nat) (l r t1 : Node K V)
    (e : rebalanceRightOnly k v h l r = some t1) : keys t1 = keys l ++ k :: keys r := by
  rcases r with _ | ⟨rk, rv, rh, rl, rr⟩
  · simp [rebalanceRightOnly] at e
  rcases rl with _ | ⟨rlk, rlv, rlh, rll, rlr⟩ <;> rcases rr with _ | ⟨rrk, rrv, rrh, rrl, rrr⟩ <;>
    rcases l with _ | ⟨lk, lv, lh, ll, lr⟩ <;>
    simp only [rebalanceRightOnly, rotate_left, rotate_right, adjustHeights, setHeight] at e <;>
    (try split_ifs at e) <;>
    first
      | (cases e; done)
      | (simp only [rotate_left, adjustHeights, setHeight, Option.some.injEq] at e
         subst e
         simp [keys])

/-- The right-heavy branch of `rebalance` keeps the in-order key sequence. -/
theorem rebalanceRightHeavy_keys (k : K) (v : V) (h : Nat) (l r t1 : Node K V)
    (e : rebalanceRightHeavy k v h l r = some t1) : keys t1 = keys l ++ k :: keys r := by
  rcases r with _ | ⟨rk, rv, rh, rl, rr⟩
  · simp [rebalanceRightHeavy] at e
  rcases rl with _ | ⟨rlk, rlv, rlh, rll, rlr⟩ <;> rcases rr with _ | ⟨rrk, rrv, rrh, rrl, rrr⟩ <;>
    rcases l with _ | ⟨lk, lv, lh, ll, lr⟩ <;>
    simp only [rebalanceRightHeavy, rotate_left, rotate_right, adjustHeights, setHeight] at e <;>
    (try split_ifs at e) <;>
    first
      | (cases e; done)
      | (simp only [rotate_left, adjustHeights, setHeight, Option.some.injEq] at e
         subst e
         simp [keys])

/-- Whenever `rebalance` returns, the in-order key sequence is the one it was
given. -/
theorem rebalance_keys (t t1 : Node K V) (e : rebalance t = some t1) : keys t1 = keys t := by
  rcases t with _ | ⟨k, v, h, l, r⟩
  · simp only [rebalance, Option.some.injEq] at e
    subst e; rfl
  · rcases l with _ | ⟨lk, lv, lh, ll, lr⟩ <;> rcases r with _ | ⟨rk, rv, rh, rl, rr⟩ <;>
      simp only [rebalance, storedHeight] at e <;>
      (try split_ifs at e) <;>
      first
        | (simp only [Option.some.injEq] at e; subst e; rfl)
        | exact rebalanceLeftHeavy_keys _ _ _ _ _ _ e
        | exact rebalanceRightOnly_keys _ _ _ _ _ _ e
        | exact rebalanceRightHeavy_keys _ _ _ _ _ _ e

theorem finish_keys (t t1 : Node K V) (e : finish t = some t1) : keys t1 = keys t := by
  rcases t with _ | ⟨k, v, h, l, r⟩
  · exact rebalance_keys _ _ e
  · rw [finish_mk] at e
    exact rebalance_keys (.mk k v (max (height l) (height r) + 1) l r) t1 e


theorem leftmost_min [LinearOrder K] (r : Node K V) (sk : K) (sv : V)
    (h : leftmost r = some (sk, sv)) (hs : (keys r).Pairwise (· ≤ ·)) :
    sk ∈ keys r ∧ ∀ y ∈ keys r, sk ≤ y := by
  have hne : r ≠ .nil := by
    rintro rfl
    simp [leftmost] at h
  obtain ⟨sk1, sv1, rest, e1, e2⟩ := leftmost_spec r hne
  rw [h] at e1
  simp only [Option.some.injEq, Prod.mk.injEq] at e1
  obtain ⟨rfl, rfl⟩ := e1
  have hk : keys r = sk :: rest.map Prod.fst := by
    rw [keys_eq_map_entries, e2, List.map_cons]
  rw [hk] at hs ⊢
  refine ⟨by simp, ?_⟩
  intro y hy
  rcases List.mem_cons.mp hy with rfl | hy
  · exact le_refl _
  · exact (List.pairwise_cons.mp hs).1 y hy

/-- Whenever the helper `remove` returns, a non-decreasing in-order key sequence
stays non-decreasing and gains no key. -/
theorem remove_nondec [LinearOrder K] :
    ∀ (t : Node K V) (a_key : K) (n : Nat) (t1 : Node K V) (n1 : Nat),
      remove t a_key n = some (t1, n1) → (keys t).Pairwise (· ≤ ·) →
      (keys t1).Pairwise (· ≤ ·) ∧ ∀ x ∈ keys t1, x ∈ keys t := by
  intro t
  induction t with
  | nil =>
    intro a_key n t1 n1 e _
    simp only [remove, Option.some.injEq, Prod.mk.injEq] at e
    obtain ⟨rfl, -⟩ := e
    exact ⟨List.Pairwise.nil, fun x hx => hx⟩
  | mk key value h l r ihl ihr =>
    intro a_key n t1 n1 e hs
    have hs0 := hs
    simp only [keys, List.pairwise_append, List.pairwise_cons, List.mem_cons] at hs0
    obtain ⟨hl, ⟨hkr, hr⟩, hlr⟩ := hs0
    have hlk : ∀ x ∈ keys l, x ≤ key := fun x hx => hlr x hx key (Or.inl rfl)
    rw [remove] at e
    by_cases c1 : a_key < key
    · -- the key is smaller: go on in the left subtree
      rw [if_pos c1] at e
      cases e1 : remove l a_key n with
      | none => simp [e1] at e
      | some p =>
        obtain ⟨l1, m1⟩ := p
        simp only [e1] at e
        cases e2 : finish (Node.mk key value h l1 r) with
        | none => simp [e2] at e
        | some t2 =>
          simp only [e2, Option.some.injEq, Prod.mk.injEq] at e
          obtain ⟨rfl, -⟩ := e
          obtain ⟨g1, g2⟩ := ihl a_key n l1 m1 e1 hl
          rw [finish_keys _ _ e2]
          simp only [keys, List.pairwise_append, List.pairwise_cons, List.mem_cons,
            List.mem_append]
          refine ⟨⟨g1, ⟨hkr, hr⟩, fun x hx y hy => hlr x (g2 x hx) y hy⟩, ?_⟩
          rintro x (hx | hx | hx)
          · exact Or.inl (g2 x hx)
          · exact Or.inr (Or.inl hx)
          · exact Or.inr (Or.inr hx)
    rw [if_neg c1] at e
    by_cases c2 : a_key > key
    · -- the key is greater: go on in the right subtree
      rw [if_pos c2] at e
      cases e1 : remove r a_key n with
      | none => simp [e1] at e
      | some p =>
        obtain ⟨r1, m1⟩ := p
        simp only [e1] at e
        cases e2 : finish (Node.mk key value h l r1) with
        | none => simp [e2] at e
        | some t2 =>
          simp only [e2, Option.some.injEq, Prod.mk.injEq] at e
          obtain ⟨rfl, -⟩ := e
          obtain ⟨g1, g2⟩ := ihr a_key n r1 m1 e1 hr
          rw [finish_keys _ _ e2]
          simp only [keys, List.pairwise_append, List.pairwise_cons, List.mem_cons,
            List.mem_append]
          refine ⟨⟨hl, ⟨fun x hx => hkr x (g2 x hx), g1⟩, ?_⟩, ?_⟩
          · rintro x hx y (hy | hy)
            · exact hlr x hx y (Or.inl hy)
            · exact hlr x hx y (Or.inr (g2 y hy))
          · rintro x (hx | hx | hx)
            · exact Or.inl hx
            · exact Or.inr (Or.inl hx)
            · exact Or.inr (Or.inr (g2 x hx))
    rw [if_neg c2] at e
    have c3 : a_key = key := le_antisymm (not_lt.mp c2) (not_lt.mp c1)
    rw [if_pos c3] at e
    by_cases c4 : height (Node.mk key value h l r) = 1
    · -- CASE 1
      rw [if_pos c4] at e
      simp only [finish, rebalance, Option.some.injEq, Prod.mk.injEq] at e
      obtain ⟨rfl, -⟩ := e
      exact ⟨List.Pairwise.nil, fun x hx => by simp [keys] at hx⟩
    rw [if_neg c4] at e
    by_cases c5 : height (Node.mk key value h l r) = 2 ∧ (isNull r = true ∨ isNull l = true)
    · -- CASE 2
      rw [if_pos c5] at e
      cases e2 : finish (if isNull r = true then l else r) with
      | none => simp [e2] at e
      | some t2 =>
        simp only [e2, Option.some.injEq, Prod.mk.injEq] at e
        obtain ⟨rfl, -⟩ := e
        rw [finish_keys _ _ e2]
        split
        · exact ⟨hl, fun x hx => by simp [keys, hx]⟩
        · exact ⟨hr, fun x hx => by simp [keys, hx]⟩
    rw [if_neg c5] at e
    -- CASES 3 and 4
    rcases r with _ | ⟨rk, rv, rh, rl, rr⟩
    · simp [leftChild] at e
    simp only [leftChild] at e
    by_cases c7 : isNull rl = true
    · -- CASE 3
      rw [if_pos c7] at e
      simp only [setLeft] at e
      cases e2 : finish (Node.mk rk rv rh l rr) with
      | none => simp [e2] at e
      | some t2 =>
        simp only [e2, Option.some.injEq, Prod.mk.injEq] at e
        obtain ⟨rfl, -⟩ := e
        rw [finish_keys _ _ e2]
        have hrl : rl = .nil := (isNull_iff rl).mp c7
        subst hrl
        simp only [keys, List.nil_append, List.pairwise_cons, List.mem_cons] at hr hkr hlr ⊢
        simp only [List.pairwise_append, List.pairwise_cons, List.mem_cons, List.mem_append]
        refine ⟨⟨hl, hr, fun x hx y hy => hlr x hx y (Or.inr hy)⟩, ?_⟩
        rintro x (hx | hx | hx)
        · exact Or.inl hx
        · exact Or.inr (Or.inr (Or.inl hx))
        · exact Or.inr (Or.inr (Or.inr hx))
    · -- CASE 4
      rw [if_neg c7] at e
      cases e0 : leftmost (Node.mk rk rv rh rl rr) with
      | none => simp [e0] at e
      | some p0 =>
        obtain ⟨sk, sv⟩ := p0
        simp only [e0] at e
        obtain ⟨hsk, hmin⟩ := leftmost_min _ sk sv e0 hr
        cases e1 : remove (Node.mk rk rv rh rl rr) sk n with
        | none => simp [e1] at e
        | some p =>
          obtain ⟨r1, m1⟩ := p
          simp only [e1] at e
          cases e2 : finish (Node.mk sk sv h l r1) with
          | none => simp [e2] at e
          | some t2 =>
            simp only [e2, Option.some.injEq, Prod.mk.injEq] at e
            obtain ⟨rfl, -⟩ := e
            obtain ⟨g1, g2⟩ := ihr sk n r1 m1 e1 hr
            rw [finish_keys _ _ e2]
            simp only [keys, List.pairwise_append, List.pairwise_cons, List.mem_cons,
              List.mem_append]
            refine ⟨⟨hl, ⟨fun x hx => hmin x (g2 x hx), g1⟩, ?_⟩, ?_⟩
            · rintro x hx y (hy | hy)
              · subst hy
                exact le_trans (hlk x hx) (hkr _ hsk)
              · exact hlr x hx y (Or.inr (g2 y hy))
            · rintro x (hx | hx | hx)
              · exact Or.inl hx
              · subst hx
                exact Or.inr (Or.inr (by simpa [keys] using hsk))
              · exact Or.inr (Or.inr (by simpa [keys] using g2 x hx))

/-- A balanced tree of height `h` has at least `fib (h + 2) - 1` nodes. -/
theorem fib_le_size (t : Node K V) (hb : Balanced t) :
    Nat.fib (height t + 2) ≤ size t + 1 := by
  induction t with
  | nil => simp [height, size]
  | mk k v h l r ihl ihr =>
    obtain ⟨hbl, hbr, h1, h2⟩ := hb
    have il := ihl hbl
    have ir := ihr hbr
    simp only [height, size]
    rcases le_total (height l) (height r) with hle | hle
    · rw [max_eq_right hle]
      have e : Nat.fib (height r + 1 + 2) = Nat.fib (height r + 1) + Nat.fib (height r + 2) :=
        Nat.fib_add_two
      have m : Nat.fib (height r + 1) ≤ Nat.fib (height l + 2) := Nat.fib_mono (by omega)
      omega
    · rw [max_eq_left hle]
      have e : Nat.fib (height l + 1 + 2) = Nat.fib (height l + 1) + Nat.fib (height l + 2) :=
        Nat.fib_add_two
      have m : Nat.fib (height l + 1) ≤ Nat.fib (height r + 2) := Nat.fib_mono (by omega)
      omega

/-- What holds after every run of `add` and `remove` calls, whatever the keys:
the run returns, the tree is balanced, the stored heights are accurate, the
in-order key sequence is non-decreasing and `node_count` is the number of
nodes. -/
theorem avl_run_full_inv [LinearOrder K] (ops : List (Op K V)) :
    ∀ c : AVLCollection K V, Balanced c.root → HeightsOK c.root →
      (keys c.root).Pairwise (· ≤ ·) → c.node_count = size c.root →
      ∃ c1, run c ops = some c1 ∧ Balanced c1.root ∧ HeightsOK c1.root ∧
        (keys c1.root).Pairwise (· ≤ ·) ∧ c1.node_count = size c1.root := by
  induction ops with
  | nil => intro c hb ho hs hn; exact ⟨c, rfl, hb, ho, hs, hn⟩
  | cons op ops ih =>
    intro c hb ho hs hn
    cases op with
    | add k v =>
      obtain ⟨t1, e, b1, o1, -, -, -, e1, e2, d1, d2, d3⟩ :=
        add_spec k v c.node_count c.root hb ho
      obtain ⟨q1, q2⟩ := d3 hs
      have hs1 : (keys t1).Pairwise (· ≤ ·) := by
        have hs0 := hs
        rw [keys_eq_map_entries, d1, List.map_append] at hs0
        rw [keys_eq_map_entries, d2, List.map_append, List.map_cons]
        simp only [List.pairwise_append, List.pairwise_cons, List.mem_map, List.mem_cons]
          at hs0 ⊢
        obtain ⟨a1, a2, a3⟩ := hs0
        refine ⟨a1, ⟨?_, a2⟩, ?_⟩
        · rintro a ⟨x, hx, rfl⟩; exact le_of_lt (q2 x hx)
        · rintro a ⟨x, hx, rfl⟩ b hb
          rcases hb with rfl | ⟨y, hy, rfl⟩
          · exact q1 x hx
          · exact a3 _ ⟨x, hx, rfl⟩ _ ⟨y, hy, rfl⟩
      have hn1 : c.node_count + 1 = size t1 := by
        rw [hn, size_eq_length_entries, size_eq_length_entries, d1, d2]
        simp only [List.length_append, List.length_cons]
        omega
      obtain ⟨c2, e2, r2⟩ := ih ⟨t1, c.node_count + 1⟩ b1 o1 hs1 hn1
      refine ⟨c2, ?_, r2⟩
      simp only [run, Op.apply, AVLCollection.add_eq, e, e2]
    | remove k =>
      obtain ⟨t1, n1, e, b1, o1, -, -, g3, -, -⟩ := remove_spec c.root k c.node_count hb ho
      have hs1 := (remove_nondec c.root k c.node_count t1 n1 e hs).1
      have hn1 : n1 = size t1 := by
        rcases g3 with ⟨g, g'⟩ | ⟨g, g'⟩
        · rw [g', hn, g]
        · rw [g', hn]; omega
      obtain ⟨c2, e2, r2⟩ := ih ⟨t1, n1⟩ b1 o1 hs1 hn1
      refine ⟨c2, ?_, r2⟩
      simp only [run, Op.apply, AVLCollection.remove, e, e2]

/-- Every run from the empty collection returns, with the invariants above. -/
theorem avl_run_empty_inv [LinearOrder K] (ops : List (Op K V)) :
    ∃ c1, run (AVLCollection.empty : AVLCollection K V) ops = some c1 ∧ Balanced c1.root ∧
      HeightsOK c1.root ∧ (keys c1.root).Pairwise (· ≤ ·) ∧ c1.node_count = size c1.root :=
  avl_run_full_inv ops AVLCollection.empty trivial trivial List.Pairwise.nil rfl

/-- The helper `copy`, called with a new node that holds key, value and stored
height of the root of `rhs` (here `k`, `v`, `h`), returns that node with a copy
of each subtree of `rhs` below it. -/
theorem copy_spec : ∀ (rhs : Node K V) (k : K) (v : V) (h : Nat),
    copy (.mk k v h .nil .nil) rhs =
      some (match rhs with
        | .nil => .mk k v h .nil .nil
        | .mk _ _ _ l r => .mk k v h l r) := by
  intro rhs
  induction rhs with
  | nil => intro k v h; rfl
  | mk rk rv rh l r ihl ihr =>
    intro k v h
    rcases l with _ | ⟨lk, lv, lh, ll, lr⟩ <;> rcases r with _ | ⟨rk1, rv1, rh1, rl, rr⟩
    · rfl
    · have e := ihr rk1 rv1 rh1
      simp only at e
      simp only [copy, e, Option.some_bind, setRight]
    · have e := ihl lk lv lh
      simp only at e
      simp only [copy, e, Option.some_bind, setLeft]
    · have e1 := ihl lk lv lh
      have e2 := ihr rk1 rv1 rh1
      simp only at e1 e2
      simp only [copy, e1, e2, Option.some_bind, setLeft, setRight]

/-- A node whose subtrees satisfy the AVL invariant and differ in height by 2
is rotated by `rebalance`, whatever its own stored height. -/
theorem rebalance_two_spec (k : K) (v : V) (h : Nat) (l r : Node K V)
    (hbl : Balanced l) (hol : HeightsOK l) (hbr : Balanced r) (hor : HeightsOK r)
    (hd : height l = height r + 2 ∨ height r = height l + 2) :
    ∃ t1, rebalance (.mk k v h l r) = some t1 ∧ Balanced t1 ∧ HeightsOK t1 ∧
      entries t1 = entries l ++ (k, v) :: entries r ∧
      keys t1 = keys l ++ k :: keys r ∧
      height t1 ≤ max (height l) (height r) + 1 ∧ max (height l) (height r) ≤ height t1 := by
  rcases l with _ | ⟨lk, lv, lh, ll, lr⟩ <;> rcases r with _ | ⟨rk, rv, rh, rl, rr⟩
  · simp [height] at hd
  · have hrh : rh = height (Node.mk rk rv rh rl rr) := by
      simp only [HeightsOK] at hor; simp only [height]; omega
    have hd1 : height (Node.mk rk rv rh rl rr) = height (Node.nil : Node K V) + 2 := by
      rcases hd with h1 | h1
      · simp only [height] at h1; omega
      · exact h1
    have hc : rh > 1 := by simp only [height] at hd1 hrh; omega
    simp only [rebalance, storedHeight, hc, if_true]
    obtain ⟨t1, e, p1, p2, p3, p4, p5, p6, p7⟩ :=
      rebalanceRightOnly_spec k v h .nil (.mk rk rv rh rl rr) hbl hol hbr hor hd1
    refine ⟨t1, e, p1, p2, p3, p4, ?_, ?_⟩ <;> simp only [height] at * <;> omega
  · have hlh : lh = height (Node.mk lk lv lh ll lr) := by
      simp only [HeightsOK] at hol; simp only [height]; omega
    have hd1 : height (Node.mk lk lv lh ll lr) = height (Node.nil : Node K V) + 2 := by
      rcases hd with h1 | h1
      · exact h1
      · simp only [height] at h1; omega
    have hc : lh > 1 := by simp only [height] at hd1 hlh; omega
    simp only [rebalance, storedHeight, hc, if_true]
    obtain ⟨t1, e, p1, p2, p3, p4, p5, p6, p7⟩ :=
      rebalanceLeftHeavy_spec k v h (.mk lk lv lh ll lr) .nil hbl hol hbr hor hd1
    refine ⟨t1, e, p1, p2, p3, p4, ?_, ?_⟩ <;> simp only [height] at * <;> omega
  · have hlh : lh = height (Node.mk lk lv lh ll lr) := by
      simp only [HeightsOK] at hol; simp only [height]; omega
    have hrh : rh = height (Node.mk rk rv rh rl rr) := by
      simp only [HeightsOK] at hor; simp only [height]; omega
    simp only [rebalance, storedHeight]
    rcases hd with hd1 | hd1
    · have hc : lh > rh + 1 := by omega
      simp only [hc, if_true]
      obtain ⟨t1, e, p1, p2, p3, p4, p5, p6, p7⟩ :=
        rebalanceLeftHeavy_spec k v h (.mk lk lv lh ll lr) (.mk rk rv rh rl rr)
          hbl hol hbr hor hd1
      refine ⟨t1, e, p1, p2, p3, p4, ?_, ?_⟩ <;> omega
    · have hc : ¬ lh > rh + 1 := by omega
      have hc2 : rh > lh + 1 := by omega
      simp only [hc, hc2, if_true, if_false]
      obtain ⟨t1, e, p1, p2, p3, p4, p5, p6, p7⟩ :=
        rebalanceRightHeavy_spec k v h (.mk lk lv lh ll lr) (.mk rk rv rh rl rr)
          hbl hol hbr hor hd1 (by simp [height])
      refine ⟨t1, e, p1, p2, p3, p4, ?_, ?_⟩ <;> omega

/-! ## The mirror image -/

theorem height_mirror (t : Node K V) : height (mirror t) = height t := by
  induction t with
  | nil => rfl
  | mk k v h l r ihl ihr => simp only [mirror, height, ihl, ihr, Nat.max_comm]

theorem mirror_mirror (t : Node K V) : mirror (mirror t) = t := by
  induction t with
  | nil => rfl
  | mk k v h l r ihl ihr => simp only [mirror, ihl, ihr]

theorem rotate_right_mirror (t : Node K V) :
    rotate_right (mirror t) = (rotate_left t).map mirror := by
  rcases t with _ | ⟨k, v, h, l, r⟩
  · rfl
  · rcases r with _ | ⟨rk, rv, rh, rl, rr⟩ <;> simp [mirror, rotate_right, rotate_left]

theorem rotate_left_mirror (t : Node K V) :
    rotate_left (mirror t) = (rotate_right t).map mirror := by
  rcases t with _ | ⟨k, v, h, l, r⟩
  · rfl
  · rcases l with _ | ⟨lk, lv, lh, ll, lr⟩ <;> simp [mirror, rotate_right, rotate_left]

theorem setHeight_mirror (t : Node K V) :
    setHeight (mirror t) = (setHeight t).map mirror := by
  rcases t with _ | ⟨k, v, h, l, r⟩
  · rfl
  · simp [mirror, setHeight, height, height_mirror, Nat.max_comm]

theorem adjustHeights_mirror (t : Node K V) :
    adjustHeights (mirror t) = (adjustHeights t).map mirror := by
  rcases t with _ | ⟨k, v, h, l, r⟩
  · rfl
  · simp only [mirror, adjustHeights, setHeight_mirror]
    cases hl : setHeight l <;> cases hr : setHeight r <;>
      simp [mirror, height, height_mirror, Nat.max_comm]

/-- The rule chain for a taller right subtree, with the tests guarded as in the
branch without a left child, is the mirror image of the left-heavy rule chain. -/
theorem rebalanceRightOnly_mirror (k : K) (v : V) (h : Nat) (l r : Node K V) :
    rebalanceRightOnly k v h (mirror r) (mirror l) =
      (rebalanceLeftHeavy k v h l r).map mirror := by
  rcases l with _ | ⟨lk, lv, lh, ll, lr⟩
  · rfl
  rcases lr with _ | ⟨lrk, lrv, lrh, lrl, lrr⟩ <;> rcases ll with _ | ⟨llk, llv, llh, lll, llr⟩ <;>
    simp only [mirror, rebalanceRightOnly, rebalanceLeftHeavy, rotate_right, rotate_left] <;>
    (try split_ifs) <;>
    (try simp only [rotate_right, rotate_left]) <;>
    (rw [← adjustHeights_mirror]; rfl)

theorem rebalanceLeftHeavy_mirror (k : K) (v : V) (h : Nat) (l r : Node K V) :
    rebalanceLeftHeavy k v h (mirror r) (mirror l) =
      (rebalanceRightOnly k v h l r).map mirror := by
  have h1 := rebalanceRightOnly_mirror k v h (mirror r) (mirror l)
  rw [mirror_mirror, mirror_mirror] at h1
  rw [h1, Option.map_map]
  have : (mirror ∘ mirror : Node K V → Node K V) = id := funext mirror_mirror
  rw [this, Option.map_id, id]

/-- The right-heavy branch for two children agrees with the guarded rule chain
when the right child has both children. -/
theorem rebalanceRightHeavy_eq (k : K) (v : V) (h : Nat) (l : Node K V) (rk : K) (rv : V)
    (rh : Nat) (rlk : K) (rlv : V) (rlh : Nat) (rll rlr : Node K V) (rrk : K) (rrv : V)
    (rrh : Nat) (rrl rrr : Node K V) :
    rebalanceRightHeavy k v h l (.mk rk rv rh (.mk rlk rlv rlh rll rlr) (.mk rrk rrv rrh rrl rrr)) =
      rebalanceRightOnly k v h l
        (.mk rk rv rh (.mk rlk rlv rlh rll rlr) (.mk rrk rrv rrh rrl rrr)) := by
  simp only [rebalanceRightHeavy, rebalanceRightOnly]

/-- On a node whose two subtrees satisfy the AVL invariant, `rebalance` of the
mirror image is the mirror image of `rebalance`. -/
theorem rebalance_mirror (k : K) (v : V) (h : Nat) (l r : Node K V)
    (hbl : Balanced l) (hol : HeightsOK l) (hbr : Balanced r) (hor : HeightsOK r) :
    rebalance (mirror (.mk k v h l r)) = (rebalance (.mk k v h l r)).map mirror := by
  rcases l with _ | ⟨lk, lv, lh, ll, lr⟩ <;> rcases r with _ | ⟨rk, rv, rh, rl, rr⟩
  · rfl
  · simp only [mirror, rebalance, storedHeight]
    by_cases hc : rh > 1
    · simp only [hc, if_true]
      exact rebalanceLeftHeavy_mirror k v h .nil (.mk rk rv rh rl rr)
    · simp only [hc, if_false, Option.map_some', mirror]
  · simp only [mirror, rebalance, storedHeight]
    by_cases hc : lh > 1
    · simp only [hc, if_true]
      exact rebalanceRightOnly_mirror k v h (.mk lk lv lh ll lr) .nil
    · simp only [hc, if_false, Option.map_some', mirror]
  · have hlh : lh = max (height ll) (height lr) + 1 := hol.2.2
    have hrh : rh = max (height rl) (height rr) + 1 := hor.2.2
    simp only [mirror, rebalance, storedHeight]
    by_cases hc : lh > rh + 1
    · have hc2 : ¬ rh > lh + 1 := by omega
      simp only [hc, hc2, if_true, if_false]
      obtain ⟨-, -, b1, b2⟩ := hbl
      rcases ll with _ | ⟨llk, llv, llh, lll, llr⟩
      · simp only [height] at b1 b2 hlh; omega
      rcases lr with _ | ⟨lrk, lrv, lrh, lrl, lrr⟩
      · simp only [height] at b1 b2 hlh; omega
      simp only [mirror]
      rw [rebalanceRightHeavy_eq]
      exact rebalanceRightOnly_mirror k v h
        (.mk lk lv lh (.mk llk llv llh lll llr) (.mk lrk lrv lrh lrl lrr)) (.mk rk rv rh rl rr)
    · by_cases hc2 : rh > lh + 1
      · simp only [hc, hc2, if_true, if_false]
        obtain ⟨-, -, b1, b2⟩ := hbr
        rcases rl with _ | ⟨rlk, rlv, rlh, rll, rlr⟩
        · simp only [height] at b1 b2 hrh; omega
        rcases rr with _ | ⟨rrk, rrv, rrh, rrl, rrr⟩
        · simp only [height] at b1 b2 hrh; omega
        rw [rebalanceRightHeavy_eq]
        exact rebalanceLeftHeavy_mirror k v h (.mk lk lv lh ll lr)
          (.mk rk rv rh (.mk rlk rlv rlh rll rlr) (.mk rrk rrv rrh rrl rrr))
      · simp only [hc, hc2, if_false, Option.map_some', mirror]

end AVL

namespace RBT
variable {K V : Type}
open color_t

theorem color_ne_red_iff (c : color_t) : c ≠ RED ↔ c = BLACK := by
  cases c <;> simp

theorem color_ne_black_iff (c : color_t) : c ≠ BLACK ↔ c = RED := by
  cases c <;> simp

theorem rbt_keys_eq_map_entries (t : Node K V) : keys t = (entries t).map Prod.fst := by
  induction t with
  | nil => rfl
  | mk k v c l r ihl ihr => simp [keys, entries, ihl, ihr]

theorem rbt_size_eq_length_entries (t : Node K V) : size t = (entries t).length := by
  induction t with
  | nil => rfl
  | mk k v c l r ihl ihr => simp [size, entries, ihl, ihr]; omega

theorem rootColor_eq (t : Node K V) :
    (match colorOf t with | some c => c | none => BLACK) = rootColor t := by
  cases t <;> rfl

theorem bh_mk (k : K) (v : V) (c : color_t) (l r : Node K V)
    (h : black_node_height l = black_node_height r) :
    black_node_height (.mk k v c l r) =
      if c = BLACK then black_node_height l + 1 else black_node_height l := by
  simp only [black_node_height, h, gt_iff_lt, lt_self_iff_false, if_false]
  split <;> omega

theorem bh_pos (t : Node K V) : 1 ≤ black_node_height t := by
  induction t with
  | nil => simp [black_node_height]
  | mk k v c l r ihl ihr =>
    simp only [black_node_height]
    split <;> split <;> omega

/-- The helper `valid_rbt(subtree_root)` returns true exactly on the subtrees
that satisfy `RB`. -/
theorem valid_rbt_iff (t : Node K V) : valid_rbt t = true ↔ RB t := by
  induction t with
  | nil => simp [valid_rbt, RB]
  | mk k v c l r ihl ihr =>
    simp only [valid_rbt, RB, rootColor_eq, Bool.and_eq_true, Bool.or_eq_true,
      decide_eq_true_eq, ihl, ihr]
    constructor
    · rintro ⟨⟨⟨h1, h2⟩, h3⟩, h4⟩
      refine ⟨h1, ?_, h3, h4⟩
      intro hc
      rcases h2 with h2 | h2
      · exact absurd hc h2
      · cases l <;> cases r <;> simp_all [colorOf, rootColor]
    · rintro ⟨h1, h2, h3, h4⟩
      refine ⟨⟨⟨h1, ?_⟩, h3⟩, h4⟩
      by_cases hc : c = RED
      · refine Or.inr ?_
        have := h2 hc
        cases l <;> cases r <;> simp_all [colorOf, rootColor]
      · exact Or.inl hc

theorem entries_plug (f : Frame K V) (t : Node K V) :
    entries (f.plug t) =
      (if f.onLeft then [] else entries f.other ++ [(f.key, f.value)]) ++ entries t ++
      (if f.onLeft then (f.key, f.value) :: entries f.other else []) := by
  cases h : f.onLeft <;> simp [Frame.plug, entries, h]

theorem entries_zipUp (path : List (Frame K V)) (t : Node K V) :
    entries (zipUp path t) = leftEntries path ++ entries t ++ rightEntries path := by
  induction path generalizing t with
  | nil => simp [zipUp, leftEntries, rightEntries]
  | cons f fs ih =>
    rw [zipUp, ih, entries_plug]
    simp [leftEntries, rightEntries, List.append_assoc]

theorem rootColor_plug (f : Frame K V) (t : Node K V) : rootColor (f.plug t) = f.color := by
  cases h : f.onLeft <;> simp [Frame.plug, rootColor, h]

theorem RB_zipUp (path : List (Frame K V)) (t : Node K V) (ht : RB t)
    (hp : PathRB path (rootColor t) (black_node_height t)) : RB (zipUp path t) := by
  induction path generalizing t with
  | nil => exact ht
  | cons f fs ih =>
    obtain ⟨h1, h2, h3, h4⟩ := hp
    rw [zipUp]
    have hbh : black_node_height (f.plug t) =
        if f.color = BLACK then black_node_height t + 1 else black_node_height t := by
      cases h : f.onLeft
      · simp only [Frame.plug, h, Bool.false_eq_true, if_false]
        rw [bh_mk _ _ _ _ _ h2, h2]
      · simp only [Frame.plug, h, if_true]
        rw [bh_mk _ _ _ _ _ h2.symm]
    apply ih
    · cases h : f.onLeft
      · simp only [Frame.plug, h, Bool.false_eq_true, if_false, RB]
        exact ⟨h2, fun hc => ⟨(h3 hc).2, (h3 hc).1⟩, h1, ht⟩
      · simp only [Frame.plug, h, if_true, RB]
        exact ⟨h2.symm, fun hc => h3 hc, ht, h1⟩
    · rw [rootColor_plug, hbh]
      exact h4


theorem mem_entries_sorted_left [LinearOrder K] {xk : K} {xv : V} {el er : List (K × V)}
    (h : (el ++ (xk, xv) :: er).Pairwise (fun a b => a.1 < b.1)) :
    (∀ e ∈ el, e.1 < xk) ∧ (∀ e ∈ er, xk < e.1) := by
  rw [List.pairwise_append] at h
  obtain ⟨-, h2, h3⟩ := h
  rw [List.pairwise_cons] at h2
  exact ⟨fun e he => h3 e he (xk, xv) (by simp), fun e he => h2.1 e he⟩

/-- The step of the loop of `add` from a node to its child keeps the invariant,
given what `add_rebalance` has established at the node. -/
theorem addDescend [LinearOrder K] (a_key : K) (path1 : List (Frame K V))
    (xk : K) (xv : V) (xc : color_t) (xl xr : Node K V)
    (hb : AddBase a_key path1 (.mk xk xv xc xl xr))
    (d1 : xc = RED → (path1 = [] ∨ ∃ p rest, path1 = p :: rest ∧ rootColor p.other = RED) →
      FreshBlack (navChild a_key (.mk xk xv xc xl xr)))
    (d2 : rootColor xl = RED → rootColor xr = RED →
      FreshBlack (navChild a_key (navChild a_key (.mk xk xv xc xl xr)))) :
    (a_key < xk → AddInv a_key (⟨true, xk, xv, xc, xr, false⟩ :: path1) xl) ∧
    (¬ a_key < xk → AddInv a_key (⟨false, xk, xv, xc, xl, false⟩ :: path1) xr) := by
  obtain ⟨hs, hgl, hgr, hn, hrx, hrp⟩ := hb
  have hx : (entries xl ++ (xk, xv) :: entries xr).Pairwise (fun a b => a.1 < b.1) :=
    (List.pairwise_append.mp (List.pairwise_append.mp hs).1).2.1
  obtain ⟨hxl, hxr⟩ := mem_entries_sorted_left hx
  obtain ⟨hbh, hcol, hrl, hrr⟩ := hrx
  have hbhx := bh_mk xk xv xc xl xr hbh
  simp only [rootColor] at hrp
  rw [hbhx] at hrp
  constructor
  · intro hlt
    refine ⟨⟨?_, ?_, ?_, ?_, hrl, ?_⟩, ?_, ?_⟩
    · have : leftEntries (⟨true, xk, xv, xc, xr, false⟩ :: path1) ++ entries xl ++
          rightEntries (⟨true, xk, xv, xc, xr, false⟩ :: path1) =
          leftEntries path1 ++ entries (Node.mk xk xv xc xl xr) ++ rightEntries path1 := by
        simp [leftEntries, rightEntries, entries]
      rw [this]; exact hs
    · intro e he
      simp only [leftEntries, if_true, List.append_nil] at he
      exact hgl e he
    · intro e he
      simp only [rightEntries, if_true, List.cons_append, List.mem_cons, List.mem_append] at he
      rcases he with rfl | he | he
      · exact hlt
      · exact lt_trans hlt (hxr e he)
      · exact hgr e he
    · intro e he
      exact hn e (by simp [entries, he])
    · exact ⟨hrr, hbh.symm, hcol, hrp⟩
    · intro p rest hp hc hor
      obtain ⟨rfl, rfl⟩ := List.cons.inj hp
      have := d1 hc hor
      simpa only [navChild, hlt, if_true] using this
    · intro hc hor
      rcases hor with h | ⟨p, rest, hp, hc2⟩
      · simp at h
      · obtain ⟨rfl, rfl⟩ := List.cons.inj hp
        have := d2 hc hc2
        simpa only [navChild, hlt, if_true] using this
  · intro hlt
    have hne : xk ≠ a_key := hn (xk, xv) (by simp [entries])
    have hlt2 : xk < a_key := lt_of_le_of_ne (not_lt.mp hlt) hne
    refine ⟨⟨?_, ?_, ?_, ?_, hrr, ?_⟩, ?_, ?_⟩
    · have : leftEntries (⟨false, xk, xv, xc, xl, false⟩ :: path1) ++ entries xr ++
          rightEntries (⟨false, xk, xv, xc, xl, false⟩ :: path1) =
          leftEntries path1 ++ entries (Node.mk xk xv xc xl xr) ++ rightEntries path1 := by
        simp [leftEntries, rightEntries, entries]
      rw [this]; exact hs
    · intro e he
      simp only [leftEntries, Bool.false_eq_true, if_false, List.mem_append, List.mem_singleton]
        at he
      rcases he with he | he | rfl
      · exact hgl e he
      · exact lt_trans (hxl e he) hlt2
      · exact hlt2
    · intro e he
      simp only [rightEntries, Bool.false_eq_true, if_false, List.nil_append] at he
      exact hgr e he
    · intro e he
      exact hn e (by simp [entries, he])
    · refine ⟨hrl, hbh, fun h => ⟨(hcol h).2, (hcol h).1⟩, ?_⟩
      rw [← hbh]; exact hrp
    · intro p rest hp hc hor
      obtain ⟨rfl, rfl⟩ := List.cons.inj hp
      have := d1 hc hor
      simpa only [navChild, hlt, if_false] using this
    · intro hc hor
      rcases hor with h | ⟨p, rest, hp, hc2⟩
      · simp at h
      · obtain ⟨rfl, rfl⟩ := List.cons.inj hp
        have := d2 hc2 hc
        simpa only [navChild, hlt, if_false] using this



theorem black_node_height_mk (k : K) (v : V) (c : color_t) (l r : Node K V) :
    black_node_height (.mk k v c l r) =
      if c = BLACK then 1 + max (black_node_height l) (black_node_height r)
      else max (black_node_height l) (black_node_height r) := by
  simp only [black_node_height]
  split <;> split <;> omega

theorem colorFlip_red (k : K) (v : V) (l r : Node K V) :
    colorFlip (.mk k v RED l r) = some (.mk k v RED l r) := by
  cases l <;> cases r <;> simp [colorFlip]

theorem entries_cons_eq (f : Frame K V) (fs : List (Frame K V)) (t : Node K V) :
    leftEntries (f :: fs) ++ entries t ++ rightEntries (f :: fs) =
      leftEntries fs ++ entries (f.plug t) ++ rightEntries fs := by
  rw [entries_plug]
  simp [leftEntries, rightEntries, List.append_assoc]

/-- Strict ordering of the pairs of a subtree by key. -/
theorem sorted_mk [LinearOrder K] {k : K} {v : V} {c : color_t} {l r : Node K V}
    (h : (entries (Node.mk k v c l r)).Pairwise (fun a b => a.1 < b.1)) :
    (∀ e ∈ entries l, e.1 < k) ∧ (∀ e ∈ entries r, k < e.1) ∧
    (entries l).Pairwise (fun a b => a.1 < b.1) ∧
    (entries r).Pairwise (fun a b => a.1 < b.1) := by
  simp only [entries] at h
  obtain ⟨h1, h2⟩ := mem_entries_sorted_left h
  rw [List.pairwise_append, List.pairwise_cons] at h
  exact ⟨h1, h2, h.1, h.2.1.2⟩

theorem mem_entries_root (k : K) (v : V) (c : color_t) (l r : Node K V) :
    (k, v) ∈ entries (Node.mk k v c l r) := by simp [entries]

theorem relinkAgrees_of_sorted [LinearOrder K] (above : List (Frame K V))
    (mid : List (K × V)) (k : K) (v : V)
    (hs : (leftEntries above ++ mid ++ rightEntries above).Pairwise (fun a b => a.1 < b.1))
    (hm : (k, v) ∈ mid) : relinkAgrees above k = true := by
  rcases above with _ | ⟨g, rest⟩
  · rfl
  · simp only [relinkAgrees, decide_eq_true_eq]
    rw [List.pairwise_append, List.pairwise_append] at hs
    obtain ⟨⟨-, -, h1⟩, -, h2⟩ := hs
    cases hg : g.onLeft
    · have : g.key < k := h1 (g.key, g.value) (by simp [leftEntries, hg]) (k, v) hm
      simp [not_lt_of_gt this]
    · have : k < g.key :=
        h2 (k, v) (by simp [hm]) (g.key, g.value) (by simp [rightEntries, hg])
      simp [this]



/-- The rotations of `add_rebalance` for a RED node below a RED parent whose
sibling is not RED. -/
theorem add_rebalance_redred [LinearOrder K] (p g : Frame K V) (above : List (Frame K V))
    (xk : K) (xv : V) (xl xr : Node K V)
    (hs : (leftEntries (p :: g :: above) ++ entries (Node.mk xk xv RED xl xr) ++
      rightEntries (p :: g :: above)).Pairwise (fun a b => a.1 < b.1))
    (hrx : RB (Node.mk xk xv RED xl xr))
    (hrp : PathRB (p :: g :: above) BLACK (black_node_height (Node.mk xk xv RED xl xr)))
    (hpc : p.color = RED) (hunc : rootColor g.other ≠ RED) :
    ∃ path1 x1, add_rebalance (p :: g :: above) (Node.mk xk xv RED xl xr) = some (path1, x1) ∧
      RB x1 ∧ PathRB path1 (rootColor x1) (black_node_height x1) ∧
      leftEntries path1 ++ entries x1 ++ rightEntries path1 =
        leftEntries (p :: g :: above) ++ entries (Node.mk xk xv RED xl xr) ++
          rightEntries (p :: g :: above) ∧
      ((x1 = Node.mk xk xv RED xl xr ∧
          ((g.onLeft = false ∧ p.onLeft = false ∧
              path1 = ⟨false, p.key, p.value, BLACK,
                .mk g.key g.value RED g.other p.other, p.mark⟩ :: above) ∨
           (g.onLeft = true ∧ p.onLeft = true ∧
              path1 = ⟨true, p.key, p.value, BLACK,
                .mk g.key g.value RED p.other g.other, p.mark⟩ :: above))) ∨
       (path1 = above ∧
          ((g.onLeft = false ∧ p.onLeft = true ∧
              x1 = .mk xk xv BLACK (.mk g.key g.value RED g.other xl)
                (.mk p.key p.value RED xr p.other)) ∨
           (g.onLeft = true ∧ p.onLeft = false ∧
              x1 = .mk xk xv BLACK (.mk p.key p.value RED p.other xl)
                (.mk g.key g.value RED xr g.other))))) := by
  obtain ⟨ponl, pk, pv, pc, po, pm⟩ := p
  obtain ⟨gonl, gk, gv, gc, go, gm⟩ := g
  simp only at hpc hunc
  subst hpc
  -- colours and black heights
  simp only [PathRB, RB, rootColor, black_node_height_mk, if_true, if_false, ne_eq,
    not_true_eq_false, not_false_eq_true, true_and, false_and, imp_false, forall_const,
    reduceCtorEq, true_implies] at hrp hrx
  obtain ⟨hpo, hpob, hpoc, hgo, hgob, hgc, hab⟩ := hrp
  obtain ⟨hxb, ⟨hxlc, hxrc⟩, hxl, hxr⟩ := hrx
  have hgc' : gc = BLACK := (color_ne_red_iff gc).mp hgc
  subst hgc'
  simp only [if_true] at hab
  -- order
  have hs2 := hs
  rw [entries_cons_eq, entries_cons_eq] at hs2
  have hmid := (List.pairwise_append.mp (List.pairwise_append.mp hs2).1).2.1
  have relink : ∀ k v, (k, v) ∈ entries (Frame.plug ⟨gonl, gk, gv, BLACK, go, gm⟩
      (Frame.plug ⟨ponl, pk, pv, RED, po, pm⟩ (Node.mk xk xv RED xl xr))) →
      relinkAgrees above k = true :=
    fun k v hm => relinkAgrees_of_sorted above _ k v hs2 hm
  cases gonl <;> cases ponl
  · -- p right of g, x right of p: outside
    simp only [Frame.plug, Bool.false_eq_true, if_false] at hmid relink
    obtain ⟨-, hg2, -, hgr⟩ := sorted_mk hmid
    obtain ⟨-, hp2, -, -⟩ := sorted_mk hgr
    have h1 : gk < pk := hg2 (pk, pv) (mem_entries_root _ _ _ _ _)
    have h2 : pk < xk := hp2 (xk, xv) (mem_entries_root _ _ _ _ _)
    have h3 : relinkAgrees above pk = true := relink pk pv (by simp [entries])
    refine ⟨_, _, ?_, ?_, ?_, ?_, Or.inl ⟨rfl, Or.inl ⟨rfl, rfl, rfl⟩⟩⟩
    · simp [add_rebalance, colorFlip_red, h1, not_lt_of_gt h2, h3]
    · exact ⟨hxb, fun _ => ⟨hxlc, hxrc⟩, hxl, hxr⟩
    · simp only [PathRB, RB, rootColor, black_node_height_mk, if_true, if_false,
        reduceCtorEq, ne_eq, not_false_eq_true, true_implies, false_implies, true_and]
      refine ⟨⟨?_, ⟨hunc, hpoc⟩, hgo, hpo⟩, ?_, ?_⟩
      · omega
      · omega
      · convert hab using 1
    · simp [leftEntries, rightEntries, entries]
  · -- p right of g, x left of p: inside
    simp only [Frame.plug, Bool.false_eq_true, if_false, if_true] at hmid relink
    obtain ⟨-, hg2, -, hgr⟩ := sorted_mk hmid
    obtain ⟨hp1, -, -, -⟩ := sorted_mk hgr
    have h1 : gk < pk := hg2 (pk, pv) (mem_entries_root _ _ _ _ _)
    have h2 : xk < pk := hp1 (xk, xv) (mem_entries_root _ _ _ _ _)
    have h4 : gk < xk := hg2 (xk, xv) (by simp [entries])
    have h3 : relinkAgrees above xk = true := relink xk xv (by simp [entries])
    refine ⟨_, _, ?_, ?_, ?_, ?_, Or.inr ⟨rfl, Or.inl ⟨rfl, rfl, rfl⟩⟩⟩
    · simp [add_rebalance, colorFlip_red, h1, h2, not_lt_of_gt h4, h3]
    · simp only [RB, rootColor, black_node_height_mk, if_true, if_false,
        reduceCtorEq, ne_eq, not_false_eq_true, true_implies, false_implies, true_and]
      refine ⟨?_, ⟨?_, ⟨hunc, hxlc⟩, hgo, hxl⟩, ?_, ⟨hxrc, hpoc⟩, hxr, hpo⟩ <;> omega
    · simp only [rootColor, black_node_height_mk, if_true, if_false, reduceCtorEq]
      convert hab using 1
      omega
    · simp [leftEntries, rightEntries, entries]
  · -- p left of g, x right of p: inside
    simp only [Frame.plug, Bool.false_eq_true, if_false, if_true] at hmid relink
    obtain ⟨hg1, -, hgl, -⟩ := sorted_mk hmid
    obtain ⟨-, hp2, -, -⟩ := sorted_mk hgl
    have h1 : pk < gk := hg1 (pk, pv) (mem_entries_root _ _ _ _ _)
    have h2 : pk < xk := hp2 (xk, xv) (mem_entries_root _ _ _ _ _)
    have h4 : xk < gk := hg1 (xk, xv) (by simp [entries])
    have h3 : relinkAgrees above xk = true := relink xk xv (by simp [entries])
    refine ⟨_, _, ?_, ?_, ?_, ?_, Or.inr ⟨rfl, Or.inr ⟨rfl, rfl, rfl⟩⟩⟩
    · simp [add_rebalance, colorFlip_red, h1, h2, h4, not_lt_of_gt h1, h3]
    · simp only [RB, rootColor, black_node_height_mk, if_true, if_false,
        reduceCtorEq, ne_eq, not_false_eq_true, true_implies, false_implies, true_and]
      refine ⟨?_, ⟨?_, ⟨hpoc, hxlc⟩, hpo, hxl⟩, ?_, ⟨hxrc, hunc⟩, hxr, hgo⟩ <;> omega
    · simp only [rootColor, black_node_height_mk, if_true, if_false, reduceCtorEq]
      convert hab using 1
      omega
    · simp [leftEntries, rightEntries, entries]
  · -- p left of g, x left of p: outside
    simp only [Frame.plug, if_true] at hmid relink
    obtain ⟨hg1, -, hgl, -⟩ := sorted_mk hmid
    obtain ⟨hp1, -, -, -⟩ := sorted_mk hgl
    have h1 : pk < gk := hg1 (pk, pv) (mem_entries_root _ _ _ _ _)
    have h2 : xk < pk := hp1 (xk, xv) (mem_entries_root _ _ _ _ _)
    have h3 : relinkAgrees above pk = true := relink pk pv (by simp [entries])
    refine ⟨_, _, ?_, ?_, ?_, ?_, Or.inl ⟨rfl, Or.inr ⟨rfl, rfl, rfl⟩⟩⟩
    · simp [add_rebalance, colorFlip_red, h1, not_lt_of_gt h1, not_lt_of_gt h2, h3]
    · exact ⟨hxb, fun _ => ⟨hxlc, hxrc⟩, hxl, hxr⟩
    · simp only [PathRB, RB, rootColor, black_node_height_mk, if_true, if_false,
        reduceCtorEq, ne_eq, not_false_eq_true, true_implies, false_implies, true_and]
      refine ⟨⟨?_, ⟨hpoc, hunc⟩, hpo, hgo⟩, ?_, ?_⟩
      · omega
      · omega
      · convert hab using 1
    · simp [leftEntries, rightEntries, entries]



theorem colorFlip_flippable (k : K) (v : V) (lk : K) (lv : V) (ll lr : Node K V)
    (rk : K) (rv : V) (rl rr : Node K V) :
    colorFlip (.mk k v BLACK (.mk lk lv RED ll lr) (.mk rk rv RED rl rr)) =
      some (.mk k v RED (.mk lk lv BLACK ll lr) (.mk rk rv BLACK rl rr)) := by
  simp [colorFlip]

theorem colorFlip_keep (k : K) (v : V) (c : color_t) (l r : Node K V)
    (h : ¬ (c = BLACK ∧ rootColor l = RED ∧ rootColor r = RED)) :
    colorFlip (.mk k v c l r) = some (.mk k v c l r) := by
  rcases l with _ | ⟨lk, lv, lc, ll, lr⟩ <;> rcases r with _ | ⟨rk, rv, rc, rl, rr⟩ <;>
    simp only [colorFlip]
  simp only [rootColor] at h
  rw [if_neg]
  intro h1
  exact h ⟨h1.1, h1.2.2, h1.2.1⟩

theorem add_rebalance_of_flip [LinearOrder K] (path : List (Frame K V)) (x x1 : Node K V)
    (h : colorFlip x = some x1) (h1 : colorFlip x1 = some x1) :
    add_rebalance path x = add_rebalance path x1 := by
  simp only [add_rebalance, h, h1]

theorem add_rebalance_keep [LinearOrder K] (path : List (Frame K V))
    (k : K) (v : V) (c : color_t) (l r : Node K V)
    (h : colorFlip (.mk k v c l r) = some (.mk k v c l r))
    (hp : ∀ p rest, path = p :: rest → ¬ (c = RED ∧ p.color = RED)) :
    add_rebalance path (.mk k v c l r) = some (path, .mk k v c l r) := by
  rcases path with _ | ⟨p, rest⟩
  · simp only [add_rebalance, h]
  · simp only [add_rebalance, h, if_neg (hp p rest rfl)]

theorem searchLen_recolor [LinearOrder K] (a_key : K) (k : K) (v : V) (c c1 : color_t)
    (l r : Node K V) :
    searchLen a_key (.mk k v c l r) = searchLen a_key (.mk k v c1 l r) := by
  simp [searchLen]

theorem addMeasure_le [LinearOrder K] (a_key : K) (x : Node K V) :
    addMeasure a_key x ≤ 2 * searchLen a_key x + 1 := by
  unfold addMeasure; split <;> omega

theorem addMeasure_mk_ge [LinearOrder K] (a_key : K) (k : K) (v : V) (c : color_t)
    (l r : Node K V) :
    2 * searchLen a_key (navChild a_key (.mk k v c l r)) + 2 ≤
      addMeasure a_key (.mk k v c l r) := by
  unfold addMeasure
  simp only [searchLen, navChild]
  split <;> omega



theorem measure_after_keep [LinearOrder K] (a_key : K) (k : K) (v : V) (c c1 : color_t)
    (l r l1 r1 : Node K V)
    (hl : searchLen a_key l1 = searchLen a_key l) (hr : searchLen a_key r1 = searchLen a_key r) :
    addMeasure a_key (navChild a_key (.mk k v c1 l1 r1)) < addMeasure a_key (.mk k v c l r) := by
  have h1 := addMeasure_le a_key (navChild a_key (.mk k v c1 l1 r1))
  have h2 := addMeasure_mk_ge a_key k v c l r
  have h3 : searchLen a_key (navChild a_key (.mk k v c1 l1 r1)) =
      searchLen a_key (navChild a_key (.mk k v c l r)) := by
    simp only [navChild]; split <;> assumption
  omega

/-- What `add_rebalance` establishes at a node of the search path. -/
theorem add_rebalance_spec [LinearOrder K] (a_key : K) (path : List (Frame K V))
    (k : K) (v : V) (c : color_t) (l r : Node K V)
    (inv : AddInv a_key path (.mk k v c l r)) :
    ∃ path1 xk xv xc xl xr,
      add_rebalance path (.mk k v c l r) = some (path1, .mk xk xv xc xl xr) ∧
      AddBase a_key path1 (.mk xk xv xc xl xr) ∧
      leftEntries path1 ++ entries (Node.mk xk xv xc xl xr) ++ rightEntries path1 =
        leftEntries path ++ entries (Node.mk k v c l r) ++ rightEntries path ∧
      (xc = RED → (path1 = [] ∨ ∃ p rest, path1 = p :: rest ∧ rootColor p.other = RED) →
        FreshBlack (navChild a_key (.mk xk xv xc xl xr))) ∧
      (rootColor xl = RED → rootColor xr = RED →
        FreshBlack (navChild a_key (navChild a_key (.mk xk xv xc xl xr)))) ∧
      addMeasure a_key (navChild a_key (.mk xk xv xc xl xr)) <
        addMeasure a_key (.mk k v c l r) := by
  obtain ⟨⟨hs, hgl, hgr, hn, hrx, hrp⟩, hrpar, hrself⟩ := inv
  by_cases hf : c = BLACK ∧ rootColor l = RED ∧ rootColor r = RED
  · -- colour flip
    obtain ⟨rfl, hl, hr⟩ := hf
    rcases l with _ | ⟨lk, lv, lc, ll, lr⟩
    · simp [rootColor] at hl
    rcases r with _ | ⟨rk, rv, rc, rl, rr⟩
    · simp [rootColor] at hr
    simp only [rootColor] at hl hr
    subst hl hr
    have hflip := colorFlip_flippable k v lk lv ll lr rk rv rl rr
    have heq := add_rebalance_of_flip path _ _ hflip (colorFlip_red k v _ _)
    rw [heq]
    simp only [RB, rootColor, black_node_height_mk, if_true, if_false, reduceCtorEq, ne_eq,
      not_false_eq_true, true_implies, false_implies, true_and] at hrx hrp
    obtain ⟨hb0, ⟨hbl, ⟨hllc, hlrc⟩, hll, hlr⟩, ⟨hbr, ⟨hrlc, hrrc⟩, hrl, hrr⟩⟩ := hrx
    have hfl : FreshBlack (Node.mk lk lv BLACK ll lr) := ⟨rfl, fun h => hllc h.1⟩
    have hfr : FreshBlack (Node.mk rk rv BLACK rl rr) := ⟨rfl, fun h => hrlc h.1⟩
    have hrx1 : RB (Node.mk k v RED (Node.mk lk lv BLACK ll lr) (Node.mk rk rv BLACK rl rr)) := by
      simp only [RB, rootColor, black_node_height_mk, if_true, reduceCtorEq, ne_eq,
        not_false_eq_true, true_implies, false_implies, and_self, true_and]
      refine ⟨?_, ⟨hbl, hll, hlr⟩, hbr, hrl, hrr⟩
      omega
    have hbh1 : black_node_height
        (Node.mk k v RED (Node.mk lk lv BLACK ll lr) (Node.mk rk rv BLACK rl rr)) =
        1 + max (max (black_node_height ll) (black_node_height lr))
          (max (black_node_height rl) (black_node_height rr)) := by
      simp only [black_node_height_mk, if_true, if_false, reduceCtorEq]
      omega
    have hd1 : FreshBlack (navChild a_key
        (Node.mk k v RED (Node.mk lk lv BLACK ll lr) (Node.mk rk rv BLACK rl rr))) := by
      simp only [navChild]; split <;> assumption
    have hd2 : rootColor (Node.mk lk lv BLACK ll lr) = RED →
        rootColor (Node.mk rk rv BLACK rl rr) = RED →
        FreshBlack (navChild a_key (navChild a_key
          (Node.mk k v RED (Node.mk lk lv BLACK ll lr) (Node.mk rk rv BLACK rl rr)))) := by
      intro h; simp [rootColor] at h
    have hm : addMeasure a_key (navChild a_key
        (Node.mk k v RED (Node.mk lk lv BLACK ll lr) (Node.mk rk rv BLACK rl rr))) <
        addMeasure a_key (Node.mk k v BLACK (Node.mk lk lv RED ll lr) (Node.mk rk rv RED rl rr)) :=
      measure_after_keep a_key k v _ _ _ _ _ _ (searchLen_recolor ..) (searchLen_recolor ..)
    have hs1 : (leftEntries path ++
        entries (Node.mk k v RED (Node.mk lk lv BLACK ll lr) (Node.mk rk rv BLACK rl rr)) ++
        rightEntries path).Pairwise (fun a b => a.1 < b.1) := hs
    have hn1 : ∀ e ∈ entries
        (Node.mk k v RED (Node.mk lk lv BLACK ll lr) (Node.mk rk rv BLACK rl rr)),
        e.1 ≠ a_key := hn
    rcases path with _ | ⟨p, rest⟩
    · refine ⟨[], k, v, RED, _, _, add_rebalance_keep [] k v RED _ _ (colorFlip_red ..)
        (by intro p rest h; simp at h), ⟨hs1, hgl, hgr, hn1, hrx1, trivial⟩, rfl,
        fun _ _ => hd1, hd2, hm⟩
    · by_cases hpc : p.color = RED
      · -- the parent is RED: a rotation follows the colour flip
        have hnf : ¬ FreshBlack
            (Node.mk k v BLACK (Node.mk lk lv RED ll lr) (Node.mk rk rv RED rl rr)) := by
          simp [FreshBlack, rootColor]
        rcases rest with _ | ⟨g, above⟩
        · exact absurd (hrpar p [] rfl hpc (Or.inl rfl)) hnf
        have hunc : rootColor g.other ≠ RED := fun h =>
          hnf (hrpar p (g :: above) rfl hpc (Or.inr ⟨g, above, rfl, h⟩))
        have hrp1 : PathRB (p :: g :: above) BLACK (black_node_height
            (Node.mk k v RED (Node.mk lk lv BLACK ll lr) (Node.mk rk rv BLACK rl rr))) := by
          rw [hbh1]; exact hrp
        obtain ⟨path1, x1, e, rb1, rp1, le1, shape⟩ :=
          add_rebalance_redred p g above k v _ _ hs1 hrx1 hrp1 hpc hunc
        rcases shape with ⟨rfl, (⟨hg, hp, rfl⟩ | ⟨hg, hp, rfl⟩)⟩ |
          ⟨rfl, (⟨hg, hp, rfl⟩ | ⟨hg, hp, rfl⟩)⟩
        · -- outside, on the right
          refine ⟨_, k, v, RED, _, _, e, ⟨?_, ?_, ?_, hn1, rb1, rp1⟩, le1,
            fun _ _ => hd1, hd2, hm⟩
          · rw [le1]; exact hs1
          · intro e he
            exact hgl e (by simpa [leftEntries, entries, hg, hp] using he)
          · intro e he
            exact hgr e (by simpa [rightEntries, entries, hg, hp] using he)
        · -- outside, on the left
          refine ⟨_, k, v, RED, _, _, e, ⟨?_, ?_, ?_, hn1, rb1, rp1⟩, le1,
            fun _ _ => hd1, hd2, hm⟩
          · rw [le1]; exact hs1
          · intro e he
            exact hgl e (by simpa [leftEntries, entries, hg, hp] using he)
          · intro e he
            exact hgr e (by simpa [rightEntries, entries, hg, hp] using he)
        · -- inside, parent on the right of the grandparent
          have hgk : g.key < a_key := hgl (g.key, g.value) (by simp [leftEntries, hg, hp])
          have hpk : a_key < p.key := hgr (p.key, p.value) (by simp [rightEntries, hg, hp])
          refine ⟨_, k, v, BLACK, _, _, e, ⟨?_, ?_, ?_, ?_, rb1, rp1⟩, le1, ?_, ?_, ?_⟩
          · rw [le1]; exact hs1
          · intro e he
            exact hgl e (by simp [leftEntries, he])
          · intro e he
            exact hgr e (by simp [rightEntries, he])
          · intro e he
            simp only [entries, List.mem_append, List.mem_cons] at he
            rcases he with (he | rfl | he | rfl | he) | rfl | (he | rfl | he) | rfl | he
            · exact ne_of_lt (hgl e (by simp [leftEntries, hg, hp, he]))
            · exact ne_of_lt hgk
            · exact hn e (by simp [entries, he])
            · exact hn _ (by simp [entries])
            · exact hn e (by simp [entries, he])
            · exact hn _ (by simp [entries])
            · exact hn e (by simp [entries, he])
            · exact hn _ (by simp [entries])
            · exact hn e (by simp [entries, he])
            · exact ne_of_gt hpk
            · exact ne_of_gt (hgr e (by simp [rightEntries, hg, hp, he]))
          · intro h; simp at h
          · intro _ _
            by_cases hk : a_key < k
            · simp only [navChild, hk, if_true, not_lt_of_gt hgk, if_false]; exact hfl
            · simp only [navChild, hk, if_false, hpk, if_true]; exact hfr
          · by_cases hk : a_key < k
            · simp [addMeasure, navChild, searchLen, isNull, rootColor, hk, not_lt_of_gt hgk]
            · simp [addMeasure, navChild, searchLen, isNull, rootColor, hk, hpk]
        · -- inside, parent on the left of the grandparent
          have hgk : a_key < g.key := hgr (g.key, g.value) (by simp [rightEntries, hg, hp])
          have hpk : p.key < a_key := hgl (p.key, p.value) (by simp [leftEntries, hg, hp])
          refine ⟨_, k, v, BLACK, _, _, e, ⟨?_, ?_, ?_, ?_, rb1, rp1⟩, le1, ?_, ?_, ?_⟩
          · rw [le1]; exact hs1
          · intro e he
            exact hgl e (by simp [leftEntries, he])
          · intro e he
            exact hgr e (by simp [rightEntries, he])
          · intro e he
            simp only [entries, List.mem_append, List.mem_cons] at he
            rcases he with (he | rfl | he | rfl | he) | rfl | (he | rfl | he) | rfl | he
            · exact ne_of_lt (hgl e (by simp [leftEntries, hg, hp, he]))
            · exact ne_of_lt hpk
            · exact hn e (by simp [entries, he])
            · exact hn _ (by simp [entries])
            · exact hn e (by simp [entries, he])
            · exact hn _ (by simp [entries])
            · exact hn e (by simp [entries, he])
            · exact hn _ (by simp [entries])
            · exact hn e (by simp [entries, he])
            · exact ne_of_gt hgk
            · exact ne_of_gt (hgr e (by simp [rightEntries, hg, hp, he]))
          · intro h; simp at h
          · intro _ _
            by_cases hk : a_key < k
            · simp only [navChild, hk, if_true, not_lt_of_gt hpk, if_false]; exact hfl
            · simp only [navChild, hk, if_false, hgk, if_true]; exact hfr
          · by_cases hk : a_key < k
            · simp [addMeasure, navChild, searchLen, isNull, rootColor, hk, not_lt_of_gt hpk]
            · simp [addMeasure, navChild, searchLen, isNull, rootColor, hk, hgk]
      · have hpb : p.color = BLACK := (color_ne_red_iff _).mp hpc
        refine ⟨p :: rest, k, v, RED, _, _, add_rebalance_keep _ k v RED _ _ (colorFlip_red ..)
          (by rintro p1 rest1 h ⟨-, h2⟩; obtain ⟨rfl, rfl⟩ := List.cons.inj h; exact hpc h2),
          ⟨hs1, hgl, hgr, hn1, hrx1, ?_⟩, rfl, fun _ _ => hd1, hd2, hm⟩
        simp only [PathRB, rootColor, hbh1, hpb, if_true, reduceCtorEq, false_implies,
          true_and] at hrp ⊢
        exact hrp
  · -- no colour flip
    have hkeep := colorFlip_keep k v c l r hf
    have hnorot : ∀ p rest, path = p :: rest → ¬ (c = RED ∧ p.color = RED) := by
      rintro p rest rfl ⟨hc, hpc⟩
      exact (hrp.2.2.1 hpc).1 hc
    refine ⟨path, k, v, c, l, r, add_rebalance_keep path k v c l r hkeep hnorot,
      ⟨hs, hgl, hgr, hn, hrx, hrp⟩, rfl, ?_, ?_, measure_after_keep a_key k v c c l r l r rfl rfl⟩
    · intro hc hor
      exact hrself hc hor
    · intro hl hr
      exfalso
      rcases c with _ | _
      · exact absurd hl (hrx.2.1 rfl).1
      · exact hf ⟨rfl, hl, hr⟩



/-- The loop of `add` ends within its iteration budget, at a null pointer below
which the new key belongs, and leaves the invariant in force. -/
theorem addLoop_spec [LinearOrder K] (a_key : K) :
    ∀ (fuel : Nat) (path : List (Frame K V)) (x : Node K V),
      AddInv a_key path x → addMeasure a_key x < fuel →
      ∃ path1, addLoop a_key fuel path x = some path1 ∧ AddInv a_key path1 .nil ∧
        leftEntries path1 ++ rightEntries path1 =
          leftEntries path ++ entries x ++ rightEntries path := by
  intro fuel
  induction fuel with
  | zero => intro path x _ h; omega
  | succ fuel ih =>
    intro path x inv hm
    rcases x with _ | ⟨k, v, c, l, r⟩
    · exact ⟨path, rfl, inv, by simp [entries]⟩
    · obtain ⟨path1, xk, xv, xc, xl, xr, e, hb, le1, d1, d2, hm1⟩ :=
        add_rebalance_spec a_key path k v c l r inv
      obtain ⟨hL, hR⟩ := addDescend a_key path1 xk xv xc xl xr hb d1 d2
      by_cases hlt : a_key < xk
      · have hm2 : addMeasure a_key xl < fuel := by
          simp only [navChild, hlt, if_true] at hm1
          omega
        obtain ⟨path2, e2, inv2, le2⟩ := ih _ xl (hL hlt) hm2
        refine ⟨path2, ?_, inv2, ?_⟩
        · simp only [addLoop, e, hlt, if_true, e2]
        · rw [le2, ← le1]
          simp [leftEntries, rightEntries, entries]
      · have hm2 : addMeasure a_key xr < fuel := by
          simp only [navChild, hlt, if_false] at hm1
          omega
        obtain ⟨path2, e2, inv2, le2⟩ := ih _ xr (hR hlt) hm2
        refine ⟨path2, ?_, inv2, ?_⟩
        · simp only [addLoop, e, hlt, if_false, e2]
        · rw [le2, ← le1]
          simp [leftEntries, rightEntries, entries]

theorem searchLen_le_size [LinearOrder K] (a_key : K) (t : Node K V) :
    searchLen a_key t ≤ size t := by
  induction t with
  | nil => simp [searchLen, size]
  | mk k v c l r ihl ihr =>
    simp only [searchLen, size]
    split <;> omega

theorem RB_setColor_black (t : Node K V) (h : RB t) : RB (setColor BLACK t) := by
  rcases t with _ | ⟨k, v, c, l, r⟩
  · exact h
  · exact ⟨h.1, fun hc => by simp at hc, h.2.2.1, h.2.2.2⟩

theorem rootColor_setColor_black (t : Node K V) : rootColor (setColor BLACK t) = BLACK := by
  cases t <;> rfl

theorem entries_setColor (c : color_t) (t : Node K V) : entries (setColor c t) = entries t := by
  cases t <;> rfl

theorem sorted_insert [LinearOrder K] (e1 e2 : List (K × V)) (a_key : K) (a_val : V)
    (hs : (e1 ++ e2).Pairwise (fun a b => a.1 < b.1))
    (h1 : ∀ e ∈ e1, e.1 < a_key) (h2 : ∀ e ∈ e2, a_key < e.1) :
    (e1 ++ [(a_key, a_val)] ++ e2).Pairwise (fun a b => a.1 < b.1) := by
  rw [List.pairwise_append] at hs
  obtain ⟨hs1, hs2, hs3⟩ := hs
  simp only [List.append_assoc, List.singleton_append, List.pairwise_append,
    List.pairwise_cons, List.mem_cons]
  refine ⟨hs1, ⟨h2, hs2⟩, ?_⟩
  rintro a ha b (rfl | hb)
  · exact h1 a ha
  · exact hs3 a ha b hb

/-- The body of `add` on a valid, ordered tree that does not hold the key. -/
theorem rbt_add_spec [LinearOrder K] (root : Node K V) (a_key : K) (a_val : V)
    (hs : (entries root).Pairwise (fun a b => a.1 < b.1))
    (hrb : RB root) (hroot : rootColor root = BLACK)
    (hn : ∀ e ∈ entries root, e.1 ≠ a_key) :
    ∃ t, add root a_key a_val = some t ∧ RB t ∧ rootColor t = BLACK ∧
      ∃ e1 e2, entries root = e1 ++ e2 ∧ entries t = e1 ++ (a_key, a_val) :: e2 ∧
        (∀ e ∈ e1, e.1 < a_key) ∧ (∀ e ∈ e2, a_key < e.1) := by
  have inv0 : AddInv a_key [] root := by
    refine ⟨⟨by simpa [leftEntries, rightEntries] using hs, by simp [leftEntries],
      by simp [rightEntries], hn, hrb, trivial⟩, ?_, ?_⟩
    · intro p rest h; simp at h
    · intro h; rw [hroot] at h; simp at h
  have hfuel : addMeasure a_key root < 2 * size root + 2 := by
    have := addMeasure_le a_key root
    have := searchLen_le_size a_key root
    omega
  obtain ⟨path, e, ⟨⟨hs1, hgl, hgr, -, -, hrp⟩, hrpar, -⟩, le⟩ :=
    addLoop_spec a_key _ [] root inv0 hfuel
  simp only [leftEntries, rightEntries, List.nil_append, List.append_nil] at le
  simp only [entries, List.append_nil] at hs1
  simp only [rootColor, black_node_height] at hrp
  have hleaf : RB (Node.mk a_key a_val RED (Node.nil : Node K V) .nil) := by
    simp [RB, rootColor, black_node_height]
  have hbhleaf : black_node_height (Node.mk a_key a_val RED (Node.nil : Node K V) .nil) = 1 := by
    simp [black_node_height]
  have hsl : (leftEntries path ++ entries (Node.mk a_key a_val RED (Node.nil : Node K V) .nil) ++
      rightEntries path).Pairwise (fun a b => a.1 < b.1) := by
    simpa [entries] using sorted_insert _ _ a_key a_val hs1 hgl hgr
  have key : ∃ path1 x1, add_rebalance path (Node.mk a_key a_val RED .nil .nil) =
      some (path1, x1) ∧ RB x1 ∧ PathRB path1 (rootColor x1) (black_node_height x1) ∧
      leftEntries path1 ++ entries x1 ++ rightEntries path1 =
        leftEntries path ++ entries (Node.mk a_key a_val RED (Node.nil : Node K V) .nil) ++
          rightEntries path := by
    rcases path with _ | ⟨p, rest⟩
    · exact ⟨[], _, add_rebalance_keep [] _ _ _ _ _ (colorFlip_red ..)
        (by intro p rest h; simp at h), hleaf, trivial, rfl⟩
    · by_cases hpc : p.color = RED
      · rcases rest with _ | ⟨g, above⟩
        · exact absurd (hrpar p [] rfl hpc (Or.inl rfl)) (by simp [FreshBlack])
        have hunc : rootColor g.other ≠ RED := fun h =>
          absurd (hrpar p (g :: above) rfl hpc (Or.inr ⟨g, above, rfl, h⟩)) (by simp [FreshBlack])
        obtain ⟨path1, x1, e1, rb1, rp1, le1, -⟩ :=
          add_rebalance_redred p g above a_key a_val .nil .nil hsl hleaf
            (by rw [hbhleaf]; exact hrp) hpc hunc
        exact ⟨path1, x1, e1, rb1, rp1, le1⟩
      · have hpb : p.color = BLACK := (color_ne_red_iff _).mp hpc
        refine ⟨p :: rest, _, add_rebalance_keep _ _ _ _ _ _ (colorFlip_red ..)
          (by rintro p1 rest1 h ⟨-, h2⟩; obtain ⟨rfl, rfl⟩ := List.cons.inj h; exact hpc h2),
          hleaf, ?_, rfl⟩
        simp only [PathRB, rootColor, hbhleaf, hpb, if_true, reduceCtorEq, false_implies,
          true_and] at hrp ⊢
        exact hrp
  obtain ⟨path1, x1, e1, rb1, rp1, le1⟩ := key
  refine ⟨setColor BLACK (zipUp path1 x1), ?_, RB_setColor_black _ (RB_zipUp _ _ rb1 rp1),
    rootColor_setColor_black _, leftEntries path, rightEntries path, le.symm, ?_, hgl, hgr⟩
  · simp only [add, e, e1]
  · rw [entries_setColor, entries_zipUp, le1]
    simp [entries]


theorem ordered_iff [LinearOrder K] (t : Node K V) :
    Ordered t ↔ (entries t).Pairwise (fun a b => a.1 < b.1) := by
  unfold Ordered
  rw [rbt_keys_eq_map_entries, List.pairwise_map]

theorem collection_valid_iff [LinearOrder K] (c : RBTCollection K V) :
    c.valid_rbt = true ↔ RB c.root ∧ rootColor c.root = BLACK := by
  rcases c with ⟨root, n⟩
  rcases root with _ | ⟨k, v, col, l, r⟩
  · simp [RBTCollection.valid_rbt, isNull, RB, rootColor]
  · simp only [RBTCollection.valid_rbt, isNull, colorOf, Bool.false_or, Bool.and_eq_true,
      decide_eq_true_eq, Option.some.injEq, valid_rbt_iff, rootColor]
    exact and_comm

theorem not_mem_keys_iff [LinearOrder K] (t : Node K V) (k : K) :
    k ∉ keys t ↔ ∀ e ∈ entries t, e.1 ≠ k := by
  rw [rbt_keys_eq_map_entries]
  simp only [List.mem_map, not_exists, not_and]

/-- The public `add` on a valid, ordered collection that does not hold the key. -/
theorem collection_add_spec [LinearOrder K] (c : RBTCollection K V) (ho : Ordered c.root)
    (hv : c.valid_rbt = true) (k : K) (v : V) (hk : k ∉ c.keys) :
    ∃ c1, c.add k v = some c1 ∧ c1.valid_rbt = true ∧ c1.node_count = c.node_count + 1 ∧
      ∃ e1 e2, entries c.root = e1 ++ e2 ∧ entries c1.root = e1 ++ (k, v) :: e2 ∧
        (∀ e ∈ e1, e.1 < k) ∧ (∀ e ∈ e2, k < e.1) := by
  obtain ⟨hrb, hroot⟩ := (collection_valid_iff c).mp hv
  obtain ⟨t, e, rb1, rc1, e1, e2, h1, h2, h3, h4⟩ :=
    rbt_add_spec c.root k v ((ordered_iff _).mp ho) hrb hroot ((not_mem_keys_iff _ _).mp hk)
  refine ⟨⟨t, c.node_count + 1⟩, ?_, (collection_valid_iff _).mpr ⟨rb1, rc1⟩, rfl,
    e1, e2, h1, h2, h3, h4⟩
  simp only [RBTCollection.add, e]

theorem rootColor_mk (k : K) (v : V) (c : color_t) (l r : Node K V) :
    rootColor (Node.mk k v c l r) = c := rfl

theorem rootColor_nil : rootColor (Node.nil : Node K V) = BLACK := rfl

theorem PathRB_rest_red (rest : List (Frame K V)) (pc : color_t) (n : Nat)
    (h : PathRB rest pc (if pc = BLACK then n + 1 else n)) (hp : pc = RED ∨ rest = []) :
    PathRB rest RED n := by
  rcases hp with rfl | rfl
  · simpa using h
  · trivial

theorem PathRB_weaken (rest : List (Frame K V)) (c : color_t) (n : Nat)
    (h : PathRB rest c n) : PathRB rest BLACK n := by
  rcases rest with _ | ⟨g, above⟩
  · trivial
  · obtain ⟨h1, h2, h3, h4⟩ := h
    exact ⟨h1, h2, fun hc => ⟨by simp, (h3 hc).2⟩, h4⟩

/-- CASE 3 or 4 of `remove_rebalance` with a RED right child of the sibling. -/
theorem removeRedRight_spec [LinearOrder K] (ponl : Bool) (pk : K) (pv : V) (pc : color_t)
    (pm : Bool) (tk : K) (tv : V) (tl : Node K V) (rk : K) (rv : V) (rl rr : Node K V)
    (rest : List (Frame K V)) (xk : K) (xv : V) (xl xr : Node K V)
    (hs : (leftEntries (⟨ponl, pk, pv, pc, .mk tk tv BLACK tl (.mk rk rv RED rl rr), pm⟩ :: rest)
      ++ entries (Node.mk xk xv BLACK xl xr) ++
      rightEntries (⟨ponl, pk, pv, pc, .mk tk tv BLACK tl (.mk rk rv RED rl rr), pm⟩ :: rest)
      ).Pairwise (fun a b => a.1 < b.1))
    (hrx : RB (Node.mk xk xv BLACK xl xr))
    (hrp : PathRB (⟨ponl, pk, pv, pc, .mk tk tv BLACK tl (.mk rk rv RED rl rr), pm⟩ :: rest)
      BLACK (black_node_height (Node.mk xk xv BLACK xl xr)))
    (hpr : pc = RED ∨ rest = []) :
    ∃ o f, removeRedRight ⟨ponl, pk, pv, pc, .mk tk tv BLACK tl (.mk rk rv RED rl rr), pm⟩ rest
        (Node.mk xk xv BLACK xl xr) =
        some (⟨ponl, pk, pv, BLACK, o, pm⟩ :: f :: rest, Node.mk xk xv RED xl xr) ∧
      f.mark = false ∧ f.onLeft = ponl ∧
      PathRB (⟨ponl, pk, pv, BLACK, o, pm⟩ :: f :: rest) RED
        (black_node_height (Node.mk xk xv RED xl xr)) ∧
      leftEntries (⟨ponl, pk, pv, BLACK, o, pm⟩ :: f :: rest) ++
          entries (Node.mk xk xv RED xl xr) ++
          rightEntries (⟨ponl, pk, pv, BLACK, o, pm⟩ :: f :: rest) =
        leftEntries (⟨ponl, pk, pv, pc, .mk tk tv BLACK tl (.mk rk rv RED rl rr), pm⟩ :: rest)
          ++ entries (Node.mk xk xv BLACK xl xr) ++
          rightEntries (⟨ponl, pk, pv, pc, .mk tk tv BLACK tl (.mk rk rv RED rl rr), pm⟩ :: rest)
        := by
  simp only [PathRB, RB, rootColor_mk, rootColor_nil, black_node_height_mk, if_true, if_false, ne_eq,
    not_true_eq_false, not_false_eq_true, true_and, reduceCtorEq, true_implies,
    false_implies, implies_true, and_true] at hrp hrx
  obtain ⟨⟨hbt, htl, hbr, ⟨hrlc, hrrc⟩, hrl, hrr⟩, hbtx, hrest⟩ := hrp
  obtain ⟨hbx, hxl, hxr⟩ := hrx
  have hrest1 : PathRB rest RED (1 + max (black_node_height xl) (black_node_height xr)) := by
    refine PathRB_rest_red rest pc _ ?_ hpr
    convert hrest using 2
  have hs2 := hs
  rw [entries_cons_eq] at hs2
  have hmid := (List.pairwise_append.mp (List.pairwise_append.mp hs2).1).2.1
  have relink : ∀ k v, (k, v) ∈ entries (Frame.plug
      ⟨ponl, pk, pv, pc, .mk tk tv BLACK tl (.mk rk rv RED rl rr), pm⟩
      (Node.mk xk xv BLACK xl xr)) → relinkAgrees rest k = true :=
    fun k v hm => relinkAgrees_of_sorted rest _ k v hs2 hm
  cases ponl
  · -- x is the right child: t is on the left
    simp only [Frame.plug, Bool.false_eq_true, if_false] at hmid relink
    obtain ⟨hp1, hp2, -, -⟩ := sorted_mk hmid
    have h1 : tk < pk := hp1 (tk, tv) (by simp [entries])
    have h2 : pk < xk := hp2 (xk, xv) (by simp [entries])
    have h3 : rk < pk := hp1 (rk, rv) (by simp [entries])
    have h4 : relinkAgrees rest rk = true := relink rk rv (by simp [entries])
    refine ⟨rr, ⟨false, rk, rv, RED, .mk tk tv BLACK tl rl, false⟩, ?_, rfl, rfl, ?_, ?_⟩
    · simp [removeRedRight, lt_trans h1 h2, h3, h4, setColor]
    · simp only [PathRB, RB, rootColor_mk, rootColor_nil, black_node_height_mk, if_true, if_false, ne_eq,
        not_true_eq_false, not_false_eq_true, true_and, reduceCtorEq, true_implies,
        false_implies, implies_true, and_true]
      refine ⟨hrr, ?_, ⟨?_, htl, hrl⟩, ?_, ?_⟩
      · omega
      · omega
      · omega
      · convert hrest1 using 1
        omega
    · simp [leftEntries, rightEntries, entries]
  · -- x is the left child: t is on the right
    simp only [Frame.plug, if_true] at hmid relink
    obtain ⟨hp1, hp2, -, -⟩ := sorted_mk hmid
    have h1 : pk < tk := hp2 (tk, tv) (by simp [entries])
    have h2 : xk < pk := hp1 (xk, xv) (by simp [entries])
    have h4 : relinkAgrees rest tk = true := relink tk tv (by simp [entries])
    refine ⟨tl, ⟨true, tk, tv, RED, .mk rk rv BLACK rl rr, false⟩, ?_, rfl, rfl, ?_, ?_⟩
    · simp [removeRedRight, not_lt_of_gt (lt_trans h2 h1), h4, setColor]
    · simp only [PathRB, RB, rootColor_mk, rootColor_nil, black_node_height_mk, if_true, if_false, ne_eq,
        not_true_eq_false, not_false_eq_true, true_and, reduceCtorEq, true_implies,
        false_implies, implies_true, and_true]
      refine ⟨htl, ?_, ⟨?_, hrl, hrr⟩, ?_, ?_⟩
      · omega
      · omega
      · omega
      · convert hrest1 using 1
        omega
    · simp [leftEntries, rightEntries, entries]

/-- CASE 3 or 4 of `remove_rebalance` with a RED left child of the sibling. -/
theorem removeRedLeft_spec [LinearOrder K] (ponl : Bool) (pk : K) (pv : V) (pc : color_t)
    (pm : Bool) (tk : K) (tv : V) (lk : K) (lv : V) (ll lr : Node K V) (tr : Node K V)
    (rest : List (Frame K V)) (xk : K) (xv : V) (xl xr : Node K V)
    (hs : (leftEntries (⟨ponl, pk, pv, pc, .mk tk tv BLACK (.mk lk lv RED ll lr) tr, pm⟩ :: rest)
      ++ entries (Node.mk xk xv BLACK xl xr) ++
      rightEntries (⟨ponl, pk, pv, pc, .mk tk tv BLACK (.mk lk lv RED ll lr) tr, pm⟩ :: rest)
      ).Pairwise (fun a b => a.1 < b.1))
    (hrx : RB (Node.mk xk xv BLACK xl xr))
    (hrp : PathRB (⟨ponl, pk, pv, pc, .mk tk tv BLACK (.mk lk lv RED ll lr) tr, pm⟩ :: rest)
      BLACK (black_node_height (Node.mk xk xv BLACK xl xr)))
    (hpr : pc = RED ∨ rest = []) :
    ∃ o f, removeRedLeft ⟨ponl, pk, pv, pc, .mk tk tv BLACK (.mk lk lv RED ll lr) tr, pm⟩ rest
        (Node.mk xk xv BLACK xl xr) =
        some (⟨ponl, pk, pv, BLACK, o, pm⟩ :: f :: rest, Node.mk xk xv RED xl xr) ∧
      f.mark = false ∧ f.onLeft = ponl ∧
      PathRB (⟨ponl, pk, pv, BLACK, o, pm⟩ :: f :: rest) RED
        (black_node_height (Node.mk xk xv RED xl xr)) ∧
      leftEntries (⟨ponl, pk, pv, BLACK, o, pm⟩ :: f :: rest) ++
          entries (Node.mk xk xv RED xl xr) ++
          rightEntries (⟨ponl, pk, pv, BLACK, o, pm⟩ :: f :: rest) =
        leftEntries (⟨ponl, pk, pv, pc, .mk tk tv BLACK (.mk lk lv RED ll lr) tr, pm⟩ :: rest)
          ++ entries (Node.mk xk xv BLACK xl xr) ++
          rightEntries (⟨ponl, pk, pv, pc, .mk tk tv BLACK (.mk lk lv RED ll lr) tr, pm⟩ :: rest)
        := by
  simp only [PathRB, RB, rootColor_mk, rootColor_nil, black_node_height_mk, if_true, if_false,
    ne_eq, not_true_eq_false, not_false_eq_true, true_and, reduceCtorEq, true_implies,
    false_implies, implies_true, and_true] at hrp hrx
  obtain ⟨⟨hbt, ⟨hbl, ⟨hllc, hlrc⟩, hll, hlr⟩, htr⟩, hbtx, hrest⟩ := hrp
  obtain ⟨hbx, hxl, hxr⟩ := hrx
  have hrest1 : PathRB rest RED (1 + max (black_node_height xl) (black_node_height xr)) := by
    refine PathRB_rest_red rest pc _ ?_ hpr
    convert hrest using 2
  have hs2 := hs
  rw [entries_cons_eq] at hs2
  have hmid := (List.pairwise_append.mp (List.pairwise_append.mp hs2).1).2.1
  have relink : ∀ k v, (k, v) ∈ entries (Frame.plug
      ⟨ponl, pk, pv, pc, .mk tk tv BLACK (.mk lk lv RED ll lr) tr, pm⟩
      (Node.mk xk xv BLACK xl xr)) → relinkAgrees rest k = true :=
    fun k v hm => relinkAgrees_of_sorted rest _ k v hs2 hm
  cases ponl
  · -- x is the right child: t is on the left
    simp only [Frame.plug, Bool.false_eq_true, if_false] at hmid relink
    obtain ⟨hp1, hp2, -, -⟩ := sorted_mk hmid
    have h1 : tk < pk := hp1 (tk, tv) (by simp [entries])
    have h2 : pk < xk := hp2 (xk, xv) (by simp [entries])
    have h4 : relinkAgrees rest tk = true := relink tk tv (by simp [entries])
    refine ⟨tr, ⟨false, tk, tv, RED, .mk lk lv BLACK ll lr, false⟩, ?_, rfl, rfl, ?_, ?_⟩
    · simp [removeRedLeft, lt_trans h1 h2, h4, setColor]
    · simp only [PathRB, RB, rootColor_mk, rootColor_nil, black_node_height_mk, if_true,
        if_false, ne_eq, not_true_eq_false, not_false_eq_true, true_and, reduceCtorEq,
        true_implies, false_implies, implies_true, and_true]
      refine ⟨htr, ?_, ⟨?_, hll, hlr⟩, ?_, ?_⟩
      · omega
      · omega
      · omega
      · convert hrest1 using 1
        omega
    · simp [leftEntries, rightEntries, entries]
  · -- x is the left child: t is on the right
    simp only [Frame.plug, if_true] at hmid relink
    obtain ⟨hp1, hp2, -, -⟩ := sorted_mk hmid
    have h1 : pk < tk := hp2 (tk, tv) (by simp [entries])
    have h2 : xk < pk := hp1 (xk, xv) (by simp [entries])
    have h3 : pk < lk := hp2 (lk, lv) (by simp [entries])
    have h4 : relinkAgrees rest lk = true := relink lk lv (by simp [entries])
    refine ⟨ll, ⟨true, lk, lv, RED, .mk tk tv BLACK lr tr, false⟩, ?_, rfl, rfl, ?_, ?_⟩
    · simp [removeRedLeft, not_lt_of_gt (lt_trans h2 h1), not_lt_of_gt h3, le_of_lt h3, h4,
        setColor]
    · simp only [PathRB, RB, rootColor_mk, rootColor_nil, black_node_height_mk, if_true,
        if_false, ne_eq, not_true_eq_false, not_false_eq_true, true_and, reduceCtorEq,
        true_implies, false_implies, implies_true, and_true]
      refine ⟨hll, ?_, ⟨?_, hlr, htr⟩, ?_, ?_⟩
      · omega
      · omega
      · omega
      · convert hrest1 using 1
        omega
    · simp [leftEntries, rightEntries, entries]

theorem two_le_bh_black (k : K) (v : V) (l r : Node K V) :
    2 ≤ black_node_height (Node.mk k v BLACK l r) := by
  have := bh_pos l
  simp only [black_node_height_mk, if_true]
  omega

/-- CASE 2 of `remove_rebalance`: the sibling has no RED child. -/
theorem removeCase2_spec [LinearOrder K] (ponl : Bool) (pk : K) (pv : V) (pc : color_t)
    (pm : Bool) (tk : K) (tv : V) (tl tr : Node K V)
    (rest : List (Frame K V)) (xk : K) (xv : V) (xl xr : Node K V)
    (hrx : RB (Node.mk xk xv BLACK xl xr))
    (hrp : PathRB (⟨ponl, pk, pv, pc, .mk tk tv BLACK tl tr, pm⟩ :: rest)
      BLACK (black_node_height (Node.mk xk xv BLACK xl xr)))
    (hpr : pc = RED ∨ rest = [])
    (hl : rootColor tl ≠ RED) (hr : rootColor tr ≠ RED) :
    removeCase2 ⟨ponl, pk, pv, pc, .mk tk tv BLACK tl tr, pm⟩ rest (Node.mk xk xv BLACK xl xr) =
        (⟨ponl, pk, pv, BLACK, .mk tk tv RED tl tr, pm⟩ :: rest, Node.mk xk xv RED xl xr) ∧
      PathRB (⟨ponl, pk, pv, BLACK, .mk tk tv RED tl tr, pm⟩ :: rest) RED
        (black_node_height (Node.mk xk xv RED xl xr)) ∧
      leftEntries (⟨ponl, pk, pv, BLACK, .mk tk tv RED tl tr, pm⟩ :: rest) ++
          entries (Node.mk xk xv RED xl xr) ++
          rightEntries (⟨ponl, pk, pv, BLACK, .mk tk tv RED tl tr, pm⟩ :: rest) =
        leftEntries (⟨ponl, pk, pv, pc, .mk tk tv BLACK tl tr, pm⟩ :: rest)
          ++ entries (Node.mk xk xv BLACK xl xr) ++
          rightEntries (⟨ponl, pk, pv, pc, .mk tk tv BLACK tl tr, pm⟩ :: rest) := by
  simp only [PathRB, RB, rootColor_mk, rootColor_nil, black_node_height_mk, if_true, if_false,
    ne_eq, not_true_eq_false, not_false_eq_true, true_and, reduceCtorEq, true_implies,
    false_implies, implies_true, and_true] at hrp hrx
  obtain ⟨⟨hbt, htl, htr⟩, hbtx, hrest⟩ := hrp
  obtain ⟨hbx, hxl, hxr⟩ := hrx
  have hrest1 : PathRB rest RED (1 + max (black_node_height xl) (black_node_height xr)) := by
    refine PathRB_rest_red rest pc _ ?_ hpr
    convert hrest using 2
  refine ⟨rfl, ?_, ?_⟩
  · simp only [PathRB, RB, rootColor_mk, rootColor_nil, black_node_height_mk, if_true,
      if_false, ne_eq, not_true_eq_false, not_false_eq_true, true_and, reduceCtorEq,
      true_implies, false_implies, implies_true, and_true]
    refine ⟨⟨hbt, ⟨hl, hr⟩, htl, htr⟩, ?_, ?_⟩
    · omega
    · have := PathRB_weaken rest RED _ hrest1
      convert this using 1
      omega
  · simp [leftEntries, rightEntries, entries]

/-- The part of `remove_rebalance` that works on the sibling `t` of a BLACK node
`x` without RED children, when `t` is not RED and the parent is RED or the
root: `x` is made RED and the red-black conditions hold again. -/
theorem removeSibling_spec [LinearOrder K] (ponl : Bool) (pk : K) (pv : V) (pc : color_t)
    (po : Node K V) (pm : Bool)
    (rest : List (Frame K V)) (xk : K) (xv : V) (xl xr : Node K V)
    (hs : (leftEntries (⟨ponl, pk, pv, pc, po, pm⟩ :: rest)
      ++ entries (Node.mk xk xv BLACK xl xr) ++
      rightEntries (⟨ponl, pk, pv, pc, po, pm⟩ :: rest)).Pairwise (fun a b => a.1 < b.1))
    (hrx : RB (Node.mk xk xv BLACK xl xr))
    (hrp : PathRB (⟨ponl, pk, pv, pc, po, pm⟩ :: rest)
      BLACK (black_node_height (Node.mk xk xv BLACK xl xr)))
    (hpr : pc = RED ∨ rest = []) (htc : rootColor po ≠ RED) :
    ∃ path1, removeSibling false ⟨ponl, pk, pv, pc, po, pm⟩ rest (Node.mk xk xv BLACK xl xr) =
        some (path1, Node.mk xk xv RED xl xr) ∧
      PathRB path1 RED (black_node_height (Node.mk xk xv RED xl xr)) ∧
      leftEntries path1 ++ entries (Node.mk xk xv RED xl xr) ++ rightEntries path1 =
        leftEntries (⟨ponl, pk, pv, pc, po, pm⟩ :: rest)
          ++ entries (Node.mk xk xv BLACK xl xr) ++
          rightEntries (⟨ponl, pk, pv, pc, po, pm⟩ :: rest) ∧
      ∃ o, path1 = ⟨ponl, pk, pv, BLACK, o, pm⟩ :: rest ∨
        ∃ f, path1 = ⟨ponl, pk, pv, BLACK, o, pm⟩ :: f :: rest ∧
          f.mark = false ∧ f.onLeft = ponl := by
  rcases po with _ | ⟨tk, tv, tc, tl, tr⟩
  · exfalso
    have h1 := hrp.2.1
    have h2 := two_le_bh_black xk xv xl xr
    simp only [black_node_height] at h1 h2
    omega
  have htc' : tc = BLACK := (color_ne_red_iff tc).mp htc
  subst htc'
  by_cases hr : rootColor tr = RED
  · -- the right child of the sibling is RED
    rcases tr with _ | ⟨rk, rv, rc, rl, rr⟩
    · simp [rootColor_nil] at hr
    simp only [rootColor_mk] at hr
    subst hr
    obtain ⟨o, f, e, hm, hl, hp, hle⟩ :=
      removeRedRight_spec ponl pk pv pc pm tk tv tl rk rv rl rr rest xk xv xl xr hs hrx hrp hpr
    refine ⟨_, ?_, hp, hle, o, Or.inr ⟨f, rfl, hm, hl⟩⟩
    rw [← e]
    rcases tl with _ | ⟨lk, lv, lc, ll, lr⟩ <;> simp [removeSibling]
  · by_cases hl : rootColor tl = RED
    · -- the left child of the sibling is RED, the right one is not
      rcases tl with _ | ⟨lk, lv, lc, ll, lr⟩
      · simp [rootColor_nil] at hl
      simp only [rootColor_mk] at hl
      subst hl
      obtain ⟨o, f, e, hm, hl, hp, hle⟩ :=
        removeRedLeft_spec ponl pk pv pc pm tk tv lk lv ll lr tr rest xk xv xl xr hs hrx hrp hpr
      refine ⟨_, ?_, hp, hle, o, Or.inr ⟨f, rfl, hm, hl⟩⟩
      rw [← e]
      rcases tr with _ | ⟨rk, rv, rc, rl, rr⟩
      · simp [removeSibling]
      · simp only [rootColor_mk] at hr
        have hrc : rc = BLACK := (color_ne_red_iff rc).mp hr
        subst hrc
        simp [removeSibling]
    · -- no RED child
      obtain ⟨e, hp, hle⟩ :=
        removeCase2_spec ponl pk pv pc pm tk tv tl tr rest xk xv xl xr hrx hrp hpr hl hr
      refine ⟨_, ?_, hp, hle, _, Or.inl rfl⟩
      rw [← e]
      rcases tl with _ | ⟨lk, lv, lc, ll, lr⟩ <;> rcases tr with _ | ⟨rk, rv, rc, rl, rr⟩ <;>
        simp only [rootColor_mk, rootColor_nil, color_ne_red_iff] at hl hr <;>
        simp [removeSibling, hl, hr]

theorem setColor_black_of_not_red (t : Node K V) (h : rootColor t ≠ RED) :
    setColor BLACK t = t := by
  rcases t with _ | ⟨k, v, c, l, r⟩
  · rfl
  · simp only [rootColor_mk] at h
    simp [setColor, (color_ne_red_iff c).mp h]

/-- CASE 1 of `remove_rebalance` towards the right. -/
theorem removeCase1Right_spec [LinearOrder K] (path : List (Frame K V)) (xk : K) (xv : V)
    (lk : K) (lv : V) (ll lr xr : Node K V)
    (hs : (leftEntries path ++ entries (Node.mk xk xv BLACK (.mk lk lv RED ll lr) xr) ++
      rightEntries path).Pairwise (fun a b => a.1 < b.1))
    (hrx : RB (Node.mk xk xv BLACK (.mk lk lv RED ll lr) xr))
    (hrp : PathRB path BLACK (black_node_height (Node.mk xk xv BLACK (.mk lk lv RED ll lr) xr)))
    (hr : rootColor xr ≠ RED) :
    removeCase1Right path (Node.mk xk xv BLACK (.mk lk lv RED ll lr) xr) =
        some (⟨false, lk, lv, BLACK, ll, false⟩ :: path, Node.mk xk xv RED lr xr) ∧
      RB (Node.mk xk xv RED lr xr) ∧
      PathRB (⟨false, lk, lv, BLACK, ll, false⟩ :: path) RED
        (black_node_height (Node.mk xk xv RED lr xr)) ∧
      leftEntries (⟨false, lk, lv, BLACK, ll, false⟩ :: path) ++
          entries (Node.mk xk xv RED lr xr) ++
          rightEntries (⟨false, lk, lv, BLACK, ll, false⟩ :: path) =
        leftEntries path ++ entries (Node.mk xk xv BLACK (.mk lk lv RED ll lr) xr) ++
          rightEntries path := by
  have h4 : relinkAgrees path lk = true :=
    relinkAgrees_of_sorted path _ lk lv hs (by simp [entries])
  simp only [RB, rootColor_mk, rootColor_nil, black_node_height_mk, if_true, if_false,
    ne_eq, not_true_eq_false, not_false_eq_true, true_and, reduceCtorEq, true_implies,
    false_implies, implies_true, and_true] at hrp hrx
  obtain ⟨hbx, ⟨hbl, ⟨hllc, hlrc⟩, hll, hlr⟩, hxr⟩ := hrx
  refine ⟨?_, ?_, ?_, ?_⟩
  · simp [removeCase1Right, h4, setColor_black_of_not_red xr hr]
  · simp only [RB, rootColor_mk, true_implies]
    refine ⟨?_, ⟨hlrc, hr⟩, hlr, hxr⟩
    omega
  · simp only [PathRB, rootColor_mk, black_node_height_mk, if_true, if_false, reduceCtorEq,
      false_implies, true_and]
    refine ⟨hll, ?_, ?_⟩
    · omega
    · convert hrp using 1
      omega
  · simp [leftEntries, rightEntries, entries]

/-- CASE 1 of `remove_rebalance` towards the left. -/
theorem removeCase1Left_spec [LinearOrder K] (path : List (Frame K V)) (xk : K) (xv : V)
    (rk : K) (rv : V) (xl rl rr : Node K V)
    (hs : (leftEntries path ++ entries (Node.mk xk xv BLACK xl (.mk rk rv RED rl rr)) ++
      rightEntries path).Pairwise (fun a b => a.1 < b.1))
    (hrx : RB (Node.mk xk xv BLACK xl (.mk rk rv RED rl rr)))
    (hrp : PathRB path BLACK (black_node_height (Node.mk xk xv BLACK xl (.mk rk rv RED rl rr))))
    (hl : rootColor xl ≠ RED) :
    removeCase1Left path (Node.mk xk xv BLACK xl (.mk rk rv RED rl rr)) =
        some (⟨true, rk, rv, BLACK, rr, false⟩ :: path, Node.mk xk xv RED xl rl) ∧
      RB (Node.mk xk xv RED xl rl) ∧
      PathRB (⟨true, rk, rv, BLACK, rr, false⟩ :: path) RED
        (black_node_height (Node.mk xk xv RED xl rl)) ∧
      leftEntries (⟨true, rk, rv, BLACK, rr, false⟩ :: path) ++
          entries (Node.mk xk xv RED xl rl) ++
          rightEntries (⟨true, rk, rv, BLACK, rr, false⟩ :: path) =
        leftEntries path ++ entries (Node.mk xk xv BLACK xl (.mk rk rv RED rl rr)) ++
          rightEntries path := by
  have h4 : relinkAgrees path rk = true :=
    relinkAgrees_of_sorted path _ rk rv hs (by simp [entries])
  simp only [RB, rootColor_mk, rootColor_nil, black_node_height_mk, if_true, if_false,
    ne_eq, not_true_eq_false, not_false_eq_true, true_and, reduceCtorEq, true_implies,
    false_implies, implies_true, and_true] at hrp hrx
  obtain ⟨hbx, hxl, ⟨hbr, ⟨hrlc, hrrc⟩, hrl, hrr⟩⟩ := hrx
  refine ⟨?_, ?_, ?_, ?_⟩
  · simp [removeCase1Left, h4, setColor_black_of_not_red xl hl]
  · simp only [RB, rootColor_mk, true_implies]
    refine ⟨?_, ⟨hl, hrlc⟩, hxl, hrl⟩
    omega
  · simp only [PathRB, rootColor_mk, black_node_height_mk, if_true, if_false, reduceCtorEq,
      false_implies, true_and]
    refine ⟨hrr, ?_, ?_⟩
    · omega
    · convert hrp using 1
      omega
  · simp [leftEntries, rightEntries, entries]

/-- The comparison by which `remove_rebalance` finds the sibling agrees with the
side on which `x` hangs when the tree is ordered. -/
theorem siblingOf_of_sorted [LinearOrder K] (p : Frame K V) (rest : List (Frame K V))
    (xk : K) (xv : V) (mid : List (K × V))
    (hs : (leftEntries (p :: rest) ++ mid ++ rightEntries (p :: rest)).Pairwise
      (fun a b => a.1 < b.1))
    (hm : (xk, xv) ∈ mid) : siblingOf (p :: rest) xk = some p.other := by
  simp only [siblingOf]
  rw [if_pos]
  rw [List.pairwise_append, List.pairwise_append] at hs
  obtain ⟨⟨-, -, h1⟩, -, h2⟩ := hs
  cases hp : p.onLeft
  · have : p.key < xk := h1 (p.key, p.value) (by simp [leftEntries, hp]) (xk, xv) hm
    simp [not_lt_of_gt this]
  · have : xk < p.key :=
      h2 (xk, xv) (by simp [hm]) (p.key, p.value) (by simp [rightEntries, hp])
    simp [this]

/-- `remove_rebalance` leaves a RED node as it is. -/
theorem remove_rebalance_red [LinearOrder K] (path : List (Frame K V)) (xk : K) (xv : V)
    (xl xr : Node K V) (dir : Bool) :
    remove_rebalance path (Node.mk xk xv RED xl xr) dir =
      some (path, Node.mk xk xv RED xl xr) := by
  simp [remove_rebalance]

/-- `remove_rebalance` leaves a BLACK node as it is when the child to which the
search goes on is RED. -/
theorem remove_rebalance_keep_dir [LinearOrder K] (path : List (Frame K V)) (xk : K) (xv : V)
    (xl xr t : Node K V) (dir : Bool) (hsib : siblingOf path xk = some t)
    (hd : rootColor (dirChild dir (Node.mk xk xv BLACK xl xr)) = RED) :
    remove_rebalance path (Node.mk xk xv BLACK xl xr) dir =
      some (path, Node.mk xk xv BLACK xl xr) := by
  cases dir <;> rcases xl with _ | ⟨lk, lv, lc, ll, lr⟩ <;>
    rcases xr with _ | ⟨rk, rv, rc, rl, rr⟩ <;>
    simp only [dirChild, rootColor_mk, rootColor_nil, if_true, if_false, Bool.false_eq_true,
      reduceCtorEq] at hd <;>
    subst hd <;>
    rcases path with _ | ⟨p, rest⟩ <;> rcases t with _ | ⟨tk, tv, tc, tl, tr⟩ <;>
    first
      | (simp [remove_rebalance, hsib, colorOf]; done)
      | (cases lc <;> simp [remove_rebalance, hsib, colorOf])
      | (cases rc <;> simp [remove_rebalance, hsib, colorOf])

/-- `remove_rebalance` leaves a BLACK root without RED children as it is. -/
theorem remove_rebalance_root [LinearOrder K] (xk : K) (xv : V)
    (xl xr : Node K V) (dir : Bool)
    (hl : rootColor xl ≠ RED) (hr : rootColor xr ≠ RED) :
    remove_rebalance [] (Node.mk xk xv BLACK xl xr) dir =
      some ([], Node.mk xk xv BLACK xl xr) := by
  rcases xl with _ | ⟨lk, lv, lc, ll, lr⟩ <;>
    rcases xr with _ | ⟨rk, rv, rc, rl, rr⟩ <;>
    simp only [rootColor_mk, rootColor_nil, color_ne_red_iff] at hl hr <;>
    simp [remove_rebalance, siblingOf, colorOf, hl, hr]

/-- `remove_rebalance` goes to CASE 1 when the search goes on to a child that is
not RED and the other child is RED. -/
theorem remove_rebalance_case1 [LinearOrder K] (path : List (Frame K V)) (xk : K) (xv : V)
    (xl xr t : Node K V) (dir : Bool) (hsib : siblingOf path xk = some t)
    (hd : rootColor (dirChild dir (Node.mk xk xv BLACK xl xr)) ≠ RED)
    (ho : rootColor (otherChild dir (Node.mk xk xv BLACK xl xr)) = RED) :
    remove_rebalance path (Node.mk xk xv BLACK xl xr) dir =
      if dir then removeCase1Right path (Node.mk xk xv BLACK xl xr)
      else removeCase1Left path (Node.mk xk xv BLACK xl xr) := by
  cases dir <;> rcases xl with _ | ⟨lk, lv, lc, ll, lr⟩ <;>
    rcases xr with _ | ⟨rk, rv, rc, rl, rr⟩ <;>
    simp only [dirChild, otherChild, rootColor_mk, rootColor_nil, if_true, if_false,
      Bool.false_eq_true, reduceCtorEq, color_ne_red_iff] at hd ho <;>
    simp [remove_rebalance, hsib, hd, ho]

/-- `remove_rebalance` goes to the sibling when `x` is BLACK without RED children
and the sibling exists and is not RED. -/
theorem remove_rebalance_sibling [LinearOrder K] (p : Frame K V) (rest : List (Frame K V))
    (xk : K) (xv : V) (xl xr : Node K V) (dir : Bool)
    (hsib : siblingOf (p :: rest) xk = some p.other)
    (hl : rootColor xl ≠ RED) (hr : rootColor xr ≠ RED)
    (hnull : isNull xl = isNull xr)
    (ht : isNull p.other = false) (htc : rootColor p.other ≠ RED) :
    remove_rebalance (p :: rest) (Node.mk xk xv BLACK xl xr) dir =
      removeSibling false p rest (Node.mk xk xv BLACK xl xr) := by
  obtain ⟨ponl, pk, pv, pc, po, pm⟩ := p
  simp only at hsib ht htc
  rcases po with _ | ⟨tk, tv, tc, tl, tr⟩
  · simp [isNull] at ht
  simp only [rootColor_mk, color_ne_red_iff] at htc
  subst htc
  rcases xl with _ | ⟨lk, lv, lc, ll, lr⟩ <;>
    rcases xr with _ | ⟨rk, rv, rc, rl, rr⟩ <;>
    simp only [rootColor_mk, rootColor_nil, color_ne_red_iff, isNull, reduceCtorEq] at hl hr hnull <;>
    simp [remove_rebalance, hsib, colorOf, hl, hr]

theorem isNull_eq_true_iff (t : Node K V) : isNull t = true ↔ t = .nil := by
  cases t <;> simp [isNull]

theorem eq_nil_of_bh_le_one (t : Node K V) (hc : rootColor t ≠ RED)
    (h : black_node_height t ≤ 1) : t = .nil := by
  rcases t with _ | ⟨k, v, c, l, r⟩
  · rfl
  · simp only [rootColor_mk, color_ne_red_iff] at hc
    subst hc
    have := two_le_bh_black k v l r
    omega

theorem bh_nil : black_node_height (Node.nil : Node K V) = 1 := rfl

/-- A node whose children are not RED and have the same black height has no
child as soon as one child is absent. -/
theorem leaf_of_child_null (l r : Node K V) (hb : black_node_height l = black_node_height r)
    (hl : rootColor l ≠ RED) (hr : rootColor r ≠ RED)
    (h : isNull l = true ∨ isNull r = true) : l = .nil ∧ r = .nil := by
  rcases h with h | h
  · rw [isNull_eq_true_iff] at h
    subst h
    exact ⟨rfl, eq_nil_of_bh_le_one r hr (by rw [← hb, bh_nil])⟩
  · rw [isNull_eq_true_iff] at h
    subst h
    exact ⟨eq_nil_of_bh_le_one l hl (by rw [hb, bh_nil]), rfl⟩

theorem isNull_eq_of_bh (l r : Node K V) (hb : black_node_height l = black_node_height r)
    (hl : rootColor l ≠ RED) (hr : rootColor r ≠ RED) : isNull l = isNull r := by
  cases h1 : isNull l
  · cases h2 : isNull r
    · rfl
    · have := (leaf_of_child_null l r hb hl hr (Or.inr h2)).1
      rw [this] at h1
      simp [isNull] at h1
  · have := (leaf_of_child_null l r hb hl hr (Or.inl h1)).2
    rw [this]
    rfl

/-- What `remove_rebalance` establishes at a node of the search path. -/
theorem remove_rebalance_spec [LinearOrder K] (path : List (Frame K V))
    (xk : K) (xv : V) (xc : color_t) (xl xr : Node K V) (dir : Bool)
    (inv : RemInv path (.mk xk xv xc xl xr)) :
    ∃ path1 c1 l1 r1,
      remove_rebalance path (.mk xk xv xc xl xr) dir = some (path1, .mk xk xv c1 l1 r1) ∧
      leftEntries path1 ++ entries (Node.mk xk xv c1 l1 r1) ++ rightEntries path1 =
        leftEntries path ++ entries (Node.mk xk xv xc xl xr) ++ rightEntries path ∧
      RB (Node.mk xk xv c1 l1 r1) ∧
      PathRB path1 c1 (black_node_height (Node.mk xk xv c1 l1 r1)) ∧
      dirChild dir (Node.mk xk xv c1 l1 r1) = dirChild dir (Node.mk xk xv xc xl xr) ∧
      (rootColor (dirChild dir (Node.mk xk xv xc xl xr)) = BLACK →
        c1 = RED ∨ (path1 = [] ∧ rootColor (otherChild dir (Node.mk xk xv c1 l1 r1)) ≠ RED)) ∧
      (isNull (dirChild dir (Node.mk xk xv xc xl xr)) = true →
        l1 = .nil ∧ r1 = .nil ∧ (c1 = RED ∨ path1 = [])) ∧
      (isNull (dirChild dir (Node.mk xk xv xc xl xr)) = false →
        isNull (otherChild dir (Node.mk xk xv xc xl xr)) = false →
        isNull (otherChild dir (Node.mk xk xv c1 l1 r1)) = false) ∧
      PathStep (!dir) path path1 := by
  obtain ⟨hs, hrx, hrp, hpok⟩ := inv
  have hbh : black_node_height xl = black_node_height xr := hrx.1
  cases xc
  · -- a RED node is left as it is
    have hcl := (hrx.2.1 rfl).1
    have hcr := (hrx.2.1 rfl).2
    refine ⟨path, RED, xl, xr, remove_rebalance_red .., rfl, hrx, hrp, rfl,
      fun _ => Or.inl rfl, ?_, fun _ h => h, Or.inl rfl⟩
    intro hn
    have hleaf := leaf_of_child_null xl xr hbh hcl hcr
      (by cases dir <;> simp only [dirChild, if_true, if_false, Bool.false_eq_true] at hn <;>
            simp [hn])
    exact ⟨hleaf.1, hleaf.2, Or.inl rfl⟩
  · -- a BLACK node
    simp only [rootColor_mk] at hrp
    have hsib : ∃ t, siblingOf path xk = some t := by
      rcases path with _ | ⟨p, rest⟩
      · exact ⟨_, rfl⟩
      · exact ⟨_, siblingOf_of_sorted p rest xk xv _ hs (mem_entries_root ..)⟩
    obtain ⟨t, hsib⟩ := hsib
    by_cases hd : rootColor (dirChild dir (Node.mk xk xv BLACK xl xr)) = RED
    · -- the search goes on to a RED child
      refine ⟨path, BLACK, xl, xr, remove_rebalance_keep_dir path xk xv xl xr t dir hsib hd,
        rfl, hrx, hrp, rfl, ?_, ?_, fun _ h => h, Or.inl rfl⟩
      · intro h
        rw [hd] at h
        cases h
      · intro hn
        rw [isNull_eq_true_iff] at hn
        rw [hn, rootColor_nil] at hd
        cases hd
    · by_cases ho : rootColor (otherChild dir (Node.mk xk xv BLACK xl xr)) = RED
      · -- CASE 1: a rotation at x towards the side of the search
        have hdisp := remove_rebalance_case1 path xk xv xl xr t dir hsib hd ho
        cases dir
        · simp only [dirChild, otherChild, if_false, Bool.false_eq_true] at hd ho
          rcases xr with _ | ⟨rk, rv, rc, rl, rr⟩
          · simp [rootColor_nil] at ho
          simp only [rootColor_mk] at ho
          subst ho
          obtain ⟨e, rb1, rp1, le1⟩ := removeCase1Left_spec path xk xv rk rv xl rl rr hs hrx hrp hd
          simp only [Bool.false_eq_true, if_false] at hdisp
          have hrr := hrx.2.2.2
          simp only [RB, rootColor_mk, true_implies] at hrr
          obtain ⟨hbr, ⟨hrlc, hrrc⟩, -, -⟩ := hrr
          have hbxr : black_node_height (Node.mk rk rv RED rl rr) = black_node_height rl := by
            rw [bh_mk _ _ _ _ _ hbr]; simp
          refine ⟨_, RED, xl, rl, hdisp.trans e, le1, rb1, rp1, ?_, fun _ => Or.inl rfl, ?_, ?_,
            Or.inr (Or.inl ⟨_, rfl, rfl, rfl⟩)⟩
          · simp [dirChild]
          · intro hn
            simp only [dirChild, if_false, Bool.false_eq_true] at hn
            have h1 := (isNull_eq_true_iff xl).mp hn
            refine ⟨h1, eq_nil_of_bh_le_one rl hrlc ?_, Or.inl rfl⟩
            rw [← hbxr, ← hbh, h1, bh_nil]
          · intro hn _
            simp only [dirChild, otherChild, if_false, Bool.false_eq_true] at hn ⊢
            rcases xl with _ | ⟨lk, lv, lc, ll, lr⟩
            · simp [isNull] at hn
            simp only [rootColor_mk, color_ne_red_iff] at hd
            subst hd
            have h2 := two_le_bh_black lk lv ll lr
            rcases rl with _ | ⟨a, b, c, d, e⟩
            · rw [hbh, hbxr, bh_nil] at h2
              omega
            · rfl
        · simp only [dirChild, otherChild, if_true] at hd ho
          rcases xl with _ | ⟨lk, lv, lc, ll, lr⟩
          · simp [rootColor_nil] at ho
          simp only [rootColor_mk] at ho
          subst ho
          obtain ⟨e, rb1, rp1, le1⟩ := removeCase1Right_spec path xk xv lk lv ll lr xr hs hrx hrp hd
          simp only [if_true] at hdisp
          have hll := hrx.2.2.1
          simp only [RB, rootColor_mk, true_implies] at hll
          obtain ⟨hbl, ⟨hllc, hlrc⟩, -, -⟩ := hll
          have hbxl : black_node_height (Node.mk lk lv RED ll lr) = black_node_height lr := by
            rw [bh_mk _ _ _ _ _ hbl, hbl]; simp
          refine ⟨_, RED, lr, xr, hdisp.trans e, le1, rb1, rp1, ?_, fun _ => Or.inl rfl, ?_, ?_,
            Or.inr (Or.inl ⟨_, rfl, rfl, rfl⟩)⟩
          · simp [dirChild]
          · intro hn
            simp only [dirChild, if_true] at hn
            have h1 := (isNull_eq_true_iff xr).mp hn
            refine ⟨eq_nil_of_bh_le_one lr hlrc ?_, h1, Or.inl rfl⟩
            rw [← hbxl, hbh, h1, bh_nil]
          · intro hn _
            simp only [dirChild, otherChild, if_true] at hn ⊢
            rcases xr with _ | ⟨rk, rv, rc, rl, rr⟩
            · simp [isNull] at hn
            simp only [rootColor_mk, color_ne_red_iff] at hd
            subst hd
            have h2 := two_le_bh_black rk rv rl rr
            rcases lr with _ | ⟨a, b, c, d, e⟩
            · rw [← hbh, hbxl, bh_nil] at h2
              omega
            · rfl
      · -- no RED child
        have hl : rootColor xl ≠ RED := by
          cases dir <;> simp only [dirChild, otherChild, if_true, if_false,
            Bool.false_eq_true] at hd ho <;> assumption
        have hr : rootColor xr ≠ RED := by
          cases dir <;> simp only [dirChild, otherChild, if_true, if_false,
            Bool.false_eq_true] at hd ho <;> assumption
        have hleaf := leaf_of_child_null xl xr hbh hl hr
        have hnn := isNull_eq_of_bh xl xr hbh hl hr
        rcases path with _ | ⟨p, rest⟩
        · -- x is the root
          refine ⟨[], BLACK, xl, xr, remove_rebalance_root xk xv xl xr dir hl hr, rfl, hrx,
            trivial, rfl, fun _ => Or.inr ⟨rfl, ho⟩, ?_, fun _ h => h, Or.inl rfl⟩
          intro hn
          have := hleaf (by cases dir <;>
            simp only [dirChild, if_true, if_false, Bool.false_eq_true] at hn <;> simp [hn])
          exact ⟨this.1, this.2, Or.inr rfl⟩
        · -- the sibling exists
          obtain ⟨ponl, pk, pv, pc, po, pm⟩ := p
          have hsib2 := siblingOf_of_sorted ⟨ponl, pk, pv, pc, po, pm⟩ rest xk xv _ hs
            (mem_entries_root ..)
          have hpar := hpok rfl rfl
          have hpr : pc = RED ∨ rest = [] := by
            rcases hpar with h | ⟨p1, rest1, h, h2⟩
            · cases h
            · obtain ⟨rfl, rfl⟩ := List.cons.inj h
              rcases h2 with h2 | h2
              · exact Or.inl h2
              · exact Or.inr h2.1
          have htc : rootColor po ≠ RED := by
            rcases hpar with h | ⟨p1, rest1, h, h2⟩
            · cases h
            · obtain ⟨rfl, rfl⟩ := List.cons.inj h
              rcases h2 with h2 | h2
              · exact (hrp.2.2.1 h2).2
              · exact h2.2
          have htn : isNull po = false := by
            rcases po with _ | ⟨a, b, c, d, e⟩
            · have h1 := hrp.2.1
              have h2 := two_le_bh_black xk xv xl xr
              simp only [bh_nil] at h1
              omega
            · rfl
          obtain ⟨path1, e, hp1, le1, o, shape⟩ :=
            removeSibling_spec ponl pk pv pc po pm rest xk xv xl xr hs hrx hrp hpr htc
          have hdisp := remove_rebalance_sibling ⟨ponl, pk, pv, pc, po, pm⟩ rest xk xv xl xr dir
            hsib2 hl hr hnn htn htc
          have hrx1 : RB (Node.mk xk xv RED xl xr) :=
            ⟨hbh, fun _ => ⟨hl, hr⟩, hrx.2.2.1, hrx.2.2.2⟩
          refine ⟨path1, RED, xl, xr, hdisp.trans e, le1, hrx1, hp1, rfl, fun _ => Or.inl rfl,
            ?_, fun _ h => h, ?_⟩
          · intro hn
            have := hleaf (by cases dir <;>
              simp only [dirChild, if_true, if_false, Bool.false_eq_true] at hn <;> simp [hn])
            exact ⟨this.1, this.2, Or.inl rfl⟩
          · refine Or.inr (Or.inr ⟨⟨ponl, pk, pv, pc, po, pm⟩, rest, BLACK, o, rfl, ?_⟩)
            rcases shape with h | ⟨f, h, hm, hf⟩
            · exact Or.inl h
            · exact Or.inr ⟨f, h, hm, hf⟩

/-- The comparison `k < p->key` agrees with the side of `p` on which the node
with key `k` hangs when the tree is ordered. -/
theorem side_of_sorted [LinearOrder K] (p : Frame K V) (rest : List (Frame K V))
    (xk : K) (xv : V) (mid : List (K × V))
    (hs : (leftEntries (p :: rest) ++ mid ++ rightEntries (p :: rest)).Pairwise
      (fun a b => a.1 < b.1))
    (hm : (xk, xv) ∈ mid) : decide (xk < p.key) = p.onLeft := by
  rw [List.pairwise_append, List.pairwise_append] at hs
  obtain ⟨⟨-, -, h1⟩, -, h2⟩ := hs
  cases hp : p.onLeft
  · have : p.key < xk := h1 (p.key, p.value) (by simp [leftEntries, hp]) (xk, xv) hm
    simp [not_lt_of_gt this]
  · have : xk < p.key :=
      h2 (xk, xv) (by simp [hm]) (p.key, p.value) (by simp [rightEntries, hp])
    simp [this]

/-- The step of the loops of `remove` from a node to a child keeps the
invariant, given what `remove_rebalance` has established at the node. -/
theorem remDescend [LinearOrder K] (path1 : List (Frame K V))
    (xk : K) (xv : V) (c1 : color_t) (l1 r1 : Node K V) (m : Bool)
    (hs : (leftEntries path1 ++ entries (Node.mk xk xv c1 l1 r1) ++
      rightEntries path1).Pairwise (fun a b => a.1 < b.1))
    (hrx : RB (Node.mk xk xv c1 l1 r1))
    (hrp : PathRB path1 c1 (black_node_height (Node.mk xk xv c1 l1 r1))) :
    ((rootColor l1 = BLACK → c1 = RED ∨ (path1 = [] ∧ rootColor r1 ≠ RED)) →
      RemInv (⟨true, xk, xv, c1, r1, m⟩ :: path1) l1) ∧
    ((rootColor r1 = BLACK → c1 = RED ∨ (path1 = [] ∧ rootColor l1 ≠ RED)) →
      RemInv (⟨false, xk, xv, c1, l1, m⟩ :: path1) r1) := by
  obtain ⟨hbh, hcol, hrl, hrr⟩ := hrx
  have hbhx := bh_mk xk xv c1 l1 r1 hbh
  rw [hbhx] at hrp
  constructor
  · intro hd
    refine ⟨?_, hrl, ⟨hrr, hbh.symm, hcol, hrp⟩, ?_⟩
    · have : leftEntries (⟨true, xk, xv, c1, r1, m⟩ :: path1) ++ entries l1 ++
          rightEntries (⟨true, xk, xv, c1, r1, m⟩ :: path1) =
          leftEntries path1 ++ entries (Node.mk xk xv c1 l1 r1) ++ rightEntries path1 := by
        simp [leftEntries, rightEntries, entries]
      rw [this]; exact hs
    · intro _ hc
      exact Or.inr ⟨_, _, rfl, hd hc⟩
  · intro hd
    refine ⟨?_, hrr, ⟨hrl, hbh, fun h => ⟨(hcol h).2, (hcol h).1⟩, ?_⟩, ?_⟩
    · have : leftEntries (⟨false, xk, xv, c1, l1, m⟩ :: path1) ++ entries r1 ++
          rightEntries (⟨false, xk, xv, c1, l1, m⟩ :: path1) =
          leftEntries path1 ++ entries (Node.mk xk xv c1 l1 r1) ++ rightEntries path1 := by
        simp [leftEntries, rightEntries, entries]
      rw [this]; exact hs
    · rw [← hbh]; exact hrp
    · intro _ hc
      exact Or.inr ⟨_, _, rfl, hd hc⟩

theorem mem_keys_iff_entries (t : Node K V) (k : K) :
    k ∈ keys t ↔ ∃ e ∈ entries t, e.1 = k := by
  rw [rbt_keys_eq_map_entries]
  simp only [List.mem_map]

/-- What the last `remove_rebalance` of the search loop leaves at the node found. -/
theorem foundInv_of_spec [LinearOrder K] (path1 : List (Frame K V)) (k : K) (v : V)
    (c c1 : color_t) (l r l1 r1 : Node K V)
    (hs1 : (leftEntries path1 ++ entries (Node.mk k v c1 l1 r1) ++ rightEntries path1).Pairwise
      (fun a b => a.1 < b.1))
    (rb1 : RB (Node.mk k v c1 l1 r1))
    (rp1 : PathRB path1 c1 (black_node_height (Node.mk k v c1 l1 r1)))
    (s1 : dirChild (!isNull l) (Node.mk k v c1 l1 r1) = dirChild (!isNull l) (Node.mk k v c l r))
    (hD : rootColor (dirChild (!isNull l) (Node.mk k v c l r)) = BLACK →
        c1 = RED ∨ (path1 = [] ∧
          rootColor (otherChild (!isNull l) (Node.mk k v c1 l1 r1)) ≠ RED))
    (hS : isNull (dirChild (!isNull l) (Node.mk k v c l r)) = true →
        l1 = .nil ∧ r1 = .nil ∧ (c1 = RED ∨ path1 = []))
    (hT : isNull (dirChild (!isNull l) (Node.mk k v c l r)) = false →
        isNull (otherChild (!isNull l) (Node.mk k v c l r)) = false →
        isNull (otherChild (!isNull l) (Node.mk k v c1 l1 r1)) = false) :
    FoundInv path1 k v c1 l1 r1 := by
  cases hl : isNull l
  · -- x has a left child: the search loop has called with going_right = true
    simp only [hl, Bool.not_false, dirChild, otherChild, if_true] at s1 hD hS hT
    subst s1
    refine ⟨hs1, rb1, rp1, ?_, hD⟩
    intro h
    cases hr : isNull r1
    · have := hT hr trivial
      rw [this, hr] at h
      simp at h
    · exact hS hr
  · -- x has no left child: going_right = false
    simp only [hl, Bool.not_true, dirChild, otherChild, if_false, Bool.false_eq_true] at s1 hD hS hT
    subst s1
    obtain ⟨h1, h2, h3⟩ := hS trivial
    refine ⟨hs1, rb1, rp1, fun _ => ⟨h1, h2, h3⟩, ?_⟩
    intro _
    rcases h3 with h3 | h3
    · exact Or.inl h3
    · refine Or.inr ⟨h3, ?_⟩
      rw [h1, rootColor_nil]
      simp

/-- The search loop of `remove` ends within its iteration budget: at a null
pointer when the key is not stored, and at the node with the key otherwise. -/
theorem removeLoop_spec [LinearOrder K] (a_key : K) :
    ∀ (fuel : Nat) (path : List (Frame K V)) (x : Node K V),
      RemInv path x → size x < fuel →
      ∃ loc, removeLoop a_key fuel path x = some loc ∧
        leftEntries loc.path ++ entries loc.x ++ rightEntries loc.path =
          leftEntries path ++ entries x ++ rightEntries path ∧
        (a_key ∉ keys x → loc.found = false ∧ loc.x = .nil ∧ PathRB loc.path BLACK 1) ∧
        (a_key ∈ keys x → loc.found = true ∧ ∃ v c1 l1 r1,
          loc.x = .mk a_key v c1 l1 r1 ∧ FoundInv loc.path a_key v c1 l1 r1) := by
  intro fuel
  induction fuel with
  | zero => intro path x _ h; omega
  | succ fuel ih =>
    intro path x inv hm
    rcases x with _ | ⟨k, v, c, l, r⟩
    · refine ⟨⟨path, .nil, false⟩, rfl, rfl, fun _ => ⟨rfl, rfl, inv.rbp⟩, ?_⟩
      intro h
      simp [keys] at h
    · have hs := inv.sorted
      have hx : (entries (Node.mk k v c l r)).Pairwise (fun a b => a.1 < b.1) :=
        (List.pairwise_append.mp (List.pairwise_append.mp hs).1).2.1
      obtain ⟨hxl, hxr, -, -⟩ := sorted_mk hx
      by_cases h1 : a_key < k
      · -- go on to the left
        obtain ⟨path1, c1, l1, r1, e, le1, rb1, rp1, s1, hD, -, -, -⟩ :=
          remove_rebalance_spec path k v c l r false inv
        simp only [dirChild, otherChild, if_false, Bool.false_eq_true] at s1 hD
        subst s1
        have hs1 : (leftEntries path1 ++ entries (Node.mk k v c1 l1 r1) ++
            rightEntries path1).Pairwise (fun a b => a.1 < b.1) := by rw [le1]; exact hs
        have inv1 := (remDescend path1 k v c1 l1 r1 false hs1 rb1 rp1).1 hD
        have hm1 : size l1 < fuel := by simp only [size] at hm; omega
        obtain ⟨loc, e2, le2, hnf, hf⟩ := ih _ l1 inv1 hm1
        have hmem : a_key ∈ keys (Node.mk k v c l1 r) ↔ a_key ∈ keys l1 := by
          simp only [keys, List.mem_append, List.mem_cons]
          constructor
          · rintro (h | h | h)
            · exact h
            · exact absurd h (ne_of_lt h1)
            · obtain ⟨e, he, rfl⟩ := (mem_keys_iff_entries r a_key).mp h
              exact absurd (lt_trans h1 (hxr e he)) (lt_irrefl _)
          · exact fun h => Or.inl h
        refine ⟨loc, ?_, ?_, ?_, ?_⟩
        · simp only [removeLoop, h1, if_true, e]
          exact e2
        · rw [le2, ← le1]
          simp [leftEntries, rightEntries, entries]
        · intro h
          exact hnf (fun h2 => h (hmem.mpr h2))
        · intro h
          exact hf (hmem.mp h)
      · by_cases h2 : a_key > k
        · -- go on to the right
          obtain ⟨path1, c1, l1, r1, e, le1, rb1, rp1, s1, hD, -, -, -⟩ :=
            remove_rebalance_spec path k v c l r true inv
          simp only [dirChild, otherChild, if_true] at s1 hD
          subst s1
          have hs1 : (leftEntries path1 ++ entries (Node.mk k v c1 l1 r1) ++
              rightEntries path1).Pairwise (fun a b => a.1 < b.1) := by rw [le1]; exact hs
          have inv1 := (remDescend path1 k v c1 l1 r1 false hs1 rb1 rp1).2 hD
          have hm1 : size r1 < fuel := by simp only [size] at hm; omega
          obtain ⟨loc, e2, le2, hnf, hf⟩ := ih _ r1 inv1 hm1
          have hmem : a_key ∈ keys (Node.mk k v c l r1) ↔ a_key ∈ keys r1 := by
            simp only [keys, List.mem_append, List.mem_cons]
            constructor
            · rintro (h | h | h)
              · obtain ⟨e, he, rfl⟩ := (mem_keys_iff_entries l a_key).mp h
                exact absurd (lt_trans h2 (hxl e he)) (lt_irrefl _)
              · exact absurd h (ne_of_gt h2)
              · exact h
            · exact fun h => Or.inr (Or.inr h)
          refine ⟨loc, ?_, ?_, ?_, ?_⟩
          · simp only [removeLoop, h1, h2, if_true, if_false, e]
            exact e2
          · rw [le2, ← le1]
            simp [leftEntries, rightEntries, entries]
          · intro h
            exact hnf (fun h2 => h (hmem.mpr h2))
          · intro h
            exact hf (hmem.mp h)
        · -- the key is found
          have hk : a_key = k := le_antisymm (not_lt.mp h2) (not_lt.mp h1)
          subst hk
          obtain ⟨path1, c1, l1, r1, e, le1, rb1, rp1, s1, hD, hS, hT, -⟩ :=
            remove_rebalance_spec path a_key v c l r (!isNull l) inv
          have hs1 : (leftEntries path1 ++ entries (Node.mk a_key v c1 l1 r1) ++
              rightEntries path1).Pairwise (fun a b => a.1 < b.1) := by rw [le1]; exact hs
          refine ⟨⟨path1, .mk a_key v c1 l1 r1, true⟩, ?_, le1, ?_, ?_⟩
          · simp only [removeLoop, h1, h2, if_false, e]
          · intro h
            exact absurd (by simp [keys]) h
          · intro _
            exact ⟨rfl, v, c1, l1, r1, rfl,
              foundInv_of_spec path1 a_key v c c1 l r l1 r1 hs1 rb1 rp1 s1 hD hS hT⟩

/-- A call of `remove_rebalance(s, false)` keeps the shape of the list of
ancestors on the way to the in-order successor. -/
theorem succPath_step (xk : K) (path path1 : List (Frame K V))
    (hstep : PathStep true path path1) (h : SuccPath xk path) : SuccPath xk path1 := by
  rcases hstep with rfl | ⟨f, rfl, hm, hf⟩ | ⟨p, rest, c, o, rfl, hp⟩
  · exact h
  · exact Or.inr ⟨hm, hf, h⟩
  · rcases h with ⟨h1, h2, h3⟩ | ⟨h1, h2, h3⟩
    · rcases hp with rfl | ⟨f, rfl, -, -⟩
      · exact Or.inl ⟨h1, h2, h3⟩
      · exact Or.inl ⟨h1, h2, h3⟩
    · rcases hp with rfl | ⟨f, rfl, hm, hf⟩
      · exact Or.inr ⟨h1, h2, h3⟩
      · exact Or.inr ⟨h1, h2, Or.inr ⟨hm, hf.trans h2, h3⟩⟩

/-- The loop of `remove` that walks to the in-order successor ends within its
iteration budget at a RED node without children. -/
theorem successorLoop_spec [LinearOrder K] (xk : K) :
    ∀ (fuel : Nat) (path : List (Frame K V)) (sk : K) (sv : V) (sc : color_t)
      (sl sr : Node K V),
      SuccInv xk path sk sv sc sl sr → size sl < fuel →
      ∃ path2 k2 v2, successorLoop fuel path (.mk sk sv sc sl sr) =
          some (path2, .mk k2 v2 RED .nil .nil) ∧
        leftEntries path2 ++ [(k2, v2)] ++ rightEntries path2 =
          leftEntries path ++ entries (Node.mk sk sv sc sl sr) ++ rightEntries path ∧
        PathRB path2 RED 1 ∧ SuccPath xk path2 := by
  intro fuel
  induction fuel with
  | zero => intro path sk sv sc sl sr _ h; omega
  | succ fuel ih =>
    intro path sk sv sc sl sr inv hm
    obtain ⟨hs, hrx, hrp, hleft, hleaf, hshape⟩ := inv
    rcases sl with _ | ⟨lk, lv, lc, ll, lr⟩
    · obtain ⟨rfl, hc⟩ := hleaf rfl
      have hc1 : sc = RED := by
        rcases hc with h | h
        · exact h
        · rw [h] at hshape
          exact absurd hshape (by simp [SuccPath])
      subst hc1
      refine ⟨path, sk, sv, rfl, by simp [entries], ?_, hshape⟩
      simpa [black_node_height] using hrp
    · have inv1 := (remDescend path sk sv sc (.mk lk lv lc ll lr) sr false hs hrx hrp).1 hleft
      obtain ⟨path1, c1, l1, r1, e, le1, rb1, rp1, s1, hD, hS, -, hstep⟩ :=
        remove_rebalance_spec _ lk lv lc ll lr false inv1
      simp only [dirChild, otherChild, if_false, Bool.false_eq_true, Bool.not_false] at s1 hD hS hstep
      subst s1
      have hs1 : (leftEntries path1 ++ entries (Node.mk lk lv c1 l1 r1) ++
          rightEntries path1).Pairwise (fun a b => a.1 < b.1) := by
        rw [le1]; exact inv1.sorted
      have hshape1 : SuccPath xk path1 :=
        succPath_step xk _ path1 hstep (Or.inr ⟨rfl, rfl, hshape⟩)
      have inv2 : SuccInv xk path1 lk lv c1 l1 r1 :=
        ⟨hs1, rb1, rp1, hD, fun h => (hS h).2, hshape1⟩
      have hm1 : size l1 < fuel := by simp only [size] at hm; omega
      obtain ⟨path2, k2, v2, e2, le2, hp2, hsh2⟩ := ih path1 lk lv c1 l1 r1 inv2 hm1
      refine ⟨path2, k2, v2, ?_, ?_, hp2, hsh2⟩
      · simp only [successorLoop, e]
        exact e2
      · rw [le2, le1]
        simp [leftEntries, rightEntries, entries]

theorem PathRB_overwriteMarked (sk : K) (path : List (Frame K V)) :
    ∀ (c : color_t) (n : Nat), PathRB path c n → PathRB (overwriteMarked sk path) c n := by
  induction path with
  | nil => intro c n h; exact h
  | cons f fs ih =>
    intro c n h
    obtain ⟨h1, h2, h3, h4⟩ := h
    cases hm : f.mark
    · simp only [overwriteMarked, hm, Bool.false_eq_true, if_false]
      exact ⟨h1, h2, h3, ih _ _ h4⟩
    · simp only [overwriteMarked, hm, if_true]
      exact ⟨h1, h2, h3, h4⟩

/-- The assignment `x->key = s->key` seen in the in-order sequence: the pair of
`x` stands right before the position of the successor and gets its key. -/
theorem succPath_entries (xk sk : K) (path : List (Frame K V)) (h : SuccPath xk path) :
    ∃ A v, leftEntries path = A ++ [(xk, v)] ∧
      leftEntries (overwriteMarked sk path) = A ++ [(sk, v)] ∧
      rightEntries (overwriteMarked sk path) = rightEntries path := by
  induction path with
  | nil => exact absurd h (by simp [SuccPath])
  | cons f fs ih =>
    rcases h with ⟨h1, h2, h3⟩ | ⟨h1, h2, h3⟩
    · refine ⟨leftEntries fs ++ entries f.other, f.value, ?_, ?_, ?_⟩
      · simp [leftEntries, h2, h3]
      · simp [overwriteMarked, h1, leftEntries, h2]
      · simp [overwriteMarked, h1, rightEntries, h2]
    · obtain ⟨A, v, e1, e2, e3⟩ := ih h3
      refine ⟨A, v, ?_, ?_, ?_⟩
      · simp [leftEntries, h2, e1]
      · simp [overwriteMarked, h1, leftEntries, h2, e2]
      · simp [overwriteMarked, h1, rightEntries, h2, e3]

/-- The parent from which `remove` detaches the successor holds it on the side
that the comparison `s->key < p->key` names. -/
theorem succPath_head [LinearOrder K] (xk sk : K) (sv : V) (path : List (Frame K V))
    (h : SuccPath xk path)
    (hs : (leftEntries path ++ [(sk, sv)] ++ rightEntries path).Pairwise
      (fun a b => a.1 < b.1)) :
    ∃ p rest, overwriteMarked sk path = p :: rest ∧ decide (sk < p.key) = p.onLeft := by
  rcases path with _ | ⟨f, fs⟩
  · exact absurd h (by simp [SuccPath])
  · rcases h with ⟨h1, h2, h3⟩ | ⟨h1, h2, h3⟩
    · refine ⟨{ f with key := sk, mark := false }, fs, ?_, ?_⟩
      · simp only [overwriteMarked, h1, if_true]
      · simp [h2]
    · refine ⟨f, overwriteMarked sk fs, ?_, ?_⟩
      · simp only [overwriteMarked, h1, Bool.false_eq_true, if_false]
      · exact side_of_sorted f fs sk sv _ hs (by simp)

theorem unlink_eq [LinearOrder K] (p : Frame K V) (rest : List (Frame K V)) (k : K)
    (h : decide (k < p.key) = p.onLeft) :
    unlink (p :: rest) k = some (zipUp (p :: rest) .nil) := by
  simp only [unlink, h, if_true, zipUp]

/-- The part of `remove` after the search loop has found the key: the node is
detached when it has no child, and otherwise its in-order successor is detached
after its key has been copied into the node. -/
theorem remove_found_spec [LinearOrder K] (root : Node K V) (n : Nat) (a_key : K)
    (path : List (Frame K V)) (v : V) (c : color_t) (l r : Node K V)
    (hloop : removeLoop a_key (size root + 1) [] root = some ⟨path, .mk a_key v c l r, true⟩)
    (fi : FoundInv path a_key v c l r) :
    ∃ t, remove root n a_key = some (t, n - 1) ∧ RB t ∧ rootColor t = BLACK ∧
      ∃ e1 e2 w, leftEntries path ++ entries (Node.mk a_key v c l r) ++ rightEntries path =
          e1 ++ (a_key, w) :: e2 ∧
        (entries t = e1 ++ e2 ∨
          ∃ sk sv e3, e2 = (sk, sv) :: e3 ∧ entries t = e1 ++ (sk, w) :: e3) := by
  obtain ⟨hs, hrx, hrp, hleaf, hright⟩ := fi
  by_cases hnull : isNull l = true ∨ isNull r = true
  · -- the node has no child
    obtain ⟨rfl, rfl, hc⟩ := hleaf hnull
    rcases path with _ | ⟨p, rest⟩
    · refine ⟨.nil, ?_, trivial, rfl, [], [], v, by simp [leftEntries, rightEntries, entries],
        Or.inl (by simp [entries])⟩
      simp [remove, hloop, isNull, setColor]
    · have hc1 : c = RED := by
        rcases hc with h | h
        · exact h
        · cases h
      subst hc1
      have hside := side_of_sorted p rest a_key v _ hs (mem_entries_root ..)
      have hrp1 : PathRB (p :: rest) BLACK 1 := by
        have := PathRB_weaken _ _ _ hrp
        simpa [black_node_height] using this
      refine ⟨setColor BLACK (zipUp (p :: rest) .nil), ?_,
        RB_setColor_black _ (RB_zipUp _ _ trivial hrp1), rootColor_setColor_black _,
        leftEntries (p :: rest), rightEntries (p :: rest), v, by simp [entries], Or.inl ?_⟩
      · simp [remove, hloop, isNull, unlink_eq p rest a_key hside]
      · rw [entries_setColor, entries_zipUp]
        simp [entries]
  · -- the node has two children
    rcases l with _ | ⟨lk, lv, lc, ll, lr⟩
    · exact absurd (Or.inl rfl) hnull
    rcases r with _ | ⟨rk, rv, rc, rl, rr⟩
    · exact absurd (Or.inr rfl) hnull
    have inv1 := (remDescend path a_key v c (.mk lk lv lc ll lr) (.mk rk rv rc rl rr) true
      hs hrx hrp).2 hright
    obtain ⟨path1, c1, l1, r1, e1, le1, rb1, rp1, s1, hD, hS, -, hstep⟩ :=
      remove_rebalance_spec _ rk rv rc rl rr false inv1
    simp only [dirChild, otherChild, if_false, Bool.false_eq_true, Bool.not_false] at s1 hD hS hstep
    subst s1
    have hs1 : (leftEntries path1 ++ entries (Node.mk rk rv c1 l1 r1) ++
        rightEntries path1).Pairwise (fun a b => a.1 < b.1) := by
      rw [le1]; exact inv1.sorted
    have hshape1 : SuccPath a_key path1 :=
      succPath_step a_key _ path1 hstep (Or.inl ⟨rfl, rfl, rfl⟩)
    have inv2 : SuccInv a_key path1 rk rv c1 l1 r1 :=
      ⟨hs1, rb1, rp1, hD, fun h => (hS h).2, hshape1⟩
    obtain ⟨path2, k2, v2, e2, le2, hp2, hsh2⟩ :=
      successorLoop_spec a_key (size (Node.mk rk rv rc l1 rr) + 1) path1 rk rv c1 l1 r1 inv2
        (by simp only [size]; omega)
    have hs2 : (leftEntries path2 ++ [(k2, v2)] ++ rightEntries path2).Pairwise
        (fun a b => a.1 < b.1) := by
      rw [le2]; exact hs1
    obtain ⟨p, rest, hov, hside⟩ := succPath_head a_key k2 v2 path2 hsh2 hs2
    obtain ⟨A, w, ea, eb, ec⟩ := succPath_entries a_key k2 path2 hsh2
    have hrp2 : PathRB (overwriteMarked k2 path2) BLACK 1 :=
      PathRB_weaken _ _ _ (PathRB_overwriteMarked k2 path2 _ _ hp2)
    refine ⟨setColor BLACK (zipUp (overwriteMarked k2 path2) .nil), ?_,
      RB_setColor_black _ (RB_zipUp _ _ trivial hrp2), rootColor_setColor_black _,
      A, (k2, v2) :: rightEntries path2, w, ?_, Or.inr ⟨k2, v2, rightEntries path2, rfl, ?_⟩⟩
    · simp only [remove, hloop, isNull, Bool.false_eq_true, or_self, if_false, e1, e2]
      rw [hov, unlink_eq p rest k2 hside]
    · have h1 : leftEntries path ++ entries (Node.mk a_key v c (Node.mk lk lv lc ll lr)
          (Node.mk rk rv rc l1 rr)) ++ rightEntries path =
          leftEntries path2 ++ [(k2, v2)] ++ rightEntries path2 := by
        rw [le2, le1]
        simp [leftEntries, rightEntries, entries]
      rw [h1, ea]
      simp
    · rw [entries_setColor, entries_zipUp, eb, ec]
      simp [entries]

/-- The body of `remove` on an ordered tree that satisfies the red-black
conditions. -/
theorem rbt_remove_spec [LinearOrder K] (root : Node K V) (n : Nat) (a_key : K)
    (hs : (entries root).Pairwise (fun a b => a.1 < b.1)) (hrb : RB root) :
    (a_key ∉ keys root →
      ∃ t, remove root n a_key = some (t, n) ∧ RB t ∧ entries t = entries root) ∧
    (a_key ∈ keys root →
      ∃ t, remove root n a_key = some (t, n - 1) ∧ RB t ∧ rootColor t = BLACK ∧
        ∃ e1 e2 w, entries root = e1 ++ (a_key, w) :: e2 ∧
          (entries t = e1 ++ e2 ∨
            ∃ sk sv e3, e2 = (sk, sv) :: e3 ∧ entries t = e1 ++ (sk, w) :: e3)) := by
  have inv0 : RemInv [] root :=
    ⟨by simpa [leftEntries, rightEntries] using hs, hrb, trivial, fun _ _ => Or.inl rfl⟩
  obtain ⟨⟨lp, lx, lf⟩, e, le, hnf, hf⟩ :=
    removeLoop_spec a_key (size root + 1) [] root inv0 (Nat.lt_succ_self _)
  simp only [leftEntries, rightEntries, List.nil_append, List.append_nil] at le
  constructor
  · intro h
    obtain ⟨h1, h2, h3⟩ := hnf h
    simp only at h1 h2 h3
    subst h1 h2
    refine ⟨zipUp lp .nil, ?_, RB_zipUp _ _ trivial h3, ?_⟩
    · simp only [remove, e]
    · rw [entries_zipUp, le]
  · intro h
    obtain ⟨h1, v, c1, l1, r1, h2, fi⟩ := hf h
    simp only at h1 h2 fi
    subst h1 h2
    obtain ⟨t, e1, rb, rc, x1, x2, w, hx, hor⟩ :=
      remove_found_spec root n a_key lp v c1 l1 r1 e fi
    exact ⟨t, e1, rb, rc, x1, x2, w, by rw [← le]; exact hx, hor⟩

/-- `find` on a stored key of an ordered tree returns its value. -/
theorem rbt_find_of_mem [LinearOrder K] (k : K) (v d : V) :
    ∀ t : Node K V, (entries t).Pairwise (fun a b => a.1 < b.1) → (k, v) ∈ entries t →
      find t k d = (true, v) := by
  intro t
  induction t with
  | nil => intro _ h; simp [entries] at h
  | mk key value h l r ihl ihr =>
    intro hs hm
    obtain ⟨h1, h2, h3, h4⟩ := sorted_mk hs
    simp only [entries, List.mem_append, List.mem_cons, Prod.mk.injEq] at hm
    rcases hm with hm | ⟨rfl, rfl⟩ | hm
    · have hlt : k < key := h1 _ hm
      simp only [find, if_neg (ne_of_gt hlt), if_pos hlt]
      exact ihl h3 hm
    · simp [find]
    · have hlt : key < k := h2 _ hm
      simp only [find, if_neg (ne_of_lt hlt), if_neg (not_lt_of_gt hlt)]
      exact ihr h4 hm

/-- `find` on a key that is not stored returns false and leaves the output
parameter as it was. -/
theorem rbt_find_of_not_mem [LinearOrder K] (k : K) (d : V) :
    ∀ t : Node K V, (∀ e ∈ entries t, e.1 ≠ k) → find t k d = (false, d) := by
  intro t
  induction t with
  | nil => intro _; rfl
  | mk key value h l r ihl ihr =>
    intro hn
    have h0 : key ≠ k := hn (key, value) (by simp [entries])
    have hl := ihl (fun e he => hn e (by simp [entries, he]))
    have hr := ihr (fun e he => hn e (by simp [entries, he]))
    simp only [find, if_neg h0]
    split
    · exact hl
    · exact hr

theorem rbt_mem_keys_iff (t : Node K V) (k : K) :
    k ∈ keys t ↔ ∃ v, (k, v) ∈ entries t := by
  rw [rbt_keys_eq_map_entries]
  simp only [List.mem_map, Prod.exists, exists_and_right, exists_eq_right]

/-- The result of `find` on an ordered tree, read off the in-order sequence. -/
theorem rbt_find_iff [LinearOrder K] (t : Node K V) (ho : Ordered t) (k : K) (d : V) :
    ((find t k d).1 = true ↔ k ∈ keys t) ∧ ((find t k d).1 = false → (find t k d).2 = d) := by
  have hs := (ordered_iff t).mp ho
  by_cases hk : k ∈ keys t
  · obtain ⟨v, hv⟩ := (rbt_mem_keys_iff t k).mp hk
    rw [rbt_find_of_mem k v d t hs hv]
    simp [hk]
  · have hn : ∀ e ∈ entries t, e.1 ≠ k := by
      intro e he h
      exact hk ((rbt_mem_keys_iff t k).mpr ⟨e.2, by rw [← h]; exact he⟩)
    rw [rbt_find_of_not_mem k d t hn]
    simp [hk]

/-- The pre-order sequence holds the same keys as the in-order sequence. -/
theorem rbt_perm_preorder (t : Node K V) : (preorder t).Perm (keys t) := by
  induction t with
  | nil => exact List.Perm.refl _
  | mk k v h l r ihl ihr =>
    simp only [preorder, keys]
    exact ((ihl.append ihr).cons k).trans List.perm_middle.symm

theorem rbt_filter_preorder_nil (t : Node K V) (p : K → Bool) (h : ∀ k ∈ keys t, p k = false) :
    (preorder t).filter p = [] := by
  rw [List.filter_eq_nil_iff]
  intro k hk
  rw [h k ((rbt_perm_preorder t).mem_iff.mp hk)]
  simp

/-- The helper of the range lookup on an ordered tree appends the keys of the
range in pre-order: the subtrees that it does not visit hold no key of the
range. -/
theorem rbt_findRange_preorder [LinearOrder K] (k1 k2 : K) :
    ∀ (t : Node K V) (out : List K), Ordered t →
      findRange t k1 k2 out =
        out ++ (preorder t).filter (fun k => decide (k1 ≤ k ∧ k ≤ k2)) := by
  intro t
  induction t with
  | nil => intro out _; simp [findRange, preorder]
  | mk key v h l r ihl ihr =>
    intro out ho
    have ho1 : (keys l ++ key :: keys r).Pairwise (· < ·) := ho
    rw [List.pairwise_append, List.pairwise_cons] at ho1
    obtain ⟨hol, ⟨hr1, hor⟩, hl1⟩ := ho1
    have hl2 : ∀ k ∈ keys l, k < key := fun k hk => hl1 k hk key (by simp)
    by_cases c1 : k1 > key
    · -- the node and its left subtree lie below the range
      have hnl := rbt_filter_preorder_nil l (fun k => decide (k1 ≤ k ∧ k ≤ k2)) (by
        intro k hk
        have := lt_trans (hl2 k hk) c1
        simp [not_le_of_gt this])
      simp only [findRange, if_pos c1, preorder, List.filter_cons, List.filter_append, hnl]
      rw [ihr out hor]
      simp [not_le_of_gt c1]
    · by_cases c2 : k1 ≤ key ∧ key ≤ k2
      · -- the node lies in the range
        simp only [findRange, if_neg c1, if_pos c2, preorder, List.filter_cons,
          List.filter_append]
        rw [ihl _ hol, ihr _ hor]
        simp [c2]
      · -- the node and its right subtree lie above the range
        have c3 : k2 < key := by
          have h1 : k1 ≤ key := not_lt.mp c1
          exact not_le.mp (fun h => c2 ⟨h1, h⟩)
        have hnr := rbt_filter_preorder_nil r (fun k => decide (k1 ≤ k ∧ k ≤ k2)) (by
          intro k hk
          have := lt_trans c3 (hr1 k hk)
          simp [not_le_of_gt this])
        simp only [findRange, if_neg c1, if_neg c2, if_pos c3, preorder, List.filter_cons,
          List.filter_append, hnr]
        rw [ihl out hol]
        simp [not_le_of_gt c3]

/-- The keys that the range lookup appends are, up to their order, the stored
keys of the range. -/
theorem rbt_findRange_perm [LinearOrder K] (t : Node K V) (ho : Ordered t) (k1 k2 : K)
    (out : List K) :
    ∃ app, findRange t k1 k2 out = out ++ app ∧
      app.Perm ((keys t).filter (fun k => decide (k1 ≤ k ∧ k ≤ k2))) ∧ app.Nodup :=
  have hp := (rbt_perm_preorder t).filter (fun k => decide (k1 ≤ k ∧ k ≤ k2))
  have hnd : (keys t).Nodup := List.Pairwise.imp ne_of_lt ho
  ⟨_, rbt_findRange_preorder k1 k2 t out ho, hp, hp.nodup_iff.mpr (hnd.filter _)⟩

/-- The public `remove` of a stored key on a valid, ordered collection. -/
theorem collection_remove_spec [LinearOrder K] (c : RBTCollection K V) (ho : Ordered c.root)
    (hv : c.valid_rbt = true) (k : K) (hk : k ∈ c.keys) :
    ∃ c1, c.remove k = some c1 ∧ c1.valid_rbt = true ∧ Ordered c1.root ∧
      c1.node_count = c.node_count - 1 ∧
      ∃ l1 l2, c.keys = l1 ++ k :: l2 ∧ c1.keys = l1 ++ l2 := by
  obtain ⟨hrb, -⟩ := (collection_valid_iff c).mp hv
  obtain ⟨t, e, rb1, rc1, e1, e2, w, h1, h2⟩ :=
    (rbt_remove_spec c.root c.node_count k ((ordered_iff _).mp ho) hrb).2 hk
  have hkeys : keys c.root = e1.map Prod.fst ++ k :: e2.map Prod.fst := by
    rw [rbt_keys_eq_map_entries, h1, List.map_append, List.map_cons]
  have hkeys1 : keys t = e1.map Prod.fst ++ e2.map Prod.fst := by
    rw [rbt_keys_eq_map_entries]
    rcases h2 with h2 | ⟨sk, sv, e3, rfl, h2⟩
    · rw [h2, List.map_append]
    · rw [h2, List.map_append, List.map_cons, List.map_cons]
  refine ⟨⟨t, c.node_count - 1⟩, ?_, (collection_valid_iff _).mpr ⟨rb1, rc1⟩, ?_, rfl,
    e1.map Prod.fst, e2.map Prod.fst, hkeys, hkeys1⟩
  · simp only [RBTCollection.remove, e]
  · show (keys t).Pairwise (· < ·)
    have ho1 : (keys c.root).Pairwise (· < ·) := ho
    rw [hkeys] at ho1
    rw [hkeys1]
    exact ho1.sublist (List.Sublist.append_left (List.sublist_cons_self _ _) _)

/-- The public `add` of a new key keeps the tree ordered. -/
theorem collection_add_ordered [LinearOrder K] (c : RBTCollection K V) (ho : Ordered c.root)
    (hv : c.valid_rbt = true) (k : K) (v : V) (hk : k ∉ c.keys) :
    ∃ c1, c.add k v = some c1 ∧ c1.valid_rbt = true ∧ Ordered c1.root ∧
      c1.node_count = c.node_count + 1 ∧
      ∃ e1 e2, entries c.root = e1 ++ e2 ∧ entries c1.root = e1 ++ (k, v) :: e2 := by
  obtain ⟨c1, e, hv1, hn, e1, e2, h1, h2, h3, h4⟩ := collection_add_spec c ho hv k v hk
  refine ⟨c1, e, hv1, ?_, hn, e1, e2, h1, h2⟩
  rw [ordered_iff, h2]
  have hs := (ordered_iff _).mp ho
  rw [h1] at hs
  simpa using sorted_insert e1 e2 k v hs h3 h4

/-- After `add(k, v)` of a new key on a valid, ordered collection, `find(k)`
returns `v` and `find` of every other key returns what it returned before. -/
theorem rbt_add_then_find [LinearOrder K] (c : RBTCollection K V) (ho : Ordered c.root)
    (hv : c.valid_rbt = true) (k : K) (v : V) (hk : k ∉ c.keys) (d : V) :
    ∃ c1, c.add k v = some c1 ∧ c1.find k d = (true, v) ∧
      ∀ k1, k1 ≠ k → c1.find k1 d = c.find k1 d := by
  obtain ⟨c1, e, -, ho1, -, e1, e2, d1, d2⟩ := collection_add_ordered c ho hv k v hk
  have hs := (ordered_iff _).mp ho
  have hs1 := (ordered_iff _).mp ho1
  refine ⟨c1, e, ?_, ?_⟩
  · exact rbt_find_of_mem k v d c1.root hs1 (by rw [d2]; simp)
  · intro k1 hne
    show find c1.root k1 d = find c.root k1 d
    by_cases hm : ∃ v1, (k1, v1) ∈ entries c.root
    · obtain ⟨v1, hv1⟩ := hm
      have hv2 : (k1, v1) ∈ entries c1.root := by
        rw [d1] at hv1
        rw [d2]
        simp only [List.mem_append, List.mem_cons] at hv1 ⊢
        rcases hv1 with h | h
        · exact Or.inl h
        · exact Or.inr (Or.inr h)
      rw [rbt_find_of_mem k1 v1 d _ hs hv1, rbt_find_of_mem k1 v1 d _ hs1 hv2]
    · have hn : ∀ e ∈ entries c.root, e.1 ≠ k1 := by
        intro e he h
        exact hm ⟨e.2, by rw [← h]; exact he⟩
      have hn1 : ∀ e ∈ entries c1.root, e.1 ≠ k1 := by
        intro e he
        rw [d2] at he
        simp only [List.mem_append, List.mem_cons] at he
        rcases he with h | rfl | h
        · exact hn e (by rw [d1]; simp [h])
        · exact fun h => hne h.symm
        · exact hn e (by rw [d1]; simp [h])
      rw [rbt_find_of_not_mem k1 d _ hn, rbt_find_of_not_mem k1 d _ hn1]

theorem rbt_run_append [LinearOrder K] (ops1 ops2 : List (Op K V)) :
    ∀ c : RBTCollection K V,
      run c (ops1 ++ ops2) = (run c ops1).bind (fun c1 => run c1 ops2) := by
  induction ops1 with
  | nil => intro c; rfl
  | cons op ops ih =>
    intro c
    simp only [List.cons_append, run]
    cases h : op.apply c with
    | none => rfl
    | some c1 => exact ih c1

/-- A run of `add` calls with pairwise distinct keys that are not stored. -/
theorem rbt_run_adds [LinearOrder K] (kvs : List (K × V)) :
    ∀ c : RBTCollection K V, Ordered c.root → c.valid_rbt = true →
      c.node_count = (keys c.root).length → (kvs.map Prod.fst).Nodup →
      (∀ k ∈ kvs.map Prod.fst, k ∉ c.keys) →
      ∃ c1, run c (kvs.map (fun kv => Op.add kv.1 kv.2)) = some c1 ∧
        Ordered c1.root ∧ c1.valid_rbt = true ∧ c1.node_count = (keys c1.root).length ∧
        ∀ x, x ∈ c1.keys ↔ x ∈ c.keys ∨ x ∈ kvs.map Prod.fst := by
  induction kvs with
  | nil => intro c ho hv hn _ _; exact ⟨c, rfl, ho, hv, hn, by simp⟩
  | cons kv kvs ih =>
    intro c ho hv hn hnd hnew
    simp only [List.map_cons, List.nodup_cons] at hnd
    have hk : kv.1 ∉ c.keys := hnew kv.1 (by simp)
    obtain ⟨c1, e, hv1, ho1, hn1, e1, e2, d1, d2⟩ := collection_add_ordered c ho hv kv.1 kv.2 hk
    have hkeys : ∀ x, x ∈ c1.keys ↔ x ∈ c.keys ∨ x = kv.1 := by
      intro x
      show x ∈ keys c1.root ↔ x ∈ keys c.root ∨ x = kv.1
      rw [rbt_keys_eq_map_entries, rbt_keys_eq_map_entries, d1, d2]
      simp only [List.map_append, List.map_cons, List.mem_append, List.mem_cons]
      tauto
    have hlen : c1.node_count = (keys c1.root).length := by
      rw [hn1, hn, rbt_keys_eq_map_entries, rbt_keys_eq_map_entries, d1, d2]
      simp only [List.map_append, List.map_cons, List.length_append, List.length_cons,
        List.length_map]
      omega
    obtain ⟨c2, e2, ho2, hv2, hn2, hk2⟩ := ih c1 ho1 hv1 hlen hnd.2 (by
      intro k hkm hin
      rcases (hkeys k).mp hin with h | h
      · exact hnew k (by simp only [List.map_cons, List.mem_cons]; exact Or.inr hkm) h
      · exact hnd.1 (h ▸ hkm))
    refine ⟨c2, ?_, ho2, hv2, hn2, ?_⟩
    · simp only [List.map_cons, run, Op.apply, e]
      exact e2
    · intro x
      rw [hk2 x, hkeys x]
      simp only [List.map_cons, List.mem_cons]
      tauto

/-- A run of `remove` calls with pairwise distinct stored keys. -/
theorem rbt_run_removes [LinearOrder K] (rs : List K) :
    ∀ c : RBTCollection K V, Ordered c.root → c.valid_rbt = true →
      c.node_count = (keys c.root).length → rs.Nodup → (∀ k ∈ rs, k ∈ c.keys) →
      ∃ c1, run c (rs.map Op.remove) = some c1 ∧
        Ordered c1.root ∧ c1.valid_rbt = true ∧ c1.node_count = (keys c1.root).length ∧
        ∀ x, x ∈ c1.keys ↔ x ∈ c.keys ∧ x ∉ rs := by
  induction rs with
  | nil => intro c ho hv hn _ _; exact ⟨c, rfl, ho, hv, hn, by simp⟩
  | cons k rs ih =>
    intro c ho hv hn hnd hin
    rw [List.nodup_cons] at hnd
    obtain ⟨c1, e, hv1, ho1, hn1, l1, l2, d1, d2⟩ :=
      collection_remove_spec c ho hv k (hin k (by simp))
    have hnd0 : (l1 ++ k :: l2).Nodup := by
      have h0 : (keys c.root).Pairwise (· < ·) := ho
      have : (keys c.root).Nodup := h0.imp ne_of_lt
      rw [← d1]; exact this
    have hkeys : ∀ x, x ∈ c1.keys ↔ x ∈ c.keys ∧ x ≠ k := by
      intro x
      rw [d1, d2]
      have hk1 : k ∉ l1 ++ l2 := by
        have := (List.nodup_middle.mp hnd0)
        exact (List.nodup_cons.mp this).1
      simp only [List.mem_append, List.mem_cons] at hk1 ⊢
      constructor
      · intro h
        refine ⟨by tauto, ?_⟩
        rintro rfl
        exact hk1 h
      · rintro ⟨h, hne⟩
        tauto
    have hlen : c1.node_count = (keys c1.root).length := by
      have h1 : keys c1.root = l1 ++ l2 := d2
      have h0 : keys c.root = l1 ++ k :: l2 := d1
      rw [hn1, hn, h0, h1]
      simp only [List.length_append, List.length_cons]
      omega
    obtain ⟨c2, e2, ho2, hv2, hn2, hk2⟩ := ih c1 ho1 hv1 hlen hnd.2 (by
      intro x hx
      refine (hkeys x).mpr ⟨hin x (by simp [hx]), ?_⟩
      rintro rfl
      exact hnd.1 hx)
    refine ⟨c2, ?_, ho2, hv2, hn2, ?_⟩
    · simp only [List.map_cons, run, Op.apply, e]
      exact e2
    · intro x
      rw [hk2 x, hkeys x]
      simp only [List.mem_cons]
      tauto

theorem rbt_eq_nil_of_keys (t : Node K V) (h : keys t = []) : t = .nil := by
  cases t with
  | nil => rfl
  | mk k v c l r => simp [keys] at h

/-- A subtree that satisfies the red-black conditions has at least
`2 ^ (bh - 1) - 1` nodes, where `bh` is the value of `black_node_height`. -/
theorem pow_bh_le_size (t : Node K V) (h : RB t) :
    2 ^ black_node_height t ≤ 2 * (size t + 1) := by
  induction t with
  | nil => simp [black_node_height, size]
  | mk k v c l r ihl ihr =>
    obtain ⟨hb, -, hl, hr⟩ := h
    have il := ihl hl
    have ir := ihr hr
    rw [bh_mk k v c l r hb]
    simp only [size]
    rw [← hb] at ir
    cases c
    · simp only [reduceCtorEq, if_false]
      omega
    · simp only [if_true]
      rw [pow_succ]
      omega

/-- The height of a subtree that satisfies the red-black conditions is at most
twice its black height, counted without the absent child at the end of a
path. -/
theorem height_le_bh (t : Node K V) (h : RB t) :
    height t + 2 ≤ 2 * black_node_height t + (if rootColor t = RED then 1 else 0) := by
  induction t with
  | nil => simp [black_node_height, height, rootColor]
  | mk k v c l r ihl ihr =>
    obtain ⟨hb, hc, hl, hr⟩ := h
    have il := ihl hl
    have ir := ihr hr
    rw [bh_mk k v c l r hb]
    simp only [height, rootColor_mk]
    rw [← hb] at ir
    cases c
    · obtain ⟨c1, c2⟩ := hc rfl
      simp only [c1, c2, if_false] at il ir
      simp only [reduceCtorEq, if_false, if_true]
      omega
    · simp only [if_true, reduceCtorEq, if_false]
      split at il <;> split at ir <;> omega

/-- The height bound of a red-black tree with a BLACK root. -/
theorem pow_height_le (t : Node K V) (h : RB t) (hc : rootColor t = BLACK) :
    2 ^ height t ≤ (size t + 1) ^ 2 := by
  have h1 := pow_bh_le_size t h
  have h2 := height_le_bh t h
  simp only [hc, reduceCtorEq, if_false, Nat.add_zero] at h2
  have h3 : 2 ^ (height t + 2) ≤ 2 ^ (2 * black_node_height t) :=
    Nat.pow_le_pow_right (by decide) h2
  have h4 : 2 ^ (2 * black_node_height t) = (2 ^ black_node_height t) ^ 2 := by
    rw [mul_comm, pow_mul]
  have h5 : (2 ^ black_node_height t) ^ 2 ≤ (2 * (size t + 1)) ^ 2 :=
    Nat.pow_le_pow_left h1 2
  have h6 : 2 ^ (height t + 2) = 4 * 2 ^ height t := by
    rw [pow_add]; ring
  have h7 : (2 * (size t + 1)) ^ 2 = 4 * (size t + 1) ^ 2 := by ring
  rw [h4] at h3
  rw [h6] at h3
  rw [h7] at h5
  have := le_trans h3 h5
  omega

theorem blackCounts_ne_nil (t : Node K V) : ∃ a, a ∈ blackCounts t := by
  induction t with
  | nil => exact ⟨0, by simp [blackCounts]⟩
  | mk k v c l r ihl _ =>
    obtain ⟨a, ha⟩ := ihl
    exact ⟨_, by
      simp only [blackCounts, List.mem_map, List.mem_append]
      exact ⟨a, Or.inl ha, rfl⟩⟩

/-- On a subtree that satisfies the conditions checked by `valid_rbt`, the
number of BLACK nodes on every path is `black_node_height` minus the 1 that it
counts for the absent child. -/
theorem blackCounts_of_RB (t : Node K V) (h : RB t) :
    NoRedRed t ∧ ∀ a ∈ blackCounts t, a + 1 = black_node_height t := by
  induction t with
  | nil => simp [NoRedRed, blackCounts, black_node_height]
  | mk k v c l r ihl ihr =>
    obtain ⟨hb, hc, hl, hr⟩ := h
    obtain ⟨nl, cl⟩ := ihl hl
    obtain ⟨nr, cr⟩ := ihr hr
    refine ⟨⟨hc, nl, nr⟩, ?_⟩
    intro a ha
    simp only [blackCounts, List.mem_map, List.mem_append] at ha
    obtain ⟨b, hb1, rfl⟩ := ha
    have hb2 : b + 1 = black_node_height l := by
      rcases hb1 with hb1 | hb1
      · exact cl b hb1
      · rw [hb]; exact cr b hb1
    rw [bh_mk k v c l r hb]
    split <;> omega

/-- Equal numbers of BLACK nodes on all paths and no RED node with a RED child
are what `valid_rbt(subtree_root)` checks. -/
theorem RB_of_blackCounts (t : Node K V) (hn : NoRedRed t) (he : EqualBlackCounts t) :
    RB t ∧ ∀ a ∈ blackCounts t, a + 1 = black_node_height t := by
  induction t with
  | nil => simp [RB, blackCounts, black_node_height]
  | mk k v c l r ihl ihr =>
    obtain ⟨hc, nl, nr⟩ := hn
    have hmem : ∀ a, a ∈ blackCounts l ∨ a ∈ blackCounts r →
        (if c = BLACK then a + 1 else a) ∈ blackCounts (Node.mk k v c l r) := by
      intro a ha
      simp only [blackCounts, List.mem_map, List.mem_append]
      exact ⟨a, ha, rfl⟩
    have hall : ∀ a, a ∈ blackCounts l ∨ a ∈ blackCounts r →
        ∀ b, b ∈ blackCounts l ∨ b ∈ blackCounts r → a = b := by
      intro a ha b hb
      have := he _ (hmem a ha) _ (hmem b hb)
      split at this <;> omega
    obtain ⟨rl, cl⟩ := ihl nl (fun a ha b hb => hall a (Or.inl ha) b (Or.inl hb))
    obtain ⟨rr, cr⟩ := ihr nr (fun a ha b hb => hall a (Or.inr ha) b (Or.inr hb))
    obtain ⟨a0, ha0⟩ := blackCounts_ne_nil l
    obtain ⟨b0, hb0⟩ := blackCounts_ne_nil r
    have hbh : black_node_height l = black_node_height r := by
      have := hall a0 (Or.inl ha0) b0 (Or.inr hb0)
      have h1 := cl a0 ha0
      have h2 := cr b0 hb0
      omega
    refine ⟨⟨hbh, hc, rl, rr⟩, ?_⟩
    intro a ha
    simp only [blackCounts, List.mem_map, List.mem_append] at ha
    obtain ⟨b, hb1, rfl⟩ := ha
    have hb2 : b + 1 = black_node_height l := by
      rcases hb1 with hb1 | hb1
      · exact cl b hb1
      · rw [hbh]; exact cr b hb1
    rw [bh_mk k v c l r hbh]
    split <;> omega

theorem RB_iff_blackCounts (t : Node K V) : RB t ↔ NoRedRed t ∧ EqualBlackCounts t := by
  constructor
  · intro h
    obtain ⟨h1, h2⟩ := blackCounts_of_RB t h
    refine ⟨h1, fun a ha b hb => ?_⟩
    have := h2 a ha
    have := h2 b hb
    omega
  · rintro ⟨h1, h2⟩
    exact (RB_of_blackCounts t h1 h2).1

end RBT

namespace AL
variable {T : Type}

/-- The copy loop of `resize` returns when the indices lie inside both arrays:
the first `n` slots of the new array hold the first `n` slots of `items`, the
other slots are as before. -/
theorem copyLoop_spec (items : List (Option T)) :
    ∀ (n : Nat) (newArr : List (Option T)), n ≤ items.length → n ≤ newArr.length →
      ∃ arr, ArrayList.copyLoop items n newArr = some arr ∧ arr.length = newArr.length ∧
        (∀ i, i < n → arr[i]? = items[i]?) ∧ (∀ i, n ≤ i → arr[i]? = newArr[i]?) := by
  intro n
  induction n with
  | zero =>
    intro newArr _ _
    exact ⟨newArr, rfl, rfl, fun i hi => absurd hi (Nat.not_lt_zero i), fun _ _ => rfl⟩
  | succ i ih =>
    intro newArr h1 h2
    obtain ⟨arr, e, hl, hlo, hhi⟩ := ih newArr (by omega) (by omega)
    have hi1 : i < items.length := by omega
    have hi2 : i < arr.length := by omega
    refine ⟨arr.set i items[i], ?_, ?_, ?_, ?_⟩
    · simp only [ArrayList.copyLoop, e, List.getElem?_eq_getElem hi1, hi2, if_true]
    · rw [List.length_set, hl]
    · intro j hj
      by_cases hji : j = i
      · subst hji
        rw [List.getElem?_set_self hi2, List.getElem?_eq_getElem hi1]
      · rw [List.getElem?_set_ne (Ne.symm hji)]
        exact hlo j (by omega)
    · intro j hj
      rw [List.getElem?_set_ne (by omega)]
      exact hhi j (by omega)

/-- The method `add` on a list that satisfies the representation invariant. -/
theorem array_add_spec (a : ArrayList T) (hw : WF a) (x : T) :
    ∃ a1, a.add x = some a1 ∧ a1.length = a.length + 1 ∧
      a1.items[a.length]? = some (some x) ∧
      (∀ i, i < a.length → a1.items[i]? = a.items[i]?) ∧ WF a1 ∧
      a1.capacity = (if a.capacity = a.length then a.capacity * 2 else a.capacity) := by
  obtain ⟨w1, w2, w3, w4⟩ := hw
  by_cases hc : a.capacity = a.length
  · -- the array is full: its capacity is doubled
    obtain ⟨arr, e, hl, hlo, hhi⟩ := copyLoop_spec a.items a.length
      (List.replicate (a.capacity * 2) none) (by omega) (by simp; omega)
    have hlen : arr.length = a.capacity * 2 := by rw [hl]; simp
    have hlt : a.length < arr.length := by omega
    refine ⟨⟨arr.set a.length (some x), a.capacity * 2, a.length + 1⟩, ?_, rfl, ?_, ?_, ?_, ?_⟩
    · simp only [ArrayList.add, if_pos hc, ArrayList.resize, e, hlt, if_true]
    · exact List.getElem?_set_self hlt
    · intro i hi
      show (arr.set a.length (some x))[i]? = a.items[i]?
      rw [List.getElem?_set_ne (by omega)]
      exact hlo i hi
    · refine ⟨by simp [hlen], by simp; omega, by simp; omega, ?_⟩
      intro i hi
      show ∃ y, (arr.set a.length (some x))[i]? = some (some y)
      by_cases hia : i = a.length
      · subst hia
        exact ⟨x, List.getElem?_set_self hlt⟩
      · rw [List.getElem?_set_ne (Ne.symm hia), hlo i (by simp at hi; omega)]
        exact w4 i (by simp at hi; omega)
    · simp [hc]
  · -- there is room in the array
    have hlt : a.length < a.items.length := by omega
    refine ⟨⟨a.items.set a.length (some x), a.capacity, a.length + 1⟩, ?_, rfl, ?_, ?_, ?_, ?_⟩
    · simp only [ArrayList.add, if_neg hc, hlt, if_true]
    · exact List.getElem?_set_self hlt
    · intro i hi
      show (a.items.set a.length (some x))[i]? = a.items[i]?
      rw [List.getElem?_set_ne (by omega)]
    · refine ⟨by simp [w1], w2, by simp; omega, ?_⟩
      intro i hi
      show ∃ y, (a.items.set a.length (some x))[i]? = some (some y)
      by_cases hia : i = a.length
      · subst hia
        exact ⟨x, List.getElem?_set_self hlt⟩
      · rw [List.getElem?_set_ne (Ne.symm hia)]
        exact w4 i (by simp at hi; omega)
    · simp [hc]

end AL

namespace AVL

variable {K V : Type}

/-! ## Claims about the AVL engine -/

/-- Claim C1 (AVL balance invariant).  Every finite sequence of `add` and `remove`
calls applied to an empty `AVLCollection` runs to completion, and in the tree it
leaves every node has subtrees whose heights differ by at most one.  The
sequence is arbitrary (keys may repeat), and every prefix of a sequence is a
sequence, so the property holds after each operation. -/
theorem C1_avl_balance_invariant [LinearOrder K] (ops : List (Op K V)) :
    ∃ c, run (AVLCollection.empty : AVLCollection K V) ops = some c ∧ Balanced c.root := by
  obtain ⟨c, e, hb, -⟩ := run_inv ops (AVLCollection.empty : AVLCollection K V) trivial trivial
  exact ⟨c, e, hb⟩

/-- Claim C5 (failing input).  Adding the key 1 twice to an empty `AVLCollection`
stores it twice: `keys()` yields `[1, 1]`, which is not strictly ascending. -/
theorem C5_avl_duplicate_add_not_strictly_ascending :
    ∃ c, run (AVLCollection.empty : AVLCollection Nat Nat) [.add 1 0, .add 1 1] = some c ∧
      c.keys = [1, 1] ∧ ¬ c.keys.Pairwise (· < ·) :=
  ⟨_, rfl, rfl, by decide⟩

/-- Claim C6 (failing input).  On the collection built by `add(1, 0)`, `add(1, 1)`
the call `add(1, 2)` with the stored key 1 is not a no-op: `size()` grows from 2
to 3, `keys()` grows from `[1, 1]` to `[1, 1, 1]`, and `find(1)` returns the value
0 before the call and the value 1 after it. -/
theorem C6_avl_add_existing_key_not_noop :
    ∃ c c1, run (AVLCollection.empty : AVLCollection Nat Nat) [.add 1 0, .add 1 1] = some c ∧
      c.add 1 2 = some c1 ∧
      c.size = 2 ∧ c1.size = 3 ∧ c.keys = [1, 1] ∧ c1.keys = [1, 1, 1] ∧
      c.find 1 7 = (true, 0) ∧ c1.find 1 7 = (true, 1) :=
  ⟨_, _, rfl, rfl, rfl, rfl, rfl, rfl, rfl, rfl⟩

/-- Claim C8 (AVL insertion of a new key).  On a collection reached from the empty
one by adds of keys not stored and by removes, `add(k, v)` with a key `k` that is
not stored returns; afterwards `keys()` is the previous sequence with `k`
inserted between the keys smaller than `k` and the keys greater than `k`, and
`size()` has grown by exactly 1.  In particular adding 5, 3, 8, 1, 4 to an empty
collection gives `keys() = [1, 3, 4, 5, 8]` and `size() = 5`. -/
theorem C8_avl_add_new_key [LinearOrder K] (c : AVLCollection K V) (hc : Reachable c)
    (k : K) (v : V) (hk : k ∉ c.keys) :
    (∃ c1, c.add k v = some c1 ∧ c1.size = c.size + 1 ∧
      ∃ l1 l2, c.keys = l1 ++ l2 ∧ c1.keys = l1 ++ k :: l2 ∧
        (∀ x ∈ l1, x < k) ∧ (∀ x ∈ l2, k < x)) ∧
    (run (AVLCollection.empty : AVLCollection Nat String)
        [.add 5 "a", .add 3 "b", .add 8 "c", .add 1 "d", .add 4 "e"]).map
      (fun c => (c.keys, c.size)) = some ([1, 3, 4, 5, 8], 5) := by
  refine ⟨?_, by decide⟩
  obtain ⟨hb, ho, hs, hn⟩ := reachable_inv hc
  obtain ⟨t1, e, b1, o1, -, -, -, e1, e2, d1, d2, d3⟩ :=
    add_spec k v c.node_count c.root hb ho
  have hs0 : (keys c.root).Pairwise (· < ·) := hs
  obtain ⟨q1, q2⟩ := d3 (hs0.imp le_of_lt)
  refine ⟨⟨t1, c.node_count + 1⟩, ?_, rfl, e1.map Prod.fst, e2.map Prod.fst, ?_, ?_, ?_, ?_⟩
  · rw [AVLCollection.add_eq, e]
  · show keys c.root = _
    rw [keys_eq_map_entries, d1, List.map_append]
  · show keys t1 = _
    rw [keys_eq_map_entries, d2, List.map_append, List.map_cons]
  · intro x hx
    obtain ⟨y, hy, rfl⟩ := List.mem_map.mp hx
    refine lt_of_le_of_ne (q1 y hy) ?_
    intro h
    apply hk
    show k ∈ keys c.root
    rw [keys_eq_map_entries, d1, List.map_append, List.mem_append]
    exact Or.inl (h ▸ List.mem_map_of_mem _ hy)
  · intro x hx
    obtain ⟨y, hy, rfl⟩ := List.mem_map.mp hx
    exact q2 y hy

/-- A collection that satisfies the hypotheses of C8: the one built by adding
5, 3 and 8; the key 4 is added to it. -/
theorem C8_avl_add_new_key_witness :
    (∃ c1, (⟨.mk 5 0 2 (.mk 3 0 1 .nil .nil) (.mk 8 0 1 .nil .nil), 3⟩ :
        AVLCollection Nat Nat).add 4 0 = some c1 ∧
      c1.size = AVLCollection.size (⟨.mk 5 0 2 (.mk 3 0 1 .nil .nil) (.mk 8 0 1 .nil .nil), 3⟩ :
        AVLCollection Nat Nat) + 1 ∧
      ∃ l1 l2, AVLCollection.keys (⟨.mk 5 0 2 (.mk 3 0 1 .nil .nil) (.mk 8 0 1 .nil .nil), 3⟩ :
        AVLCollection Nat Nat) = l1 ++ l2 ∧ c1.keys = l1 ++ 4 :: l2 ∧
        (∀ x ∈ l1, x < 4) ∧ (∀ x ∈ l2, 4 < x)) :=
  (C8_avl_add_new_key
    (⟨.mk 5 0 2 (.mk 3 0 1 .nil .nil) (.mk 8 0 1 .nil .nil), 3⟩ : AVLCollection Nat Nat)
    (Reachable.add 8 0
      (Reachable.add 3 0
        (Reachable.add 5 0 Reachable.empty (by decide) rfl) (by decide) rfl) (by decide) rfl)
    4 0 (by decide)).1

/-- Claim C10 (AVL deletion of a stored key).  On a collection reached from the
empty one by adds of keys not stored and by removes, `remove(k)` of a stored key
returns; afterwards `keys()` is the previous sequence without `k`, the other keys
kept in the same order, and `size()` has decreased by exactly 1. -/
theorem C10_avl_remove_stored_key [LinearOrder K] (c : AVLCollection K V) (hc : Reachable c)
    (k : K) (hk : k ∈ c.keys) :
    ∃ c1, c.remove k = some c1 ∧ c1.keys = c.keys.filter (fun x => decide (x ≠ k)) ∧
      c1.size + 1 = c.size := by
  obtain ⟨hb, ho, hs, hn⟩ := reachable_inv hc
  obtain ⟨t1, n1, e, b1, o1, -, -, g3, -, g5⟩ := remove_spec c.root k c.node_count hb ho
  have hkeys : keys t1 = (keys c.root).filter (fun x => decide (x ≠ k)) := by
    rw [keys_eq_map_entries, g5 hs, keys_eq_map_entries, List.filter_map]
    rfl
  have hs0 : (keys c.root).Pairwise (· < ·) := hs
  have hnd : (keys c.root).Nodup := hs0.imp ne_of_lt
  have hlen : (keys t1).length + 1 = (keys c.root).length := by
    rw [hkeys]
    exact length_filter_ne_add_one k (keys c.root) hnd hk
  have hsz : size t1 + 1 = size c.root := by
    rw [size_eq_length_entries, size_eq_length_entries]
    simpa [keys_eq_map_entries] using hlen
  refine ⟨⟨t1, n1⟩, ?_, hkeys, ?_⟩
  · rw [AVLCollection.remove, e]
  · show n1 + 1 = c.node_count
    clear * - g3 hn hsz; omega

/-- A collection that satisfies the hypotheses of C10: the one built by adding
5, 3 and 8; its root key 5, whose node has two children, is removed. -/
theorem C10_avl_remove_stored_key_witness :
    ∃ c1, (⟨.mk 5 0 2 (.mk 3 0 1 .nil .nil) (.mk 8 0 1 .nil .nil), 3⟩ :
        AVLCollection Nat Nat).remove 5 = some c1 ∧
      c1.keys = (AVLCollection.keys (⟨.mk 5 0 2 (.mk 3 0 1 .nil .nil) (.mk 8 0 1 .nil .nil), 3⟩ :
        AVLCollection Nat Nat)).filter (fun x => decide (x ≠ 5)) ∧
      c1.size + 1 = AVLCollection.size
        (⟨.mk 5 0 2 (.mk 3 0 1 .nil .nil) (.mk 8 0 1 .nil .nil), 3⟩ : AVLCollection Nat Nat) :=
  C10_avl_remove_stored_key
    (⟨.mk 5 0 2 (.mk 3 0 1 .nil .nil) (.mk 8 0 1 .nil .nil), 3⟩ : AVLCollection Nat Nat)
    (Reachable.add 8 0
      (Reachable.add 3 0
        (Reachable.add 5 0 Reachable.empty (by decide) rfl) (by decide) rfl) (by decide) rfl)
    5 (by decide)

/-- Claim C13 (AVL remove deletes only the requested pair).  On a collection
reached from the empty one by adds of keys not stored and by removes,
`remove(k)` returns; afterwards `find(k)` reports not-found (and leaves its
output parameter as it was), and for every other stored key `k1` `find(k1)`
reports found with the same value as before the removal.  This holds for every
key `k`, stored or not. -/
theorem C13_avl_remove_only_requested_pair [LinearOrder K] (c : AVLCollection K V)
    (hc : Reachable c) (k : K) (d : V) :
    ∃ c1, c.remove k = some c1 ∧ c1.find k d = (false, d) ∧
      ∀ k1, k1 ≠ k → k1 ∈ c.keys →
        (c1.find k1 d).1 = true ∧ c1.find k1 d = c.find k1 d := by
  obtain ⟨c1, e, hc1, he⟩ := avl_collection_remove_spec c hc k
  have hs := (avl_ordered_iff _).mp (reachable_inv hc).2.2.1
  have hs1 := (avl_ordered_iff _).mp (reachable_inv hc1).2.2.1
  refine ⟨c1, e, ?_, ?_⟩
  · refine avl_find_of_not_mem k d c1.root ?_
    intro x hx
    rw [he, List.mem_filter] at hx
    simpa using hx.2
  · intro k1 hne hk1
    obtain ⟨v1, hv1⟩ := (avl_mem_keys_iff c.root k1).mp hk1
    have hv2 : (k1, v1) ∈ entries c1.root := by
      rw [he, List.mem_filter]
      exact ⟨hv1, by simpa using hne⟩
    have e1 : find c1.root k1 d = (true, v1) := avl_find_of_mem k1 v1 d _ hs1 hv2
    have e0 : find c.root k1 d = (true, v1) := avl_find_of_mem k1 v1 d _ hs hv1
    show (find c1.root k1 d).1 = true ∧ find c1.root k1 d = find c.root k1 d
    rw [e1, e0]
    exact ⟨rfl, rfl⟩

/-- A collection that satisfies the hypotheses of C13: the one built by adding
(5, 50), (3, 30) and (8, 80); its root key 5, whose node has two children, is
removed. -/
theorem C13_avl_remove_only_requested_pair_witness :
    ∃ c1, (⟨.mk 5 50 2 (.mk 3 30 1 .nil .nil) (.mk 8 80 1 .nil .nil), 3⟩ :
        AVLCollection Nat Nat).remove 5 = some c1 ∧ c1.find 5 7 = (false, 7) ∧
      ∀ k1, k1 ≠ 5 →
        k1 ∈ AVLCollection.keys (⟨.mk 5 50 2 (.mk 3 30 1 .nil .nil) (.mk 8 80 1 .nil .nil), 3⟩ :
          AVLCollection Nat Nat) →
        (c1.find k1 7).1 = true ∧
        c1.find k1 7 = AVLCollection.find
          (⟨.mk 5 50 2 (.mk 3 30 1 .nil .nil) (.mk 8 80 1 .nil .nil), 3⟩ :
            AVLCollection Nat Nat) k1 7 :=
  C13_avl_remove_only_requested_pair
    (⟨.mk 5 50 2 (.mk 3 30 1 .nil .nil) (.mk 8 80 1 .nil .nil), 3⟩ : AVLCollection Nat Nat)
    (Reachable.add 8 80
      (Reachable.add 3 30
        (Reachable.add 5 50 Reachable.empty (by decide) rfl) (by decide) rfl) (by decide) rfl)
    5 7

/-- Claim C18 (AVL round trip to empty).  For every list of pairs with pairwise
distinct keys and every order `rs` of these keys, adding all pairs to an empty
`AVLCollection` and then removing the keys in the order `rs` runs to completion
and leaves `size() = 0` and an absent root: `keys()` appends nothing and
`height()` is 0. -/
theorem C18_avl_round_trip_to_empty [LinearOrder K] (kvs : List (K × V)) (rs : List K)
    (hd : (kvs.map Prod.fst).Nodup) (hp : rs.Perm (kvs.map Prod.fst)) :
    ∃ c, run (AVLCollection.empty : AVLCollection K V)
        (kvs.map (fun kv => Op.add kv.1 kv.2) ++ rs.map Op.remove) = some c ∧
      c.size = 0 ∧ c.root = .nil ∧ c.keys = [] ∧ c.height = 0 := by
  obtain ⟨c1, e1, hc1, hk1⟩ := avl_run_adds kvs (AVLCollection.empty : AVLCollection K V)
    Reachable.empty hd (by intro k _ h; simp [AVLCollection.keys, AVLCollection.empty, keys] at h)
  obtain ⟨c2, e2, hc2, hk2⟩ := avl_run_removes rs c1 hc1
  have hkeys : c2.keys = [] := by
    rw [List.eq_nil_iff_forall_not_mem]
    intro x hx
    obtain ⟨h1, h2⟩ := (hk2 x).mp hx
    rcases (hk1 x).mp h1 with h | h
    · simp [AVLCollection.keys, AVLCollection.empty, keys] at h
    · exact h2 (hp.mem_iff.mpr h)
  have hroot : c2.root = .nil := avl_eq_nil_of_keys c2.root hkeys
  refine ⟨c2, ?_, ?_, hroot, hkeys, ?_⟩
  · rw [avl_run_append, e1]
    exact e2
  · show c2.node_count = 0
    rw [(reachable_inv hc2).2.2.2, hroot]
    rfl
  · show height c2.root = 0
    rw [hroot]
    rfl

/-- An input that satisfies the hypotheses of C18: the keys 5, 3, 8 are added and
then removed in the order 3, 8, 5. -/
theorem C18_avl_round_trip_to_empty_witness :
    ∃ c, run (AVLCollection.empty : AVLCollection Nat Nat)
        ([(5, 0), (3, 0), (8, 0)].map (fun kv => Op.add kv.1 kv.2) ++
          [3, 8, 5].map Op.remove) = some c ∧
      c.size = 0 ∧ c.root = .nil ∧ c.keys = [] ∧ c.height = 0 :=
  C18_avl_round_trip_to_empty [(5, 0), (3, 0), (8, 0)] [3, 8, 5] (by decide) (by decide)

/-- Claim C21 (AVL remove of a missing key leaves the tree unmodified).  On every
collection that a run of `add` and `remove` calls from the empty collection
produces, `remove(k)` of a key that is not stored returns the collection as it
was: the same tree (shape, keys, values, stored heights) and the same
`size()`. -/
theorem C21_avl_remove_missing_key_unmodified [LinearOrder K] (ops : List (Op K V))
    (c : AVLCollection K V) (hrun : run (AVLCollection.empty : AVLCollection K V) ops = some c)
    (k : K) (hk : k ∉ c.keys) : c.remove k = some c := by
  obtain ⟨c1, e, hb, ho, -⟩ := avl_run_empty_inv (K := K) (V := V) ops
  rw [hrun] at e
  simp only [Option.some.injEq] at e
  subst e
  obtain ⟨t1, n1, e1, -, -, -, -, -, g4, -⟩ := remove_spec c.root k c.node_count hb ho
  obtain ⟨rfl, rfl⟩ := g4 hk
  rw [AVLCollection.remove, e1]

/-- An input that satisfies the hypotheses of C21: the collection built by adding
5, 3 and 8; the key 4, which is not stored, is removed. -/
theorem C21_avl_remove_missing_key_unmodified_witness :
    (⟨.mk 5 0 2 (.mk 3 0 1 .nil .nil) (.mk 8 0 1 .nil .nil), 3⟩ :
        AVLCollection Nat Nat).remove 4 =
      some ⟨.mk 5 0 2 (.mk 3 0 1 .nil .nil) (.mk 8 0 1 .nil .nil), 3⟩ :=
  C21_avl_remove_missing_key_unmodified [.add 5 0, .add 3 0, .add 8 0]
    ⟨.mk 5 0 2 (.mk 3 0 1 .nil .nil) (.mk 8 0 1 .nil .nil), 3⟩ (by decide) 4 (by decide)

/-- Claim C22 (AVL height bound).  Every run of `add` and `remove` calls from the
empty collection returns, and afterwards `n = size()` and `h = height()` satisfy
`F(h + 2) ≤ n + 1`, that is `n ≥ F(h + 2) - 1`, where `F` is the Fibonacci
sequence with `F(1) = F(2) = 1`. -/
theorem C22_avl_height_bound [LinearOrder K] (ops : List (Op K V)) :
    ∃ c, run (AVLCollection.empty : AVLCollection K V) ops = some c ∧
      Nat.fib (c.height + 2) ≤ c.size + 1 ∧ Nat.fib (c.height + 2) - 1 ≤ c.size ∧
      Nat.fib 1 = 1 ∧ Nat.fib 2 = 1 := by
  obtain ⟨c, e, hb, -, -, hn⟩ := avl_run_empty_inv (K := K) (V := V) ops
  have h := fib_le_size c.root hb
  refine ⟨c, e, ?_, ?_, rfl, rfl⟩
  · show Nat.fib (height c.root + 2) ≤ c.node_count + 1
    rw [hn]; exact h
  · show Nat.fib (height c.root + 2) - 1 ≤ c.node_count
    rw [hn]; omega

/-- Claim C25 (AVL copy is a faithful clone).  Assignment from a collection `c`
(to any other object `self`) and copy construction from `c` return, and the
collection they give has the same tree as `c` (the same shape and the same key,
value and stored height at every node) and the same `size()`; hence `keys()`,
`height()` and the results of `find` agree as well. -/
theorem C25_avl_copy_faithful [LinearOrder K] (self c : AVLCollection K V) :
    (∃ c1, AVLCollection.operator_assign self c = some c1 ∧
      c1.root = c.root ∧ c1.size = c.size ∧ c1.keys = c.keys ∧ c1.height = c.height ∧
      ∀ k d, c1.find k d = c.find k d) ∧
    (∃ c1, AVLCollection.copy_construct c = some c1 ∧
      c1.root = c.root ∧ c1.size = c.size ∧ c1.keys = c.keys ∧ c1.height = c.height ∧
      ∀ k d, c1.find k d = c.find k d) := by
  have key : ∀ s : AVLCollection K V, AVLCollection.operator_assign s c = some c := by
    intro s
    rcases c with ⟨root, n⟩
    rcases root with _ | ⟨k, v, h, l, r⟩
    · rfl
    · simp only [AVLCollection.operator_assign, copy_spec]
  exact ⟨⟨c, key self, rfl, rfl, rfl, rfl, fun _ _ => rfl⟩,
    ⟨c, key _, rfl, rfl, rfl, rfl, fun _ _ => rfl⟩⟩

/-- Claim C28 (AVL `keys()` and `sort()` are sorted whatever is added).  Every run
of `add` and `remove` calls from the empty collection, adds of stored keys
included, returns; afterwards `keys()` and `sort()` append the same sequence,
and that sequence is in non-decreasing order. -/
theorem C28_avl_keys_sorted [LinearOrder K] (ops : List (Op K V)) :
    ∃ c, run (AVLCollection.empty : AVLCollection K V) ops = some c ∧
      c.sort = c.keys ∧ c.keys.Pairwise (· ≤ ·) := by
  obtain ⟨c, e, -, -, hs, -⟩ := avl_run_empty_inv (K := K) (V := V) ops
  exact ⟨c, e, rfl, hs⟩

/-- Claim C30 (AVL stored heights are accurate).  Every run of `add` and `remove`
calls from the empty collection returns, and afterwards the height field stored
in every node is the height of the subtree rooted at that node, which is 1 for a
node without children.  Every prefix of a run is a run, so this holds after each
operation. -/
theorem C30_avl_stored_heights_accurate [LinearOrder K] (ops : List (Op K V)) :
    (∃ c, run (AVLCollection.empty : AVLCollection K V) ops = some c ∧ HeightsOK c.root) ∧
    ∀ (k : K) (v : V) (h : Nat), HeightsOK (Node.mk k v h .nil .nil) → h = 1 := by
  obtain ⟨c, e, -, ho, -⟩ := avl_run_empty_inv (K := K) (V := V) ops
  refine ⟨⟨c, e, ho⟩, ?_⟩
  intro k v h hh
  simpa [HeightsOK, height] using hh.2.2

/-- Claim C31 (rebalance repairs an imbalance of two).  For every node `N` whose
left and right subtrees satisfy the AVL balance condition at every node and have
accurate stored heights, and whose subtree heights differ by exactly 2 (either
side may be the taller one, and the shorter one may be absent), `rebalance(N)`
returns; the subtree it returns is balanced at every node, has accurate stored
heights, has the in-order key sequence of `N`, and its height is the height of
`N` or one less.  The stored height of `N` itself is not used. -/
theorem C31_avl_rebalance_repairs_imbalance_of_two (k : K) (v : V) (h : Nat) (l r : Node K V)
    (hbl : Balanced l) (hol : HeightsOK l) (hbr : Balanced r) (hor : HeightsOK r)
    (hd : height l = height r + 2 ∨ height r = height l + 2) :
    ∃ t1, rebalance (.mk k v h l r) = some t1 ∧ Balanced t1 ∧ HeightsOK t1 ∧
      keys t1 = keys (.mk k v h l r) ∧
      (height t1 = height (.mk k v h l r) ∨ height t1 + 1 = height (.mk k v h l r)) := by
  obtain ⟨t1, e, p1, p2, -, p4, p5, p6⟩ := rebalance_two_spec k v h l r hbl hol hbr hor hd
  refine ⟨t1, e, p1, p2, by rw [p4]; rfl, ?_⟩
  simp only [height]
  omega

/-- The node 1 with no left child and the right child 2, whose right child is 3:
the right-right case, repaired by one left rotation. -/
theorem C31_avl_rebalance_repairs_imbalance_of_two_witness :
    ∃ t1, rebalance (.mk 1 0 3 .nil (.mk 2 0 2 .nil (.mk 3 0 1 .nil .nil)) : Node Nat Nat) =
        some t1 ∧ Balanced t1 ∧ HeightsOK t1 ∧
      keys t1 = keys (.mk 1 0 3 .nil (.mk 2 0 2 .nil (.mk 3 0 1 .nil .nil)) : Node Nat Nat) ∧
      (height t1 = height (.mk 1 0 3 .nil (.mk 2 0 2 .nil (.mk 3 0 1 .nil .nil)) : Node Nat Nat) ∨
        height t1 + 1 =
          height (.mk 1 0 3 .nil (.mk 2 0 2 .nil (.mk 3 0 1 .nil .nil)) : Node Nat Nat)) :=
  C31_avl_rebalance_repairs_imbalance_of_two 1 0 3 .nil (.mk 2 0 2 .nil (.mk 3 0 1 .nil .nil))
    trivial trivial (by simp [Balanced, height]) (by simp [HeightsOK, height])
    (Or.inr (by simp [height]))

/-- Claim C32 (counterexample).  The subtree `t` with root 5, right child 6 and
left child 3, whose only child is 2 with the only child 1, has accurate stored
heights and is left-heavy with both children present; its left subtree is not
AVL-balanced.  `rebalance(t)` takes the left-left case (`lptr->right` is null)
and rotates right: it returns the subtree with root 3.  The mirror image of `t`
is right-heavy with both children present; there the second test is a plain
`if`, not the `else if` of the three other rule chains, and reads
`rptr->left->height` through the null pointer `rptr->left`: `rebalance` does not
return on the mirror image.  Accurate stored heights alone do not make
`rebalance` mirror-symmetric. -/
theorem C32_avl_rebalance_right_heavy_not_mirror :
    HeightsOK (.mk 5 0 4 (.mk 3 0 3 (.mk 2 0 2 (.mk 1 0 1 .nil .nil) .nil) .nil)
        (.mk 6 0 1 .nil .nil) : Node Nat Nat) ∧
    rebalance (.mk 5 0 4 (.mk 3 0 3 (.mk 2 0 2 (.mk 1 0 1 .nil .nil) .nil) .nil)
        (.mk 6 0 1 .nil .nil) : Node Nat Nat) =
      some (.mk 3 0 3 (.mk 2 0 2 (.mk 1 0 1 .nil .nil) .nil)
        (.mk 5 0 2 .nil (.mk 6 0 1 .nil .nil))) ∧
    mirror (.mk 5 0 4 (.mk 3 0 3 (.mk 2 0 2 (.mk 1 0 1 .nil .nil) .nil) .nil)
        (.mk 6 0 1 .nil .nil) : Node Nat Nat) =
      .mk 5 0 4 (.mk 6 0 1 .nil .nil)
        (.mk 3 0 3 .nil (.mk 2 0 2 .nil (.mk 1 0 1 .nil .nil))) ∧
    rebalance (mirror (.mk 5 0 4 (.mk 3 0 3 (.mk 2 0 2 (.mk 1 0 1 .nil .nil) .nil) .nil)
        (.mk 6 0 1 .nil .nil) : Node Nat Nat)) = none ∧
    rebalance (mirror (.mk 5 0 3 (.mk 3 0 2 (.mk 2 0 1 .nil .nil) .nil) .nil : Node Nat Nat)) =
      (rebalance (.mk 5 0 3 (.mk 3 0 2 (.mk 2 0 1 .nil .nil) .nil) .nil : Node Nat Nat)).map
        mirror :=
  ⟨by simp [HeightsOK, height], by decide, by decide, by decide, by decide⟩

/-- Claim C32 (amended: mirror symmetry on the nodes that `add` and `remove`
rebalance).  For every node whose left and right subtrees are AVL-balanced at
every node with accurate stored heights, whatever the heights of the two
subtrees and whatever the node's own stored height, `rebalance` of the mirror
image is the mirror image of `rebalance`: it returns exactly when `rebalance` of
the node returns, and then returns the mirror image of that result.  The
right-heavy branches then apply the rule of the left-heavy branches with left
and right exchanged. -/
theorem C32_avl_rebalance_mirror_of_balanced_subtrees (k : K) (v : V) (h : Nat)
    (l r : Node K V)
    (hbl : Balanced l) (hol : HeightsOK l) (hbr : Balanced r) (hor : HeightsOK r) :
    rebalance (mirror (.mk k v h l r)) = (rebalance (.mk k v h l r)).map mirror ∧
    (rebalance (mirror (.mk k v h l r))).isSome = (rebalance (.mk k v h l r)).isSome := by
  have e := rebalance_mirror k v h l r hbl hol hbr hor
  refine ⟨e, ?_⟩
  rw [e, Option.isSome_map']

/-- The node 2 with the left leaf 1 and the right child 4 of height 3 (children
3 and 5, the latter with the right leaf 6): right-heavy with both children
present, rebalanced by one left rotation; its mirror image is left-heavy and is
rebalanced by one right rotation. -/
theorem C32_avl_rebalance_mirror_of_balanced_subtrees_witness :
    rebalance (mirror (.mk 2 0 4 (.mk 1 0 1 .nil .nil)
        (.mk 4 0 3 (.mk 3 0 1 .nil .nil) (.mk 5 0 2 .nil (.mk 6 0 1 .nil .nil))) :
        Node Nat Nat)) =
      (rebalance (.mk 2 0 4 (.mk 1 0 1 .nil .nil)
        (.mk 4 0 3 (.mk 3 0 1 .nil .nil) (.mk 5 0 2 .nil (.mk 6 0 1 .nil .nil))) :
        Node Nat Nat)).map mirror ∧
    (rebalance (mirror (.mk 2 0 4 (.mk 1 0 1 .nil .nil)
        (.mk 4 0 3 (.mk 3 0 1 .nil .nil) (.mk 5 0 2 .nil (.mk 6 0 1 .nil .nil))) :
        Node Nat Nat))).isSome =
      (rebalance (.mk 2 0 4 (.mk 1 0 1 .nil .nil)
        (.mk 4 0 3 (.mk 3 0 1 .nil .nil) (.mk 5 0 2 .nil (.mk 6 0 1 .nil .nil))) :
        Node Nat Nat)).isSome :=
  C32_avl_rebalance_mirror_of_balanced_subtrees 2 0 4 (.mk 1 0 1 .nil .nil)
    (.mk 4 0 3 (.mk 3 0 1 .nil .nil) (.mk 5 0 2 .nil (.mk 6 0 1 .nil .nil)))
    (by simp [Balanced, height]) (by simp [HeightsOK, height])
    (by simp [Balanced, height]) (by simp [HeightsOK, height])

/-- Claim C33 (rotations).  For every node `k2` with a left child `k1`,
`rotate_right(k2)` returns a subtree with the same in-order sequence of (key,
value) pairs whose root is the node `k1` with its left subtree, and
`rotate_left` of the result gives back the subtree rotated, node for node.
Symmetrically `rotate_left(k2)` for a node with a right child `k1`. -/
theorem C33_avl_rotations_preserve_order (k2 : K) (v2 : V) (h2 : Nat) (k1 : K) (v1 : V)
    (h1 : Nat) (a b c : Node K V) :
    (∃ x, rotate_right (.mk k2 v2 h2 (.mk k1 v1 h1 a b) c) = some (.mk k1 v1 h1 a x) ∧
      entries (Node.mk k1 v1 h1 a x) = entries (Node.mk k2 v2 h2 (.mk k1 v1 h1 a b) c) ∧
      rotate_left (.mk k1 v1 h1 a x) = some (.mk k2 v2 h2 (.mk k1 v1 h1 a b) c)) ∧
    (∃ x, rotate_left (.mk k2 v2 h2 a (.mk k1 v1 h1 b c)) = some (.mk k1 v1 h1 x c) ∧
      entries (Node.mk k1 v1 h1 x c) = entries (Node.mk k2 v2 h2 a (.mk k1 v1 h1 b c)) ∧
      rotate_right (.mk k1 v1 h1 x c) = some (.mk k2 v2 h2 a (.mk k1 v1 h1 b c))) :=
  ⟨⟨_, rfl, by simp [entries], rfl⟩, ⟨_, rfl, by simp [entries], rfl⟩⟩

/-- Claim C36 (no read through an absent node).  On every collection whose tree
is AVL-balanced with accurate stored heights, `add(k, v)` and `remove(k)` return
for every key, stored or not: no helper reads a field through a null pointer,
the reads `rptr->left->height` of `rebalance` and `subtree_root->right->left` of
`remove` included, which end the run of the model when the pointer is null.  The
tree is again AVL-balanced with accurate stored heights afterwards, so the same
holds for the next call. -/
theorem C36_avl_no_read_of_absent_node [LinearOrder K] (c : AVLCollection K V)
    (hb : Balanced c.root) (ho : HeightsOK c.root) (k : K) (v : V) :
    (∃ c1, c.add k v = some c1 ∧ Balanced c1.root ∧ HeightsOK c1.root) ∧
    (∃ c1, c.remove k = some c1 ∧ Balanced c1.root ∧ HeightsOK c1.root) := by
  constructor
  · obtain ⟨t1, e, b1, o1, -⟩ := add_spec k v c.node_count c.root hb ho
    exact ⟨⟨t1, c.node_count + 1⟩, by rw [AVLCollection.add_eq, e], b1, o1⟩
  · obtain ⟨t1, n1, e, b1, o1, -⟩ := remove_spec c.root k c.node_count hb ho
    exact ⟨⟨t1, n1⟩, by simp only [AVLCollection.remove, e], b1, o1⟩

/-- The collection with root 2 and the right child 3; `add(4, 0)` makes the root
right-heavy, and `remove(4)` asks for a key that is not stored. -/
theorem C36_avl_no_read_of_absent_node_witness :
    (∃ c1, (⟨.mk 2 0 2 .nil (.mk 3 0 1 .nil .nil), 2⟩ : AVLCollection Nat Nat).add 4 0 =
        some c1 ∧ Balanced c1.root ∧ HeightsOK c1.root) ∧
    (∃ c1, (⟨.mk 2 0 2 .nil (.mk 3 0 1 .nil .nil), 2⟩ : AVLCollection Nat Nat).remove 4 =
        some c1 ∧ Balanced c1.root ∧ HeightsOK c1.root) :=
  C36_avl_no_read_of_absent_node ⟨.mk 2 0 2 .nil (.mk 3 0 1 .nil .nil), 2⟩
    (by simp [Balanced, height]) (by simp [HeightsOK, height]) 4 0

end AVL

namespace RBT

variable {K V : Type}

open color_t

/-! ## Claims about the red-black engine -/

/-- Claim C4 (failing input).  The collection built by adding 10, 5, 15, 20 is
BST-ordered with distinct keys and `valid_rbt()` holds for it; the key 1 is not
stored.  `remove(1)` rotates at the root on its way down and then takes the
early `return` of the not-found path, which skips `root->color = BLACK`: the
root is left RED and `valid_rbt()` is false. -/
theorem C4_rbt_remove_missing_key_leaves_red_root :
    ∃ c c1, run (RBTCollection.empty : RBTCollection Nat Nat)
        [.add 10 0, .add 5 0, .add 15 0, .add 20 0] = some c ∧
      c.valid_rbt = true ∧ Ordered c.root ∧ 1 ∉ c.keys ∧
      c.remove 1 = some c1 ∧ c1.valid_rbt = false ∧ colorOf c1.root = some RED :=
  ⟨_, _, rfl, rfl, by unfold Ordered; decide, by decide, rfl, rfl, rfl⟩

/-- Claim C7 (failing input).  On the collection that stores the key 10 with
value 0, `add(10, 1)` is not a no-op: a second node with key 10 is linked in,
`size()` grows from 1 to 2 and `keys()` from `[10]` to `[10, 10]`; a third
`add(10, 2)` leaves two RED nodes in a row, so that `valid_rbt()` is false. -/
theorem C7_rbt_add_existing_key_not_noop :
    ∃ c c1 c2, run (RBTCollection.empty : RBTCollection Nat Nat) [.add 10 0] = some c ∧
      c.add 10 1 = some c1 ∧ c.size = 1 ∧ c1.size = 2 ∧
      c.keys = [10] ∧ c1.keys = [10, 10] ∧
      c1.add 10 2 = some c2 ∧ c2.keys = [10, 10, 10] ∧ c2.valid_rbt = false :=
  ⟨_, _, _, rfl, rfl, rfl, rfl, rfl, rfl, rfl, rfl, rfl⟩

/-- Claim C12 (failing input).  The collection built by `add(10, 100)`,
`add(20, 200)`, `add(30, 300)` is BST-ordered with distinct keys and
`valid_rbt()` holds for it; `find(30)` returns 300.  `remove(20)` removes the
root, whose node has two children: the key 30 of the in-order successor is copied
into the node, but the statement `x->value = x->value` leaves the value 200 of
the removed key in it.  Afterwards `find(30)` returns 200: the value of the other
stored key 30 has changed. -/
theorem C12_rbt_remove_changes_other_value :
    ∃ c c1, run (RBTCollection.empty : RBTCollection Nat Nat)
        [.add 10 100, .add 20 200, .add 30 300] = some c ∧
      c.valid_rbt = true ∧ Ordered c.root ∧ 30 ∈ c.keys ∧ c.find 30 0 = (true, 300) ∧
      c.remove 20 = some c1 ∧ c1.keys = [10, 30] ∧ c1.find 30 0 = (true, 200) :=
  ⟨_, _, rfl, rfl, by unfold Ordered; decide, by decide, rfl, rfl, rfl, rfl⟩

/-- Claim C15 (failing input).  The collection built by adding 0, 9, 4, 11, 10 is
valid; `remove(2)` of the key 2, which is not stored, rotates at the root on its
way down and returns early with a RED root 10 whose left child 4 is BLACK with
the two RED children 0 and 9.  The following `add(1, 101)` of a key that is not
stored flips the colours at 4, finds the RED node 4 below the RED root and reads
`p->parent->key` through the null parent pointer of the root: the call does not
return (`none`), so that no `find(1)` can follow it. -/
theorem C15_rbt_add_after_remove_of_missing_key :
    ∃ c, run (RBTCollection.empty : RBTCollection Nat Nat)
        [.add 0 100, .add 9 109, .add 4 104, .add 11 111, .add 10 110, .remove 2] = some c ∧
      c.keys = [0, 4, 9, 10, 11] ∧ 1 ∉ c.keys ∧ colorOf c.root = some RED ∧
      c.add 1 101 = none :=
  ⟨_, rfl, rfl, by decide, rfl, rfl⟩

/-- Claim C19 (red-black round trip to empty).  For every list of pairs with
pairwise distinct keys and every order `rs` of these keys, adding all pairs to an
empty `RBTCollection` and then removing the keys in the order `rs` runs to
completion and leaves `size() = 0` and an absent root.  In particular adding
10, 20, 30, 40 and removing 40, 30, 20, 10 ends with `size() = 0`. -/
theorem C19_rbt_round_trip_to_empty [LinearOrder K] (kvs : List (K × V)) (rs : List K)
    (hd : (kvs.map Prod.fst).Nodup) (hp : rs.Perm (kvs.map Prod.fst)) :
    (∃ c, run (RBTCollection.empty : RBTCollection K V)
        (kvs.map (fun kv => Op.add kv.1 kv.2) ++ rs.map Op.remove) = some c ∧
      c.size = 0 ∧ c.root = .nil) ∧
    (run (RBTCollection.empty : RBTCollection Nat Nat)
        [.add 10 0, .add 20 0, .add 30 0, .add 40 0, .remove 40, .remove 30, .remove 20,
          .remove 10]).map RBTCollection.size = some 0 := by
  refine ⟨?_, by decide⟩
  obtain ⟨c1, e1, ho1, hv1, hn1, hk1⟩ := rbt_run_adds kvs (RBTCollection.empty : RBTCollection K V)
    List.Pairwise.nil rfl rfl hd
    (by intro k _ h; simp [RBTCollection.keys, RBTCollection.empty, keys] at h)
  have hk1' : ∀ x, x ∈ c1.keys ↔ x ∈ kvs.map Prod.fst := by
    intro x
    rw [hk1 x]
    simp [RBTCollection.keys, RBTCollection.empty, keys]
  obtain ⟨c2, e2, ho2, hv2, hn2, hk2⟩ := rbt_run_removes rs c1 ho1 hv1 hn1
    (hp.nodup_iff.mpr hd) (fun k hk => (hk1' k).mpr (hp.mem_iff.mp hk))
  have hkeys : c2.keys = [] := by
    rw [List.eq_nil_iff_forall_not_mem]
    intro x hx
    obtain ⟨h1, h2⟩ := (hk2 x).mp hx
    exact h2 (hp.mem_iff.mpr ((hk1' x).mp h1))
  have hroot : c2.root = .nil := rbt_eq_nil_of_keys c2.root hkeys
  refine ⟨c2, ?_, ?_, hroot⟩
  · rw [rbt_run_append, e1]
    exact e2
  · show c2.node_count = 0
    rw [hn2, hroot]
    rfl

/-- An input that satisfies the hypotheses of C19: the keys 5, 3, 8 are added and
then removed in the order 3, 8, 5. -/
theorem C19_rbt_round_trip_to_empty_witness :
    ∃ c, run (RBTCollection.empty : RBTCollection Nat Nat)
        ([(5, 0), (3, 0), (8, 0)].map (fun kv => Op.add kv.1 kv.2) ++
          [3, 8, 5].map Op.remove) = some c ∧
      c.size = 0 ∧ c.root = .nil :=
  (C19_rbt_round_trip_to_empty [(5, 0), (3, 0), (8, 0)] [3, 8, 5] (by decide) (by decide)).1

/-- Claim C23 (red-black height bound).  For every collection for which
`valid_rbt()` is true, the height `h = height()` and the number `n` of nodes of
the tree satisfy `2 ^ h ≤ (n + 1) ^ 2`, that is `h ≤ 2 * log2 (n + 1)`. -/
theorem C23_rbt_height_bound [LinearOrder K] (c : RBTCollection K V)
    (hv : c.valid_rbt = true) : 2 ^ c.height ≤ (size c.root + 1) ^ 2 := by
  obtain ⟨hrb, hroot⟩ := (collection_valid_iff c).mp hv
  exact pow_height_le c.root hrb hroot

/-- A collection that satisfies the hypothesis of C23: root 20 (BLACK) with the
BLACK children 10 and 30 and the RED node 40 below 30; its height is 3 and it
has 4 nodes. -/
theorem C23_rbt_height_bound_witness :
    2 ^ RBTCollection.height (⟨.mk 20 0 BLACK (.mk 10 0 BLACK .nil .nil)
        (.mk 30 0 BLACK .nil (.mk 40 0 RED .nil .nil)), 4⟩ : RBTCollection Nat Nat) ≤
      (size (RBTCollection.root (⟨.mk 20 0 BLACK (.mk 10 0 BLACK .nil .nil)
        (.mk 30 0 BLACK .nil (.mk 40 0 RED .nil .nil)), 4⟩ : RBTCollection Nat Nat)) + 1) ^ 2 :=
  C23_rbt_height_bound
    (⟨.mk 20 0 BLACK (.mk 10 0 BLACK .nil .nil)
        (.mk 30 0 BLACK .nil (.mk 40 0 RED .nil .nil)), 4⟩ : RBTCollection Nat Nat)
    (by decide)

/-- Claim C24 (the validity check decides the red-black invariant).  For every
collection, `valid_rbt()` returns true if and only if the tree is empty, or the
root is BLACK, no RED node has a RED child, and every path from the root to an
absent child passes through the same number of BLACK nodes. -/
theorem C24_valid_rbt_decides_invariant [LinearOrder K] (c : RBTCollection K V) :
    c.valid_rbt = true ↔
      c.root = .nil ∨
        (colorOf c.root = some BLACK ∧ NoRedRed c.root ∧ EqualBlackCounts c.root) := by
  rcases c with ⟨root, n⟩
  rcases root with _ | ⟨k, v, col, l, r⟩
  · simp [RBTCollection.valid_rbt, isNull]
  · simp only [RBTCollection.valid_rbt, isNull, Bool.false_or, Bool.and_eq_true,
      decide_eq_true_eq, valid_rbt_iff, RB_iff_blackCounts, reduceCtorEq, false_or]

/-- Claim C35 (failing input).  The sequence `add 2, add 4, add 6, add 8, add 10,
remove 1, add 3`, in which every added key is not stored at that moment, does
not run to completion.  `remove(1)` of the key 1, which is not stored, rotates
at the root on its way down and returns early, before the statement that
colours the root BLACK: the root 8 is RED, and its left child 4 is BLACK with
the RED children 2 and 6.  In `add(3, 0)` the call `add_rebalance(x)` at the
node 4 flips the colours, finds `x` and its parent `p`, the root, both RED, and
reads `p->parent->key`: the root has no parent, the read goes through a null
pointer.  No tree follows the last operation of the sequence. -/
theorem C35_rbt_add_reads_parent_of_red_root :
    run (RBTCollection.empty : RBTCollection Nat Nat)
        [.add 2 0, .add 4 0, .add 6 0, .add 8 0, .add 10 0, .remove 1] =
      some ⟨.mk 8 0 RED
        (.mk 4 0 BLACK (.mk 2 0 RED .nil .nil) (.mk 6 0 RED .nil .nil))
        (.mk 10 0 BLACK .nil .nil), 5⟩ ∧
    add_rebalance [⟨true, 8, 0, RED, .mk 10 0 BLACK .nil .nil, false⟩]
        (.mk 4 0 BLACK (.mk 2 0 RED .nil .nil) (.mk 6 0 RED .nil .nil) : Node Nat Nat) = none ∧
    run (RBTCollection.empty : RBTCollection Nat Nat)
        [.add 2 0, .add 4 0, .add 6 0, .add 8 0, .add 10 0, .remove 1, .add 3 0] = none :=
  ⟨by decide, by decide, by decide⟩

end RBT

/-! ## Claims about the array list -/

namespace AL
variable {T : Type}

/-- Claim C29 (the output sequence is append-only).  For every `ArrayList` that
satisfies the representation invariant, of length `n`, and every item `x`,
`add(x)` returns; afterwards `size() = n + 1`, `get(n)` succeeds and returns
`x`, and `get(i)` returns the same item as before for every `i < n`; `get(i)`
with `i ≥ size()` returns false and leaves the output parameter as it was.  The
capacity is doubled exactly when the array was full, and the invariant holds
again.  In particular the eleventh `add` on a new list, which doubles the
capacity from 10 to 20, keeps the ten items and appends the new one. -/
theorem C29_array_list_append_only (a : ArrayList T) (hw : WF a) (x d : T) :
    (∃ a1, a.add x = some a1 ∧ a1.size = a.size + 1 ∧
      a1.get a.size d = some (true, x) ∧
      (∀ i, i < a.size → a1.get i d = a.get i d ∧ ∃ y, a.get i d = some (true, y)) ∧
      (∀ i, a1.size ≤ i → a1.get i d = some (false, d)) ∧ WF a1 ∧
      a1.capacity = (if a.capacity = a.length then a.capacity * 2 else a.capacity)) ∧
    (∀ i, a.size ≤ i → a.get i d = some (false, d)) ∧
    ((List.range 11).foldl (fun (b : Option (ArrayList Nat)) n => b.bind (fun b => b.add (n * 7)))
        (some ArrayList.empty)).map
      (fun b => (b.capacity, b.size, (List.range 12).map (fun i => b.get i 0))) =
      some (20, 11, [some (true, 0), some (true, 7), some (true, 14), some (true, 21),
        some (true, 28), some (true, 35), some (true, 42), some (true, 49), some (true, 56),
        some (true, 63), some (true, 70), some (false, 0)]) := by
  obtain ⟨a1, e, hl, hx, hlo, hw1, hcap⟩ := array_add_spec a hw x
  refine ⟨⟨a1, e, hl, ?_, ?_, ?_, hw1, hcap⟩, ?_, by decide⟩
  · have : ¬ a.size ≥ a1.length := by simp only [ArrayList.size]; omega
    simp only [ArrayList.get, if_neg this]
    simp only [ArrayList.size, hx]
  · intro i hi
    simp only [ArrayList.size] at hi
    have h1 : ¬ i ≥ a1.length := by omega
    have h2 : ¬ i ≥ a.length := by omega
    obtain ⟨y, hy⟩ := hw.2.2.2 i hi
    simp only [ArrayList.get, if_neg h1, if_neg h2, hlo i hi, hy]
    exact ⟨trivial, y, rfl⟩
  · intro i hi
    simp only [ArrayList.size] at hi
    simp only [ArrayList.get, ge_iff_le, if_pos hi]
  · intro i hi
    simp only [ArrayList.size] at hi
    simp only [ArrayList.get, ge_iff_le, if_pos hi]

/-- A list that satisfies the hypothesis of C29: capacity 2, full, with the items
4 and 5; the item 6 is added, which doubles the capacity. -/
theorem C29_array_list_append_only_witness :
    ∃ a1, (⟨[some 4, some 5], 2, 2⟩ : ArrayList Nat).add 6 = some a1 ∧
      a1.size = (⟨[some 4, some 5], 2, 2⟩ : ArrayList Nat).size + 1 ∧
      a1.get (⟨[some 4, some 5], 2, 2⟩ : ArrayList Nat).size 0 = some (true, 6) ∧
      (∀ i, i < (⟨[some 4, some 5], 2, 2⟩ : ArrayList Nat).size →
        a1.get i 0 = (⟨[some 4, some 5], 2, 2⟩ : ArrayList Nat).get i 0 ∧
        ∃ y, (⟨[some 4, some 5], 2, 2⟩ : ArrayList Nat).get i 0 = some (true, y)) ∧
      (∀ i, a1.size ≤ i → a1.get i 0 = some (false, 0)) ∧ WF a1 ∧
      a1.capacity = (if (⟨[some 4, some 5], 2, 2⟩ : ArrayList Nat).capacity =
          (⟨[some 4, some 5], 2, 2⟩ : ArrayList Nat).length
        then (⟨[some 4, some 5], 2, 2⟩ : ArrayList Nat).capacity * 2
        else (⟨[some 4, some 5], 2, 2⟩ : ArrayList Nat).capacity) :=
  (C29_array_list_append_only (⟨[some 4, some 5], 2, 2⟩ : ArrayList Nat)
    ⟨rfl, by decide, by decide, by
      intro i hi
      have hi2 : i < 2 := hi
      interval_cases i
      · exact ⟨4, rfl⟩
      · exact ⟨5, rfl⟩⟩ 6 0).1

end AL

namespace BST

/-- Claim C38 (failing input).  The collection built by `add(3)`, `add(2)`,
`add(1)` is the chain 3, 2, 1 of left children: it is BST-ordered with distinct
keys, and the node of the stored key 3 has exactly one child.  `remove(3)` finds
`height(subtree_root) = 3`, so neither CASE 1 nor CASE 2 applies (CASE 2 asks
for height 2), and the test of CASE 3 reads `subtree_root->right->left` through
the null right pointer: the call does not return.  The mirror chain 1, 2, 3 of
right children is handled by CASE 3, which splices the right child in. -/
theorem C38_bst_remove_single_left_child_reads_null :
    (((BSTCollection.empty : BSTCollection Nat Nat).add 3 30).add 2 20).add 1 10 =
      ⟨.mk 3 30 (.mk 2 20 (.mk 1 10 .nil .nil) .nil) .nil, 3⟩ ∧
    (BSTCollection.keys (⟨.mk 3 30 (.mk 2 20 (.mk 1 10 .nil .nil) .nil) .nil, 3⟩ :
      BSTCollection Nat Nat)).Pairwise (· < ·) ∧
    childCount (Node.mk 3 30 (.mk 2 20 (.mk 1 10 .nil .nil) .nil) .nil : Node Nat Nat) 3 =
      some 1 ∧
    (⟨.mk 3 30 (.mk 2 20 (.mk 1 10 .nil .nil) .nil) .nil, 3⟩ :
      BSTCollection Nat Nat).remove 3 = none ∧
    ((((BSTCollection.empty : BSTCollection Nat Nat).add 1 10).add 2 20).add 3 30).remove 1 =
      some ⟨.mk 2 20 .nil (.mk 3 30 .nil .nil), 2⟩ :=
  ⟨by decide, by decide, by decide, by decide, by decide⟩

end BST

/-! ## Claims about both engines -/

/-- Claim C14 (point lookup is exact).  For every AVL and every red-black
collection whose tree is BST-ordered with distinct keys and every key `k`,
`find(k, out)` returns true if and only if `k` is among the keys produced by
`keys()`, and when it returns false the output value is left as it was.  On an
empty collection `find` returns false for every key, for instance `find(99)`. -/
theorem C14_find_exact {K V : Type} [LinearOrder K] (ca : AVL.AVLCollection K V)
    (cr : RBT.RBTCollection K V) (ha : AVL.Ordered ca.root) (hr : RBT.Ordered cr.root)
    (k : K) (d : V) :
    (((ca.find k d).1 = true ↔ k ∈ ca.keys) ∧ ((ca.find k d).1 = false → (ca.find k d).2 = d)) ∧
    (((cr.find k d).1 = true ↔ k ∈ cr.keys) ∧ ((cr.find k d).1 = false → (cr.find k d).2 = d)) ∧
    (AVL.AVLCollection.empty : AVL.AVLCollection K V).find k d = (false, d) ∧
    (RBT.RBTCollection.empty : RBT.RBTCollection K V).find k d = (false, d) ∧
    (AVL.AVLCollection.empty : AVL.AVLCollection Nat Nat).find 99 0 = (false, 0) ∧
    (RBT.RBTCollection.empty : RBT.RBTCollection Nat Nat).find 99 0 = (false, 0) :=
  ⟨AVL.avl_find_iff ca.root ha k d, RBT.rbt_find_iff cr.root hr k d, rfl, rfl, rfl, rfl⟩

/-- Two collections that satisfy the hypotheses of C14, with the keys 3, 5, 8 and
10, 20; the key 8 is looked up, which is stored in the first one only. -/
theorem C14_find_exact_witness :
    ((((⟨.mk 5 50 2 (.mk 3 30 1 .nil .nil) (.mk 8 80 1 .nil .nil), 3⟩ :
          AVL.AVLCollection Nat Nat).find 8 7).1 = true ↔
        8 ∈ AVL.AVLCollection.keys (⟨.mk 5 50 2 (.mk 3 30 1 .nil .nil) (.mk 8 80 1 .nil .nil), 3⟩ :
          AVL.AVLCollection Nat Nat)) ∧
      (((⟨.mk 5 50 2 (.mk 3 30 1 .nil .nil) (.mk 8 80 1 .nil .nil), 3⟩ :
          AVL.AVLCollection Nat Nat).find 8 7).1 = false →
        ((⟨.mk 5 50 2 (.mk 3 30 1 .nil .nil) (.mk 8 80 1 .nil .nil), 3⟩ :
          AVL.AVLCollection Nat Nat).find 8 7).2 = 7)) ∧
    ((((⟨.mk 10 0 .BLACK .nil (.mk 20 0 .RED .nil .nil), 2⟩ :
          RBT.RBTCollection Nat Nat).find 8 7).1 = true ↔
        8 ∈ RBT.RBTCollection.keys (⟨.mk 10 0 .BLACK .nil (.mk 20 0 .RED .nil .nil), 2⟩ :
          RBT.RBTCollection Nat Nat)) ∧
      (((⟨.mk 10 0 .BLACK .nil (.mk 20 0 .RED .nil .nil), 2⟩ :
          RBT.RBTCollection Nat Nat).find 8 7).1 = false →
        ((⟨.mk 10 0 .BLACK .nil (.mk 20 0 .RED .nil .nil), 2⟩ :
          RBT.RBTCollection Nat Nat).find 8 7).2 = 7)) :=
  have h := C14_find_exact
    (⟨.mk 5 50 2 (.mk 3 30 1 .nil .nil) (.mk 8 80 1 .nil .nil), 3⟩ : AVL.AVLCollection Nat Nat)
    (⟨.mk 10 0 .BLACK .nil (.mk 20 0 .RED .nil .nil), 2⟩ : RBT.RBTCollection Nat Nat)
    (by unfold AVL.Ordered; decide) (by unfold RBT.Ordered; decide) 8 7
  ⟨h.1, h.2.1⟩

/-- Claim C16 (counterexample).  On the AVL tree built by adding 5, 3, 8, 1, 4 the
range lookup `find(3, 8, out)` on an empty `out` yields `[5, 3, 4, 8]`: the root
key 5 comes first.  The sequence is not `[3, 4, 5, 8]` and not ascending. -/
theorem C16_range_find_not_ascending :
    ∃ c, AVL.run (AVL.AVLCollection.empty : AVL.AVLCollection Nat Nat)
        [.add 5 0, .add 3 0, .add 8 0, .add 1 0, .add 4 0] = some c ∧
      AVL.Ordered c.root ∧ c.findRange 3 8 [] = [5, 3, 4, 8] ∧
      c.findRange 3 8 [] ≠ [3, 4, 5, 8] ∧ ¬ (c.findRange 3 8 []).Pairwise (· < ·) :=
  ⟨_, rfl, by unfold AVL.Ordered; decide, rfl, by decide, by decide⟩

/-- Claim C16 as amended (range lookup appends in pre-order).  For every AVL and
every red-black collection whose tree is BST-ordered and all keys `k1`, `k2`,
`find(k1, k2, out)` appends to `out` the stored keys lying in `[k1, k2]` in
pre-order: the key of a node, then the keys of its left subtree, then the keys of
its right subtree.  In particular, on the AVL tree built by adding 5, 3, 8, 1, 4,
`find(3, 8, out)` on an empty `out` yields exactly `[5, 3, 4, 8]`. -/
theorem C16_range_find_preorder {K V : Type} [LinearOrder K] (ca : AVL.AVLCollection K V)
    (cr : RBT.RBTCollection K V) (ha : AVL.Ordered ca.root) (hr : RBT.Ordered cr.root)
    (k1 k2 : K) (out : List K) :
    ca.findRange k1 k2 out =
      out ++ (AVL.preorder ca.root).filter (fun k => decide (k1 ≤ k ∧ k ≤ k2)) ∧
    cr.findRange k1 k2 out =
      out ++ (RBT.preorder cr.root).filter (fun k => decide (k1 ≤ k ∧ k ≤ k2)) ∧
    (AVL.run (AVL.AVLCollection.empty : AVL.AVLCollection Nat Nat)
        [.add 5 0, .add 3 0, .add 8 0, .add 1 0, .add 4 0]).map
      (fun c => c.findRange 3 8 []) = some [5, 3, 4, 8] :=
  ⟨AVL.avl_findRange_preorder k1 k2 ca.root out ha,
    RBT.rbt_findRange_preorder k1 k2 cr.root out hr, by decide⟩

/-- Two collections that satisfy the hypotheses of the amended C16, with the keys
3, 5, 8 and 10, 20; the range `[4, 15]` is looked up with `out = [1]`. -/
theorem C16_range_find_preorder_witness :
    (⟨.mk 5 50 2 (.mk 3 30 1 .nil .nil) (.mk 8 80 1 .nil .nil), 3⟩ :
        AVL.AVLCollection Nat Nat).findRange 4 15 [1] =
      [1] ++ (AVL.preorder (AVL.AVLCollection.root
        (⟨.mk 5 50 2 (.mk 3 30 1 .nil .nil) (.mk 8 80 1 .nil .nil), 3⟩ :
          AVL.AVLCollection Nat Nat))).filter (fun k => decide (4 ≤ k ∧ k ≤ 15)) ∧
    (⟨.mk 10 0 .BLACK .nil (.mk 20 0 .RED .nil .nil), 2⟩ :
        RBT.RBTCollection Nat Nat).findRange 4 15 [1] =
      [1] ++ (RBT.preorder (RBT.RBTCollection.root
        (⟨.mk 10 0 .BLACK .nil (.mk 20 0 .RED .nil .nil), 2⟩ :
          RBT.RBTCollection Nat Nat))).filter (fun k => decide (4 ≤ k ∧ k ≤ 15)) :=
  have h := C16_range_find_preorder
    (⟨.mk 5 50 2 (.mk 3 30 1 .nil .nil) (.mk 8 80 1 .nil .nil), 3⟩ : AVL.AVLCollection Nat Nat)
    (⟨.mk 10 0 .BLACK .nil (.mk 20 0 .RED .nil .nil), 2⟩ : RBT.RBTCollection Nat Nat)
    (by unfold AVL.Ordered; decide) (by unfold RBT.Ordered; decide) 4 15 [1]
  ⟨h.1, h.2.1⟩

/-- Claim C17 (range lookup is complete and exact as a set).  For every AVL and
every red-black collection whose tree is BST-ordered with distinct keys and all
keys `k1`, `k2`, `find(k1, k2, out)` leaves the items already in `out` as they
are and appends each stored key `k` with `k1 ≤ k ≤ k2` exactly once and no other
key: the appended keys are a permutation of the keys of `keys()` that lie in
`[k1, k2]`, without repetition. -/
theorem C17_range_find_exact {K V : Type} [LinearOrder K] (ca : AVL.AVLCollection K V)
    (cr : RBT.RBTCollection K V) (ha : AVL.Ordered ca.root) (hr : RBT.Ordered cr.root)
    (k1 k2 : K) (out : List K) :
    (∃ app, ca.findRange k1 k2 out = out ++ app ∧
      app.Perm (ca.keys.filter (fun k => decide (k1 ≤ k ∧ k ≤ k2))) ∧ app.Nodup) ∧
    (∃ app, cr.findRange k1 k2 out = out ++ app ∧
      app.Perm (cr.keys.filter (fun k => decide (k1 ≤ k ∧ k ≤ k2))) ∧ app.Nodup) :=
  ⟨AVL.avl_findRange_perm ca.root ha k1 k2 out, RBT.rbt_findRange_perm cr.root hr k1 k2 out⟩

/-- Two collections that satisfy the hypotheses of C17, with the keys 3, 5, 8 and
10, 20; the range `[4, 15]` is looked up with `out = [1]`. -/
theorem C17_range_find_exact_witness :
    (∃ app, (⟨.mk 5 50 2 (.mk 3 30 1 .nil .nil) (.mk 8 80 1 .nil .nil), 3⟩ :
        AVL.AVLCollection Nat Nat).findRange 4 15 [1] = [1] ++ app ∧
      app.Perm ((AVL.AVLCollection.keys
        (⟨.mk 5 50 2 (.mk 3 30 1 .nil .nil) (.mk 8 80 1 .nil .nil), 3⟩ :
          AVL.AVLCollection Nat Nat)).filter (fun k => decide (4 ≤ k ∧ k ≤ 15))) ∧
      app.Nodup) ∧
    (∃ app, (⟨.mk 10 0 .BLACK .nil (.mk 20 0 .RED .nil .nil), 2⟩ :
        RBT.RBTCollection Nat Nat).findRange 4 15 [1] = [1] ++ app ∧
      app.Perm ((RBT.RBTCollection.keys
        (⟨.mk 10 0 .BLACK .nil (.mk 20 0 .RED .nil .nil), 2⟩ :
          RBT.RBTCollection Nat Nat)).filter (fun k => decide (4 ≤ k ∧ k ≤ 15))) ∧
      app.Nodup) :=
  C17_range_find_exact
    (⟨.mk 5 50 2 (.mk 3 30 1 .nil .nil) (.mk 8 80 1 .nil .nil), 3⟩ : AVL.AVLCollection Nat Nat)
    (⟨.mk 10 0 .BLACK .nil (.mk 20 0 .RED .nil .nil), 2⟩ : RBT.RBTCollection Nat Nat)
    (by unfold AVL.Ordered; decide) (by unfold RBT.Ordered; decide) 4 15 [1]

/-! ## Claims about the copy and the node count of the red-black engine -/

/-- Claim C26 (failing input).  The heap holds the tree built by `add(10)`,
`add(5)`, `add(15)`: the BLACK root 10 at address 0 and its RED children 5 and 15
at the addresses 1 and 2, whose `parent` pointers are 0.  Assignment from this
collection creates the nodes 3 (root), 4 and 5; `copy` fills the field `parent`
of the new nodes 4 and 5 with the `parent` of the nodes they are copied from,
which is the address 0 of the root of the source.  The parent pointers of the
children of the copy therefore designate a node of the source, not the node 3 of
the copy below which they hang. -/
theorem C26_rbt_copy_parent_points_into_source :
    ∃ h2 c2, RBTHeap.operator_assign
        ([⟨10, 0, .BLACK, none, some 1, some 2⟩, ⟨5, 0, .RED, some 0, none, none⟩,
          ⟨15, 0, .RED, some 0, none, none⟩] : List (RBTHeap.PNode Nat Nat))
        ⟨some 0, 3⟩ = some (h2, c2) ∧
      c2.root = some 3 ∧ c2.node_count = 3 ∧
      RBTHeap.nodesBelow 3 h2 (some 0) = [0, 1, 2] ∧
      RBTHeap.nodesBelow 3 h2 c2.root = [3, 4, 5] ∧
      h2[3]?.map (fun n => (n.key, n.left, n.right, n.parent)) =
        some (10, some 4, some 5, none) ∧
      h2[4]?.map (fun n => (n.key, n.parent)) = some (5, some 0) ∧
      h2[5]?.map (fun n => (n.key, n.parent)) = some (15, some 0) ∧
      0 ∉ RBTHeap.nodesBelow 3 h2 c2.root :=
  ⟨_, _, rfl, rfl, rfl, rfl, rfl, rfl, rfl, rfl, by decide⟩

/-- Claim C27 (failing input).  The sequence `add 0, add 9, add 4, add 11, add 10,
remove 2, add 1`, in which every added key is not stored at that moment, does
not run to completion on the red-black engine: `remove(2)` leaves a RED root
(the early `return` of the not-found path) and the last `add` reads
`p->parent->key` through the null parent pointer of the root.  No collection
state follows the sequence, in which `size()` could equal the number of nodes.
The same sequence runs to completion on the AVL engine, with `size()` equal to
the number of keys. -/
theorem C27_rbt_run_does_not_return :
    RBT.run (RBT.RBTCollection.empty : RBT.RBTCollection Nat Nat)
        [.add 0 100, .add 9 109, .add 4 104, .add 11 111, .add 10 110, .remove 2,
          .add 1 101] = none ∧
    (RBT.run (RBT.RBTCollection.empty : RBT.RBTCollection Nat Nat)
        [.add 0 100, .add 9 109, .add 4 104, .add 11 111, .add 10 110, .remove 2]).map
      (fun c => (c.size, c.keys.length, RBT.colorOf c.root)) = some (5, 5, some .RED) ∧
    (AVL.run (AVL.AVLCollection.empty : AVL.AVLCollection Nat Nat)
        [.add 0 100, .add 9 109, .add 4 104, .add 11 111, .add 10 110, .remove 2,
          .add 1 101]).map
      (fun c => (c.size, c.keys.length)) = some (6, 6) :=
  ⟨by decide, by decide, by decide⟩
